import Mathlib

/-!
Verification development for the `small_asc` Lucene-style query translator
(`small_asc/query.py`).  The PEG grammar `lucene_query_grammar`, the
`LuceneQueryBuilder` visitor and the public entry points `parse_query`,
`parse_with_field_replacements` and `validate_query` are embedded shallowly:
the grammar becomes a fuel-indexed recursive-descent parser over `List Char`
mirroring the ordered-choice productions, and the visitor becomes a
structural rebuild function returning `Except`.
-/

namespace SmallAsc

/-! ## Character classes

`isPySpace` models the whitespace set shared by Python's `str.strip()` and the
regex class `\s` (ASCII whitespace plus the Unicode whitespace code points).
`isWordChar` models the Unicode-aware regex class `\w`: ASCII alphanumerics and
underscore exactly; non-ASCII code points are treated as word characters unless
they are whitespace (Python's `\w` accepts non-ASCII letters, digits and marks;
the claims only exercise the ASCII subset and the whitespace/word distinction).
-/

def isPySpace (c : Char) : Bool :=
  c = ' ' || c = '\t' || c = '\n' || c = '\r' || c = '\x0b' || c = '\x0c' ||
  c = '\x1c' || c = '\x1d' || c = '\x1e' || c = '\x1f' || c = '\u0085' ||
  c = '\u00a0' || c = '\u1680' ||
  (decide (0x2000 <= c.toNat) && decide (c.toNat <= 0x200a)) ||
  c = '\u2028' || c = '\u2029' || c = '\u202f' || c = '\u205f' || c = '\u3000'

/-- First character of `field_name`: `[a-zA-Z_]`. -/
def isFieldStart (c : Char) : Bool := c.isAlpha || c = '_'

/-- Later characters of `field_name`: `[a-zA-Z0-9_]`. -/
def isFieldChar (c : Char) : Bool := c.isAlphanum || c = '_'

/-- Python regex `\w` (see the note above). -/
def isWordChar (c : Char) : Bool :=
  c.isAlphanum || c = '_' || (decide (128 ≤ c.toNat) && !isPySpace c)

/-- The `literal` character class: word characters plus dot, comma, bang, colon, semicolon, at sign, caret, hyphen, slash and pipe. -/
def isLiteralChar (c : Char) : Bool :=
  isWordChar c || c = '.' || c = ',' || c = '!' || c = ':' || c = ';' ||
  c = '@' || c = '^' || c = '-' || c = '/' || c = '|'

/-! ## Whitespace normalisation helpers (specification side) -/

/-- Collapse every maximal run of whitespace to a single space.  The boolean
records whether the previously emitted character belonged to a whitespace
run. -/
def collapseAux : Bool → List Char → List Char
  | _, [] => []
  | prevWs, c :: t =>
      if isPySpace c then
        if prevWs then collapseAux true t else ' ' :: collapseAux true t
      else c :: collapseAux false t

def collapseWs (l : List Char) : List Char := collapseAux false l

/-- Python `str.strip()`. -/
def pyStrip (l : List Char) : List Char :=
  ((l.dropWhile isPySpace).reverse.dropWhile isPySpace).reverse

/-! ## Parse-tree node kinds

One constructor per grammar production the visitor distinguishes, mirroring
the parsimonious parse tree (which is itself untyped). -/

inductive TSuffix where
  | wstar
  | wquestion
  | fuzz (d : Option Char)
  deriving Repr, DecidableEq

structure TermT where
  lit : List Char
  suffix : Option TSuffix
  boost : Option (List Char)
  deriving Repr, DecidableEq

inductive RValT where
  | star
  | rterm (t : TermT)
  deriving Repr, DecidableEq

structure RangeT where
  excl : Bool
  lo : RValT
  hi : RValT
  deriving Repr, DecidableEq

inductive PSuffix where
  | pboost (n : List Char)
  | pfuzz (d : Option Char)
  deriving Repr, DecidableEq

structure PhraseT where
  first : List Char
  rest : List (List Char)
  suffix : Option PSuffix
  deriving Repr, DecidableEq

inductive OpT where
  | plus
  | minus
  deriving Repr, DecidableEq

inductive QT where
  | qmore (c : QT) (rest : QT)
  | qlast (c : QT)
  | clauseN (op : Option OpT) (b : QT)
  | emptyF (fn : List Char)
  | fielded (fn : List Char) (v : QT)
  | group (q : QT)
  | rangeN (r : RangeT)
  | termN (t : TermT)
  | phraseN (p : PhraseT)
  deriving Repr, DecidableEq

/-! ## Text synthesis for the leaf node kinds (visitor `generic_visit` parts) -/

def renderOp : Option OpT → List Char
  | none => []
  | some .plus => ['+']
  | some .minus => ['-']

def renderTSuffix : Option TSuffix → List Char
  | none => []
  | some .wstar => ['*']
  | some .wquestion => ['?']
  | some (.fuzz none) => ['~']
  | some (.fuzz (some d)) => ['~', d]

def renderBoost : Option (List Char) → List Char
  | none => []
  | some n => '^' :: n

def renderTerm (t : TermT) : List Char :=
  t.lit ++ renderTSuffix t.suffix ++ renderBoost t.boost

def renderRVal : RValT → List Char
  | .star => ['*']
  | .rterm t => renderTerm t

def renderRange (r : RangeT) : List Char :=
  (if r.excl then '\x7b' else '[') ::
    (renderRVal r.lo ++ ' ' :: 'T' :: 'O' :: ' ' :: renderRVal r.hi ++
      [if r.excl then '\x7d' else ']'])

def renderPSuffix : Option PSuffix → List Char
  | none => []
  | some (.pboost n) => '^' :: n
  | some (.pfuzz none) => ['~']
  | some (.pfuzz (some d)) => ['~', d]

def renderPhraseRest (rs : List (List Char)) : List Char :=
  rs.foldr (fun li acc => ' ' :: (li ++ acc)) []

def renderPhrase (p : PhraseT) : List Char :=
  '"' :: (p.first ++ renderPhraseRest p.rest ++ '"' :: renderPSuffix p.suffix)

/-- The text the visitor produces when no field mapping is active: source text
with each whitespace node replaced by a single space. -/
def renderQ : QT → List Char
  | .qmore c r => renderQ c ++ ' ' :: renderQ r
  | .qlast c => renderQ c
  | .clauseN op b => renderOp op ++ renderQ b
  | .emptyF fn => fn ++ [':']
  | .fielded fn v => fn ++ ':' :: renderQ v
  | .group q => '(' :: (renderQ q ++ [')'])
  | .rangeN r => renderRange r
  | .termN t => renderTerm t
  | .phraseN p => renderPhrase p

/-- Does the tree contain an `empty_field_clause` node? -/
def hasEmptyQ : QT → Bool
  | .qmore c r => hasEmptyQ c || hasEmptyQ r
  | .qlast c => hasEmptyQ c
  | .clauseN _ b => hasEmptyQ b
  | .emptyF _ => true
  | .fielded _ v => hasEmptyQ v
  | .group q => hasEmptyQ q
  | .rangeN _ => false
  | .termN _ => false
  | .phraseN _ => false

/-- Source field names of all `fielded_clause` nodes, in visit order. -/
def collectFields : QT → List (List Char)
  | .qmore c r => collectFields c ++ collectFields r
  | .qlast c => collectFields c
  | .clauseN _ b => collectFields b
  | .emptyF _ => []
  | .fielded fn v => fn :: collectFields v
  | .group q => collectFields q
  | .rangeN _ => []
  | .termN _ => []
  | .phraseN _ => []

/-! ## Errors and the rebuilding visitor -/

inductive RErr where
  | emptyField (f : String)
  | fieldNotFound (f : String)
  deriving Repr, DecidableEq

inductive QueryError where
  | queryParseError
  | emptyFieldQueryError (f : String)
  | fieldNotFoundError (f : String)
  deriving Repr, DecidableEq

/-- `not self.replacement_field_names`: true for `None` and for the empty
dict. -/
def noValidation : Option (List (String × String)) → Bool
  | none => true
  | some [] => true
  | some (_ :: _) => false

/-- `LuceneQueryBuilder.visit`: children are visited left to right (so the
leftmost error wins), `visit_whitespace` yields a single space,
`visit_empty_field_clause` always raises, and `visit_fielded_clause` validates
and substitutes the field name when a mapping was supplied. -/
def rebuildQ (fo : Option (List (String × String))) (raw : List String) :
    QT → Except RErr (List Char)
  | .qmore c r => do
      let a ← rebuildQ fo raw c
      let b ← rebuildQ fo raw r
      pure (a ++ ' ' :: b)
  | .qlast c => rebuildQ fo raw c
  | .clauseN op b => do
      let s ← rebuildQ fo raw b
      pure (renderOp op ++ s)
  | .emptyF fn => .error (.emptyField (String.mk fn))
  | .fielded fn v => do
      let vs ← rebuildQ fo raw v
      if noValidation fo then
        pure (fn ++ ':' :: vs)
      else
        let fnS := String.mk fn
        let m := fo.getD []
        if (m.lookup fnS).isNone && !(raw.contains fnS) then
          .error (.fieldNotFound fnS)
        else
          pure (((m.lookup fnS).getD fnS).toList ++ ':' :: vs)
  | .group q => do
      let s ← rebuildQ fo raw q
      pure ('(' :: (s ++ [')']))
  | .rangeN r => pure (renderRange r)
  | .termN t => pure (renderTerm t)
  | .phraseN p => pure (renderPhrase p)

/-! ## The parser

Recursive descent following the ordered-choice productions of
`lucene_query_grammar`.  Helpers that involve no recursion through `query` are
plain structural functions; the mutually recursive productions (`query`, the
`(whitespace clause)*` loop, `clause`, `fielded_clause`, `boolean_clause`) and
the `(whitespace literal)*` loop of `phrase` take a fuel argument so the
definitions stay structurally recursive (fuel exhaustion yields failure, never
a wrong success: the top-level entry point supplies ample fuel). -/

/-- `whitespace = ~r"\s+"` (greedy: consumes the maximal run). -/
def parseWs : List Char → Option (List Char)
  | [] => none
  | c :: t => if isPySpace c then some (t.dropWhile isPySpace) else none

/-- `field_name = ~r"[a-zA-Z_][a-zA-Z0-9_]*"` (greedy). -/
def parseFieldName : List Char → Option (List Char × List Char)
  | [] => none
  | c :: t =>
      if isFieldStart c then some (c :: t.takeWhile isFieldChar, t.dropWhile isFieldChar)
      else none

/-- The `literal` production: one or more literal-class characters (greedy). -/
def parseLiteral (l : List Char) : Option (List Char × List Char) :=
  if (l.takeWhile isLiteralChar).isEmpty then none
  else some (l.takeWhile isLiteralChar, l.dropWhile isLiteralChar)

/-- `digit?` inside `fuzziness`. -/
def parseDigitOpt : List Char → Option Char × List Char
  | [] => (none, [])
  | c :: t => if c.isDigit then (some c, t) else (none, c :: t)

/-- `number = ~r"[0-9]+(\.[0-9]+)?"` (the fractional group matches only when a
dot is followed by at least one digit). -/
def parseNumber (l : List Char) : Option (List Char × List Char) :=
  if (l.takeWhile Char.isDigit).isEmpty then none
  else
    match l.dropWhile Char.isDigit with
    | [] => some (l.takeWhile Char.isDigit, [])
    | c :: r2 =>
        if c = '.' then
          if (r2.takeWhile Char.isDigit).isEmpty then
            some (l.takeWhile Char.isDigit, c :: r2)
          else
            some (l.takeWhile Char.isDigit ++ c :: r2.takeWhile Char.isDigit,
              r2.dropWhile Char.isDigit)
        else some (l.takeWhile Char.isDigit, c :: r2)

/-- `boost? = ("^" number)?`: if `number` fails after `^`, the whole optional
matches nothing. -/
def parseBoostOpt : List Char → Option (List Char) × List Char
  | [] => (none, [])
  | c :: t =>
      if c = '^' then
        match parseNumber t with
        | some (n, r) => (some n, r)
        | none => (none, c :: t)
      else (none, c :: t)

/-- `(wildcard / fuzziness)?` with `wildcard = "*" / "?"` and
`fuzziness = "~" digit?`. -/
def parseTSuffixOpt : List Char → Option TSuffix × List Char
  | [] => (none, [])
  | c :: t =>
      if c = '*' then (some .wstar, t)
      else if c = '?' then (some .wquestion, t)
      else if c = '~' then
        match parseDigitOpt t with
        | (d, r) => (some (.fuzz d), r)
      else (none, c :: t)

/-- `term = literal (wildcard / fuzziness)? boost?`. -/
def parseTerm (l : List Char) : Option (TermT × List Char) :=
  match parseLiteral l with
  | none => none
  | some (lit, r1) =>
      match parseTSuffixOpt r1 with
      | (sfx, r2) =>
          match parseBoostOpt r2 with
          | (b, r3) => some (⟨lit, sfx, b⟩, r3)

/-- `range_value = wildcard_multiple / term`. -/
def parseRVal : List Char → Option (RValT × List Char)
  | [] => none
  | c :: t =>
      if c = '*' then some (.star, t)
      else
        match parseTerm (c :: t) with
        | some (tm, r) => some (.rterm tm, r)
        | none => none

/-- One bracket flavour of `range_clause`. -/
def parseRangeWith (excl : Bool) (oc cc : Char) (l : List Char) :
    Option (RangeT × List Char) :=
  match l with
  | [] => none
  | c :: t =>
      if c = oc then
        match parseRVal t with
        | none => none
        | some (lo, r1) =>
            match parseWs r1 with
            | none => none
            | some r2 =>
                match r2 with
                | [] => none
                | [_] => none
                | c1 :: c2 :: r3 =>
                    if c1 = 'T' then
                      if c2 = 'O' then
                        match parseWs r3 with
                        | none => none
                        | some r4 =>
                            match parseRVal r4 with
                            | none => none
                            | some (hi, r5) =>
                                match r5 with
                                | [] => none
                                | c3 :: r6 =>
                                    if c3 = cc then some (⟨excl, lo, hi⟩, r6)
                                    else none
                      else none
                    else none
      else none

/-- `range_clause = range_inclusive / range_exclusive`. -/
def parseRange (l : List Char) : Option (RangeT × List Char) :=
  match parseRangeWith false '[' ']' l with
  | some r => some r
  | none => parseRangeWith true '\x7b' '\x7d' l

/-- `empty_field_clause = field_name ":" !~r"."`: the negative lookahead
succeeds exactly when the input is exhausted or the next character is a
newline (the regex `.` matches every character except `\n`). -/
def parseEmptyField (l : List Char) : Option (List Char × List Char) :=
  match parseFieldName l with
  | none => none
  | some (fn, r) =>
      match r with
      | [] => none
      | c :: rest =>
          if c = ':' then
            match rest with
            | [] => some (fn, [])
            | c2 :: _ => if c2 = '\n' then some (fn, rest) else none
          else none

/-- The optional operator `~r"[+\-]"?`. -/
def parseOp : List Char → Option OpT × List Char
  | [] => (none, [])
  | c :: t =>
      if c = '+' then (some .plus, t)
      else if c = '-' then (some .minus, t)
      else (none, c :: t)

/-- The `(whitespace literal)*` loop of `phrase`.  A failed iteration
backtracks over its whitespace. -/
def parsePhraseRest : Nat → List Char → List (List Char) × List Char
  | 0, l => ([], l)
  | fuel + 1, l =>
      match parseWs l with
      | none => ([], l)
      | some r1 =>
          match parseLiteral r1 with
          | none => ([], l)
          | some (lit, r2) =>
              match parsePhraseRest fuel r2 with
              | (ls, r3) => (lit :: ls, r3)

/-- `(boost / fuzziness)?` after a phrase. -/
def parsePSuffixOpt : List Char → Option PSuffix × List Char
  | [] => (none, [])
  | c :: t =>
      if c = '^' then
        match parseNumber t with
        | some (n, r) => (some (.pboost n), r)
        | none => (none, c :: t)
      else if c = '~' then
        match parseDigitOpt t with
        | (d, r) => (some (.pfuzz d), r)
      else (none, c :: t)

/-- `phrase = '"' literal (whitespace literal)* '"' (boost / fuzziness)?`. -/
def parsePhrase (fuel : Nat) (l : List Char) : Option (PhraseT × List Char) :=
  match l with
  | [] => none
  | c :: t =>
      if c = '"' then
        match parseLiteral t with
        | none => none
        | some (lit1, r1) =>
            match parsePhraseRest fuel r1 with
            | (ls, r2) =>
                match r2 with
                | [] => none
                | c2 :: r3 =>
                    if c2 = '"' then
                      match parsePSuffixOpt r3 with
                      | (sfx, r4) => some (⟨lit1, ls, sfx⟩, r4)
                    else none
      else none

/-- `term_or_phrase = term / phrase`. -/
def parseTermOrPhrase (fuel : Nat) (l : List Char) : Option (QT × List Char) :=
  match parseTerm l with
  | some (t, r) => some (.termN t, r)
  | none =>
      match parsePhrase fuel l with
      | some (p, r) => some (.phraseN p, r)
      | none => none

inductive PTag where
  | pquery
  | pqstar
  | pclause
  | pfielded
  | pbool
  deriving Repr, DecidableEq

def mkQ (c : QT) : Option QT → QT
  | none => .qlast c
  | some rest => .qmore c rest

/-- The mutually recursive productions, dispatched by tag:
`query = clause (whitespace clause)*`;
`clause = optional_operator? (empty_field_clause / fielded_clause /
term_or_phrase / boolean_clause / range_clause)`;
`fielded_clause = field_name ":" (term / phrase / range_clause /
boolean_clause)`;
`boolean_clause = "(" query ")"`.
For `pqstar` the returned `Option QT` is the chain of the remaining clauses
(`none` when the loop matched zero iterations); for the other tags it is
always `some` node. -/
def parseP : Nat → PTag → List Char → Option (Option QT × List Char)
  | 0, _, _ => none
  | fuel + 1, tag, l =>
      match tag with
      | .pquery =>
          match parseP fuel .pclause l with
          | some (some c, r1) =>
              (match parseP fuel .pqstar r1 with
               | some (rest, r2) => some (some (mkQ c rest), r2)
               | none => none)
          | _ => none
      | .pqstar =>
          match parseWs l with
          | some r1 =>
              (match parseP fuel .pclause r1 with
               | some (some c, r2) =>
                   (match parseP fuel .pqstar r2 with
                    | some (rest, r3) => some (some (mkQ c rest), r3)
                    | none => none)
               | _ => some (none, l))
          | none => some (none, l)
      | .pclause =>
          (match parseOp l with
           | (op, l1) =>
               match parseEmptyField l1 with
               | some (fn, r) => some (some (.clauseN op (.emptyF fn)), r)
               | none =>
                   match parseP fuel .pfielded l1 with
                   | some (some b, r) => some (some (.clauseN op b), r)
                   | _ =>
                       match parseTermOrPhrase fuel l1 with
                       | some (b, r) => some (some (.clauseN op b), r)
                       | none =>
                           match parseP fuel .pbool l1 with
                           | some (some b, r) => some (some (.clauseN op b), r)
                           | _ =>
                               match parseRange l1 with
                               | some (rg, r) => some (some (.clauseN op (.rangeN rg)), r)
                               | none => none)
      | .pfielded =>
          match parseFieldName l with
          | none => none
          | some (fn, r1) =>
              match r1 with
              | [] => none
              | c :: r2 =>
                  if c = ':' then
                    match parseTerm r2 with
                    | some (t, r) => some (some (.fielded fn (.termN t)), r)
                    | none =>
                        match parsePhrase fuel r2 with
                        | some (p, r) => some (some (.fielded fn (.phraseN p)), r)
                        | none =>
                            match parseRange r2 with
                            | some (rg, r) => some (some (.fielded fn (.rangeN rg)), r)
                            | none =>
                                match parseP fuel .pbool r2 with
                                | some (some b, r) => some (some (.fielded fn b), r)
                                | _ => none
                  else none
      | .pbool =>
          match l with
          | [] => none
          | c :: t =>
              if c = '(' then
                match parseP fuel .pquery t with
                | some (some q, r1) =>
                    (match r1 with
                     | [] => none
                     | c2 :: r2 => if c2 = ')' then some (some (.group q), r2) else none)
                | _ => none
              else none

/-- Ample fuel for the descent: the fuel spent along any call chain is bounded
by a small multiple of the number of non-whitespace characters. -/
def fuelOf (l : List Char) : Nat :=
  4 * (l.filter (fun c => !isPySpace c)).length + 8

/-- `lucene_query_grammar.parse`: a full-input match or failure (parsimonious
raises `IncompleteParseError`, a `ParseError`, on leftover input). -/
def luceneParse (l : List Char) : Option QT :=
  match parseP (fuelOf l) .pquery l with
  | some (some t, []) => some t
  | _ => none

/-! ## Public API (`parse_query`, `parse_with_field_replacements`,
`validate_query`, `_run_grammar`) -/

/-- `_run_grammar`: strip, parse (syntax failure becomes `QueryParseError`),
then rebuild (visitor errors surface unchanged). -/
def runGrammar (q : String) (fo : Option (List (String × String)))
    (raw : Option (List String)) : Except QueryError String :=
  match luceneParse (pyStrip q.toList) with
  | none => .error .queryParseError
  | some t =>
      match rebuildQ fo (raw.getD []) t with
      | .ok out => .ok (String.mk out)
      | .error (.emptyField f) => .error (.emptyFieldQueryError f)
      | .error (.fieldNotFound f) => .error (.fieldNotFoundError f)

def parse_query (q : String) : Except QueryError String :=
  runGrammar q none none

def parse_with_field_replacements (q : String) (fields : List (String × String))
    (raw_fields : Option (List String)) : Except QueryError String :=
  runGrammar q (some fields) raw_fields

/-- `validate_query`: only the grammar parse runs; every failure becomes
`false` and no visitor (hence no field or empty-field check) is involved. -/
def validate_query (q : String) : Bool :=
  (luceneParse (pyStrip q.toList)).isSome

/-- Whitespace normal form: strip, then collapse internal runs. -/
def wsNormalize (q : String) : String :=
  String.mk (collapseWs (pyStrip q.toList))

/-- The field name the visitor emits for a fielded clause whose source field
name is `fn` (`self.replacement_field_names.get(field, field)`). -/
def emittedName (m : List (String × String)) (fn : List Char) : String :=
  (m.lookup (String.mk fn)).getD (String.mk fn)

/-- Does this character list match the whole `field_name` regex
`[a-zA-Z_][a-zA-Z0-9_]*`? -/
def isFieldNameL : List Char → Bool
  | [] => false
  | c :: t => isFieldStart c && t.all isFieldChar

/-- The first character, if any, is not whitespace. -/
def headNo (c : List Char) : Prop :=
  ∀ x, c.head? = some x → isPySpace x = false

/-- The last character, if any, is not whitespace. -/
def lastNo (c : List Char) : Prop :=
  ∀ x, c.getLast? = some x → isPySpace x = false

/-- No character is whitespace. -/
def noWs (c : List Char) : Bool :=
  c.all (fun x => !isPySpace x)

/-- A production matched the non-empty prefix `c` of the input, the prefix
whitespace-collapses to the visitor text of the produced node, and the prefix
neither starts nor ends with whitespace. -/
def NodeSpec (l : List Char) (n : QT) (r : List Char) : Prop :=
  ∃ c, l = c ++ r ∧ collapseAux false c = renderQ n ∧
    c ≠ [] ∧ headNo c ∧ lastNo c

/-- The consumption contract of one `parseP` production: `pqstar` either
matches nothing or matches whitespace followed by a clause chain; every other
tag matches a prefix described by `NodeSpec`. -/
def ConsumeSpec : PTag → List Char → Option QT × List Char → Prop
  | .pqstar, l, (o, r) =>
      (o = none ∧ r = l) ∨
      (∃ n, o = some n ∧ ∃ c, l = c ++ r ∧
        collapseAux false c = ' ' :: renderQ n ∧ c ≠ [] ∧ lastNo c)
  | _, l, (o, r) => ∃ n, o = some n ∧ NodeSpec l n r

/-- Relation between the node produced on an input and the node produced on
the whitespace-collapsed input: emptiness agrees, and when the original tree
has no `empty_field_clause` the trees coincide (an empty-field clause detected
through a newline reparses, after collapsing, as a bare literal term with the
same span). -/
def OColl (o o2 : Option QT) : Prop :=
  (o = none → o2 = none) ∧
  (∀ n, o = some n → ∃ n2, o2 = some n2 ∧ (hasEmptyQ n = false → n2 = n))

/-! ## Association-list and membership helper lemmas -/

theorem lookup_some_keys_values {m : List (String × String)} {k v : String}
    (h : m.lookup k = some v) : k ∈ m.map Prod.fst ∧ v ∈ m.map Prod.snd := by
  induction m with
  | nil => simp [List.lookup] at h
  | cons a t ih =>
      rw [List.lookup] at h
      by_cases hk : k = a.1
      · refine ⟨by simp [hk], ?_⟩
        have : (k == a.1) = true := by simp [hk]
        rw [this] at h
        simp at h
        simp [← h]
      · have : (k == a.1) = false := by simp [hk]
        rw [this] at h
        rcases ih h with ⟨h1, h2⟩
        exact ⟨by simp [h1], by simp [h2]⟩

theorem keys_mem_lookup_isSome {m : List (String × String)} {k : String}
    (h : k ∈ m.map Prod.fst) : (m.lookup k).isSome = true := by
  induction m with
  | nil => simp at h
  | cons a t ih =>
      rw [List.lookup]
      by_cases hk : k = a.1
      · have : (k == a.1) = true := by simp [hk]
        rw [this]; rfl
      · have hbeq : (k == a.1) = false := by simp [hk]
        rw [hbeq]
        apply ih
        simp at h
        rcases h with h | ⟨x, hx⟩
        · exact absurd h hk
        · exact List.mem_map_of_mem Prod.fst hx

theorem contains_eq_mem (l : List String) (a : String) :
    l.contains a = true ↔ a ∈ l := by
  induction l with
  | nil => simp
  | cons x t ih => simp [List.contains]

/-! ## Visitor invariants, by structural induction on the tree -/

/-- If the visitor succeeds with a non-empty mapping, every fielded clause's
source field name is a mapping key or a raw allow-set member. -/
theorem rebuild_ok_fields {m : List (String × String)} {raw : List String} :
    ∀ t s, rebuildQ (some m) raw t = Except.ok s → m ≠ [] →
      ∀ fn ∈ collectFields t,
        String.mk fn ∈ m.map Prod.fst ∨ String.mk fn ∈ raw := by
  intro t
  induction t with
  | qmore c r ihc ihr =>
      intro s h hm fn hmem
      rw [rebuildQ] at h
      cases hc : rebuildQ (some m) raw c with
      | error e => rw [hc] at h; simp [Bind.bind, Except.bind] at h
      | ok a =>
          rw [hc] at h
          cases hr : rebuildQ (some m) raw r with
          | error e => rw [hr] at h; simp [Bind.bind, Except.bind] at h
          | ok b =>
              rw [collectFields, List.mem_append] at hmem
              rcases hmem with hmem | hmem
              · exact ihc a hc hm fn hmem
              · exact ihr b hr hm fn hmem
  | qlast c ih =>
      intro s h hm fn hmem
      rw [rebuildQ] at h
      rw [collectFields] at hmem
      exact ih s h hm fn hmem
  | clauseN op b ih =>
      intro s h hm fn hmem
      rw [rebuildQ] at h
      cases hb : rebuildQ (some m) raw b with
      | error e => rw [hb] at h; simp [Bind.bind, Except.bind] at h
      | ok a =>
          rw [collectFields] at hmem
          exact ih a hb hm fn hmem
  | emptyF fn0 =>
      intro s h hm fn hmem
      simp [collectFields] at hmem
  | fielded fn0 v ih =>
      intro s h hm fn hmem
      rw [rebuildQ] at h
      cases hv : rebuildQ (some m) raw v with
      | error e => rw [hv] at h; simp [Bind.bind, Except.bind] at h
      | ok a =>
          rw [hv] at h
          rw [collectFields] at hmem
          rcases List.mem_cons.mp hmem with rfl | hmem
          · have hval : noValidation (some m) = false := by
              cases m with
              | nil => exact absurd rfl hm
              | cons p t => rfl
            simp [Bind.bind, Except.bind, hval] at h
            by_cases hcont : raw.contains (String.mk fn) = true
            · exact Or.inr ((contains_eq_mem _ _).mp hcont)
            · cases hvo : m.lookup (String.mk fn) with
              | none =>
                  exfalso
                  rw [Bool.not_eq_true] at hcont
                  rw [hvo, hcont] at h
                  simp at h
              | some v0 => exact Or.inl (lookup_some_keys_values hvo).1
          · exact ih a hv hm fn hmem
  | group q ih =>
      intro s h hm fn hmem
      rw [rebuildQ] at h
      cases hq : rebuildQ (some m) raw q with
      | error e => rw [hq] at h; simp [Bind.bind, Except.bind] at h
      | ok a =>
          rw [collectFields] at hmem
          exact ih a hq hm fn hmem
  | rangeN r => intro s h hm fn hmem; simp [collectFields] at hmem
  | termN t0 => intro s h hm fn hmem; simp [collectFields] at hmem
  | phraseN p => intro s h hm fn hmem; simp [collectFields] at hmem

/-- A tree without empty-field nodes never produces an `emptyField` error. -/
theorem rebuild_no_empty_err {fo : Option (List (String × String))}
    {raw : List String} :
    ∀ t, hasEmptyQ t = false →
      ∀ f, rebuildQ fo raw t ≠ Except.error (RErr.emptyField f) := by
  intro t
  induction t with
  | qmore c r ihc ihr =>
      intro he f h
      rw [hasEmptyQ, Bool.or_eq_false_iff] at he
      rw [rebuildQ] at h
      cases hc : rebuildQ fo raw c with
      | error e =>
          rw [hc] at h
          simp [Bind.bind, Except.bind] at h
          exact ihc he.1 f (by rw [hc, h])
      | ok a =>
          rw [hc] at h
          cases hr : rebuildQ fo raw r with
          | error e =>
              rw [hr] at h
              simp [Bind.bind, Except.bind] at h
              exact ihr he.2 f (by rw [hr, h])
          | ok b => rw [hr] at h; simp [Bind.bind, Except.bind, Pure.pure, Except.pure] at h
  | qlast c ih =>
      intro he f h
      rw [hasEmptyQ] at he
      rw [rebuildQ] at h
      exact ih he f h
  | clauseN op b ih =>
      intro he f h
      rw [hasEmptyQ] at he
      rw [rebuildQ] at h
      cases hb : rebuildQ fo raw b with
      | error e =>
          rw [hb] at h
          simp [Bind.bind, Except.bind] at h
          exact ih he f (by rw [hb, h])
      | ok a => rw [hb] at h; simp [Bind.bind, Except.bind, Pure.pure, Except.pure] at h
  | emptyF fn0 => intro he f h; rw [hasEmptyQ] at he; exact absurd he (by simp)
  | fielded fn0 v ih =>
      intro he f h
      rw [hasEmptyQ] at he
      rw [rebuildQ] at h
      cases hv : rebuildQ fo raw v with
      | error e =>
          rw [hv] at h
          simp [Bind.bind, Except.bind] at h
          exact ih he f (by rw [hv, h])
      | ok a =>
          rw [hv] at h
          simp only [Bind.bind, Except.bind] at h
          split at h
          · simp [Pure.pure, Except.pure] at h
          · split at h
            · simp at h
            · simp [Pure.pure, Except.pure] at h
  | group q ih =>
      intro he f h
      rw [hasEmptyQ] at he
      rw [rebuildQ] at h
      cases hq : rebuildQ fo raw q with
      | error e =>
          rw [hq] at h
          simp [Bind.bind, Except.bind] at h
          exact ih he f (by rw [hq, h])
      | ok a => rw [hq] at h; simp [Bind.bind, Except.bind, Pure.pure, Except.pure] at h
  | rangeN r => intro he f h; simp [rebuildQ, Pure.pure, Except.pure] at h
  | termN t0 => intro he f h; simp [rebuildQ, Pure.pure, Except.pure] at h
  | phraseN p => intro he f h; simp [rebuildQ, Pure.pure, Except.pure] at h

/-- A `fieldNotFound` error always names a fielded clause's source field name
that failed the allow-list check, and only arises when validation is
active. -/
theorem rebuild_field_err_analysis {fo : Option (List (String × String))}
    {raw : List String} :
    ∀ t s, rebuildQ fo raw t = Except.error (RErr.fieldNotFound s) →
      ∃ fn, fn ∈ collectFields t ∧ String.mk fn = s ∧
        noValidation fo = false ∧
        ((fo.getD []).lookup s).isNone = true ∧
        raw.contains s = false := by
  intro t
  induction t with
  | qmore c r ihc ihr =>
      intro s h
      rw [rebuildQ] at h
      cases hc : rebuildQ fo raw c with
      | error e =>
          rw [hc] at h
          simp [Bind.bind, Except.bind] at h
          rcases ihc s (by rw [hc, h]) with ⟨fn, h1, h2⟩
          exact ⟨fn, by simp [collectFields, h1], h2⟩
      | ok a =>
          rw [hc] at h
          cases hr : rebuildQ fo raw r with
          | error e =>
              rw [hr] at h
              simp [Bind.bind, Except.bind] at h
              rcases ihr s (by rw [hr, h]) with ⟨fn, h1, h2⟩
              exact ⟨fn, by simp [collectFields, h1], h2⟩
          | ok b => rw [hr] at h; simp [Bind.bind, Except.bind, Pure.pure, Except.pure] at h
  | qlast c ih =>
      intro s h
      rw [rebuildQ] at h
      rcases ih s h with ⟨fn, h1, h2⟩
      exact ⟨fn, by simp [collectFields, h1], h2⟩
  | clauseN op b ih =>
      intro s h
      rw [rebuildQ] at h
      cases hb : rebuildQ fo raw b with
      | error e =>
          rw [hb] at h
          simp [Bind.bind, Except.bind] at h
          rcases ih s (by rw [hb, h]) with ⟨fn, h1, h2⟩
          exact ⟨fn, by simp [collectFields, h1], h2⟩
      | ok a => rw [hb] at h; simp [Bind.bind, Except.bind, Pure.pure, Except.pure] at h
  | emptyF fn0 => intro s h; simp [rebuildQ] at h
  | fielded fn0 v ih =>
      intro s h
      rw [rebuildQ] at h
      cases hv : rebuildQ fo raw v with
      | error e =>
          rw [hv] at h
          simp [Bind.bind, Except.bind] at h
          rcases ih s (by rw [hv, h]) with ⟨fn, h1, h2⟩
          exact ⟨fn, by simp [collectFields, h1], h2⟩
      | ok a =>
          rw [hv] at h
          simp only [Bind.bind, Except.bind] at h
          split at h
          · simp [Pure.pure, Except.pure] at h
          · rename_i hval
            rw [Bool.not_eq_true] at hval
            split at h
            · rename_i hcond
              rw [Bool.and_eq_true] at hcond
              rcases hcond with ⟨h1, h2⟩
              rw [Bool.not_eq_true'] at h2
              injection h with h'
              injection h' with h''
              refine ⟨fn0, by simp [collectFields], h'', hval, ?_, ?_⟩
              · rw [← h'']; exact h1
              · rw [← h'']; exact h2
            · simp [Pure.pure, Except.pure] at h
  | group q ih =>
      intro s h
      rw [rebuildQ] at h
      cases hq : rebuildQ fo raw q with
      | error e =>
          rw [hq] at h
          simp [Bind.bind, Except.bind] at h
          rcases ih s (by rw [hq, h]) with ⟨fn, h1, h2⟩
          exact ⟨fn, by simp [collectFields, h1], h2⟩
      | ok a => rw [hq] at h; simp [Bind.bind, Except.bind, Pure.pure, Except.pure] at h
  | rangeN r => intro s h; simp [rebuildQ, Pure.pure, Except.pure] at h
  | termN t0 => intro s h; simp [rebuildQ, Pure.pure, Except.pure] at h
  | phraseN p => intro s h; simp [rebuildQ, Pure.pure, Except.pure] at h

/-! ## Character-class facts -/

theorem not_space_of_fieldChar {c : Char} (h : isFieldChar c = true) :
    isPySpace c = false := by
  by_contra hsp
  rw [Bool.not_eq_false] at hsp
  rw [isFieldChar] at h
  rcases (by simpa using h : c.isAlphanum = true ∨ c = '_') with ha | rfl
  · have hb : 48 ≤ c.toNat ∧ c.toNat ≤ 122 := by
      have hr : ((65 ≤ c.toNat ∧ c.toNat ≤ 90) ∨ (97 ≤ c.toNat ∧ c.toNat ≤ 122)) ∨
          (48 ≤ c.toNat ∧ c.toNat ≤ 57) := by
        simp [Char.isAlphanum, Char.isAlpha, Char.isUpper, Char.isLower,
          Char.isDigit] at ha
        exact_mod_cast ha
      omega
    simp only [isPySpace, Bool.or_eq_true, decide_eq_true_eq, Bool.and_eq_true] at hsp
    casesm* _ ∨ _
    all_goals
      rename_i hx
    all_goals
      first
        | (subst hx; exact absurd hb (by decide))
        | omega
  · exact absurd hsp (by decide)

theorem fieldStart_fieldChar {c : Char} (h : isFieldStart c = true) :
    isFieldChar c = true := by
  rw [isFieldStart] at h
  rw [isFieldChar]
  rcases (by simpa using h : c.isAlpha = true ∨ c = '_') with ha | rfl
  · simp [Char.isAlphanum, ha]
  · simp

theorem not_space_of_fieldStart {c : Char} (h : isFieldStart c = true) :
    isPySpace c = false :=
  not_space_of_fieldChar (fieldStart_fieldChar h)

/-! ## Claim C1: field allow-listing -/

/-- Claim C1 as stated is false for the empty mapping: `not {}` is truthy in
Python, so supplying an empty dict disables field validation entirely and an
unmapped, unvalidated field name appears verbatim in the output. -/
theorem c1_empty_mapping_cex :
    parse_with_field_replacements "anything:foo" [] (some []) =
      Except.ok "anything:foo" ∧
    luceneParse (pyStrip ("anything:foo").toList) =
      some (QT.qlast (QT.clauseN none (QT.fielded ("anything").toList
        (QT.termN ⟨("foo").toList, none, none⟩)))) ∧
    collectFields (QT.qlast (QT.clauseN none (QT.fielded ("anything").toList
        (QT.termN ⟨("foo").toList, none, none⟩)))) = [("anything").toList] ∧
    emittedName [] ("anything").toList = "anything" ∧
    (([] : List (String × String)).map Prod.snd).contains "anything" = false ∧
    ([] : List String).contains "anything" = false :=
  ⟨rfl, rfl, rfl, rfl, rfl, rfl⟩

/-- Claim C1, amended: for every query, every *non-empty* field mapping and
every raw allow-set, when `parse_with_field_replacements` returns a canonical
string, the field name emitted at each fielded clause of the parse tree is
either a mapped value taken from the mapping or a member of the raw
allow-set.  (An empty mapping dict disables validation, as the counterexample
records.) -/
theorem c1_mapped_fields_allowlisted (q : String) (m : List (String × String))
    (raw : List String) (out : String) (t : QT) (hm : m ≠ [])
    (hp : luceneParse (pyStrip q.toList) = some t)
    (hok : parse_with_field_replacements q m (some raw) = Except.ok out) :
    ∀ fn ∈ collectFields t,
      emittedName m fn ∈ m.map Prod.snd ∨ emittedName m fn ∈ raw := by
  have hreb : ∃ s, rebuildQ (some m) raw t = Except.ok s := by
    unfold parse_with_field_replacements runGrammar at hok
    rw [hp] at hok
    simp only [Option.getD_some] at hok
    cases hr : rebuildQ (some m) raw t with
    | ok s => exact ⟨s, rfl⟩
    | error e => cases e <;> rw [hr] at hok <;> simp at hok
  rcases hreb with ⟨s, hs⟩
  intro fn hmem
  rcases rebuild_ok_fields t s hs hm fn hmem with hk | hr
  · rcases Option.isSome_iff_exists.mp (keys_mem_lookup_isSome hk) with ⟨v0, hv0⟩
    unfold emittedName
    rw [hv0]
    exact Or.inl (by simpa using (lookup_some_keys_values hv0).2)
  · unfold emittedName
    cases hv0 : m.lookup (String.mk fn) with
    | some v0 => exact Or.inl (by simpa using (lookup_some_keys_values hv0).2)
    | none => exact Or.inr (by simpa using hr)

/-- Witness: the amended C1 theorem applied to a concrete query, mapping and
allow-set. -/
theorem c1_witness :
    emittedName [("valid_field", "valid_solr_field")] ("valid_field").toList ∈
        [("valid_field", "valid_solr_field")].map Prod.snd ∨
      emittedName [("valid_field", "valid_solr_field")] ("valid_field").toList ∈
        ([] : List String) :=
  c1_mapped_fields_allowlisted "valid_field:foo"
    [("valid_field", "valid_solr_field")] [] "valid_solr_field:foo"
    (QT.qlast (QT.clauseN none (QT.fielded ("valid_field").toList
      (QT.termN ⟨("foo").toList, none, none⟩))))
    (by decide) rfl rfl ("valid_field").toList (by decide)

/-! ## Claim C5: unknown fields rejected -/

/-- Claim C5 as stated is false: the empty-field check can preempt the field
allow-list check.  In `"x:\nbad:foo"` the fielded clause `bad:foo` references
a field outside the mapping and the allow-set, yet the call raises
`EmptyFieldQueryError` (for the empty-field clause `x:` that the newline
lookahead admits), not `FieldNotFoundError`. -/
theorem c5_preempted_cex :
    luceneParse (pyStrip ("x:\nbad:foo").toList) =
      some (QT.qmore (QT.clauseN none (QT.emptyF ("x").toList))
        (QT.qlast (QT.clauseN none (QT.fielded ("bad").toList
          (QT.termN ⟨("foo").toList, none, none⟩))))) ∧
    collectFields (QT.qmore (QT.clauseN none (QT.emptyF ("x").toList))
        (QT.qlast (QT.clauseN none (QT.fielded ("bad").toList
          (QT.termN ⟨("foo").toList, none, none⟩))))) = [("bad").toList] ∧
    [("other", "x")].lookup "bad" = none ∧
    ([] : List String).contains "bad" = false ∧
    parse_with_field_replacements "x:\nbad:foo" [("other", "x")] (some []) =
      Except.error (QueryError.emptyFieldQueryError "x") :=
  ⟨rfl, rfl, rfl, rfl, rfl⟩

/-- Claim C5, amended: with a non-empty mapping, a fielded clause referencing
a field name neither in the mapping nor in the raw allow-set makes the
rebuild fail with `FieldNotFoundError` carrying an offending field name —
provided no empty-field clause preempts it (otherwise `EmptyFieldQueryError`
is raised instead, as the counterexample records).  The check applies at
every fielded clause, including ones nested inside boolean groups: the second
conjunct exercises `(invalid_field:foo)`. -/
theorem c5_field_not_found :
    (parse_with_field_replacements "invalid_field:foo" [("other", "x")]
        (some []) =
      Except.error (QueryError.fieldNotFoundError "invalid_field")) ∧
    (parse_with_field_replacements "(invalid_field:foo)" [("other", "x")]
        (some []) =
      Except.error (QueryError.fieldNotFoundError "invalid_field")) ∧
    ∀ (t : QT) (m : List (String × String)) (raw : List String), m ≠ [] →
      hasEmptyQ t = false →
      (∃ fn ∈ collectFields t,
        m.lookup (String.mk fn) = none ∧
        raw.contains (String.mk fn) = false) →
      ∃ g, g ∈ collectFields t ∧ m.lookup (String.mk g) = none ∧
        raw.contains (String.mk g) = false ∧
        rebuildQ (some m) raw t =
          Except.error (RErr.fieldNotFound (String.mk g)) := by
  refine ⟨rfl, rfl, ?_⟩
  intro t m raw hm he hbad
  cases hres : rebuildQ (some m) raw t with
  | ok s =>
      exfalso
      rcases hbad with ⟨fn, hmem, hlook, hcont⟩
      rcases rebuild_ok_fields t s hres hm fn hmem with hk | hr
      · have := keys_mem_lookup_isSome hk
        rw [hlook] at this
        simp at this
      · have := (contains_eq_mem raw (String.mk fn)).mpr hr
        rw [hcont] at this
        simp at this
  | error e =>
      cases e with
      | emptyField f => exact absurd hres (rebuild_no_empty_err t he f)
      | fieldNotFound s =>
          rcases rebuild_field_err_analysis t s hres with ⟨g, hg1, hg2, hg3, hg4, hg5⟩
          refine ⟨g, hg1, ?_, ?_, by rw [hg2]⟩
          · rw [hg2]
            exact Option.isNone_iff_eq_none.mp (by simpa using hg4)
          · rw [hg2]; exact hg5

/-- Witness: the universal part of the amended C5 theorem applied to the
parse tree of `"bad:foo"` with a non-empty mapping. -/
theorem c5_witness :
    ∃ g, g ∈ collectFields (QT.qlast (QT.clauseN none
        (QT.fielded ("bad").toList (QT.termN ⟨("foo").toList, none, none⟩)))) ∧
      [("other", "x")].lookup (String.mk g) = none ∧
      ([] : List String).contains (String.mk g) = false ∧
      rebuildQ (some [("other", "x")]) []
          (QT.qlast (QT.clauseN none (QT.fielded ("bad").toList
            (QT.termN ⟨("foo").toList, none, none⟩)))) =
        Except.error (RErr.fieldNotFound (String.mk g)) :=
  c5_field_not_found.2.2
    (QT.qlast (QT.clauseN none (QT.fielded ("bad").toList
      (QT.termN ⟨("foo").toList, none, none⟩))))
    [("other", "x")] [] (by decide) (by decide)
    ⟨("bad").toList, by decide, by decide, by decide⟩

/-! ## Claim C2: validity consistency -/

/-- Claim C2 as stated is false: `validate_query` only runs the grammar parse,
while `parse_query` additionally runs the visitor, which can raise
`EmptyFieldQueryError` on grammatically valid input.  At `"shelfmark:"` the
grammar accepts (so `validate_query` returns `true`) but `parse_query`
returns an error. -/
theorem c2_validity_cex :
    ¬(validate_query "shelfmark:" = true ↔
      (parse_query "shelfmark:").toOption.isSome = true) := by
  decide

/-- Claim C2, amended: for every `q`, `validate_query q` is `true` iff
`parse_query q` does not fail with `QueryParseError`; `parse_query` may still
fail with `EmptyFieldQueryError` on inputs `validate_query` accepts, and
`validate_query` itself is a total boolean function (every internal failure is
`false`). -/
theorem c2_validity_consistency_amended (q : String) :
    validate_query q = true ↔
      parse_query q ≠ Except.error QueryError.queryParseError := by
  unfold validate_query parse_query runGrammar
  cases h : luceneParse (pyStrip q.toList) with
  | none => simp
  | some t =>
      cases hr : rebuildQ none [] t with
      | ok out => simp [hr]
      | error e => cases e <;> simp [hr]

/-- Witness: the amended C2 equivalence evaluated at a concrete input. -/
theorem c2_witness :
    validate_query "foo" = true ↔
      parse_query "foo" ≠ Except.error QueryError.queryParseError :=
  c2_validity_consistency_amended "foo"

/-! ## Claim C4: field substitution and raw pass-through -/

/-- Claim C4: a mapped field name is substituted with its mapped value, and a
raw-allowed field name passes through unchanged (here because an empty
mapping dict disables validation altogether, the raw name survives
verbatim). -/
theorem c4_field_substitution :
    parse_with_field_replacements "valid_field:foo"
        [("valid_field", "valid_solr_field")] (some []) =
      Except.ok "valid_solr_field:foo" ∧
    parse_with_field_replacements "raw_solr_field:bar" []
        (some ["raw_solr_field"]) =
      Except.ok "raw_solr_field:bar" :=
  ⟨rfl, rfl⟩

/-! ## Claim C7: malformed syntax rejected -/

/-- Claim C7: unbalanced quote, unbalanced parentheses and repeated wildcard
characters all yield `QueryParseError` from `parse_query` (a wildcard binds to
exactly one adjacent symbol, so `fo?????` leaves unconsumed input), and
`validate_query` returns `false` on each of these inputs. -/
theorem c7_malformed_rejected :
    parse_query "\"foo" = Except.error QueryError.queryParseError ∧
    parse_query "(foo" = Except.error QueryError.queryParseError ∧
    parse_query "bar)" = Except.error QueryError.queryParseError ∧
    parse_query "fo?????" = Except.error QueryError.queryParseError ∧
    validate_query "\"foo" = false ∧
    validate_query "(foo" = false ∧
    validate_query "bar)" = false ∧
    validate_query "fo?????" = false :=
  ⟨rfl, rfl, rfl, rfl, rfl, rfl, rfl, rfl⟩

/-! ## Claim C10: where the empty-field error is detected -/

/-- Claim C10 as stated is false: the empty-field clause is not detected
*only* when the colon ends the entire stripped input.  The negative lookahead
`!~r"."` also succeeds before a newline (regex `.` does not match `\n`), so
`"shelfmark:\nfoo"` — whose stripped form does not end at the colon — still
raises `EmptyFieldQueryError`. -/
theorem c10_newline_cex :
    pyStrip ("shelfmark:\nfoo").toList = ("shelfmark:\nfoo").toList ∧
    parse_query "shelfmark:\nfoo" =
      Except.error (QueryError.emptyFieldQueryError "shelfmark") :=
  ⟨rfl, rfl⟩

/-- Claim C10, amended: the empty-field clause is detected when the colon is
followed by end of (stripped) input or by a newline.  When the colon is
followed by a space and a further clause, as in `"shelfmark: foo"`, the input
parses successfully with `shelfmark:` treated as a bare literal term (`:` is
in the literal character class), and no field validation is applied to
`shelfmark` even when a mapping is supplied. -/
theorem c10_colon_detection :
    parse_query "shelfmark: foo" = Except.ok "shelfmark: foo" ∧
    parse_with_field_replacements "shelfmark: foo" [("other", "x")] (some []) =
      Except.ok "shelfmark: foo" ∧
    parse_query "shelfmark:\nfoo" =
      Except.error (QueryError.emptyFieldQueryError "shelfmark") :=
  ⟨rfl, rfl, rfl⟩

/-! ## List and strip helper lemmas -/

theorem takeWhile_all_append {p : Char → Bool} (t : List Char) (c : Char)
    (r : List Char) (ht : t.all p = true) (hc : p c = false) :
    (t ++ c :: r).takeWhile p = t ∧ (t ++ c :: r).dropWhile p = c :: r := by
  induction t with
  | nil => simp [List.takeWhile_cons, List.dropWhile_cons, hc]
  | cons a t ih =>
      rw [List.all_cons, Bool.and_eq_true] at ht
      rcases ht with ⟨ha, ht⟩
      rcases ih ht with ⟨h1, h2⟩
      simp [List.takeWhile_cons, List.dropWhile_cons, ha, h1, h2]

theorem dropWhile_head_false {p : Char → Bool} (c : Char) (l : List Char)
    (hc : p c = false) : (c :: l).dropWhile p = c :: l := by
  simp [List.dropWhile_cons, hc]

theorem pyStrip_of_all_space (l : List Char) (h : l.all isPySpace = true) :
    pyStrip l = [] := by
  unfold pyStrip
  have h1 : l.dropWhile isPySpace = [] := by
    rw [List.dropWhile_eq_nil_iff]
    intro x hx
    exact List.all_eq_true.mp h x hx
  rw [h1]
  rfl

theorem pyStrip_field_colon (fn t : List Char) (hf : isFieldNameL fn = true)
    (ht : t.all isPySpace = true) :
    pyStrip (fn ++ ':' :: t) = fn ++ [':'] := by
  cases fn with
  | nil => simp [isFieldNameL] at hf
  | cons c0 fn' =>
      rw [isFieldNameL, Bool.and_eq_true] at hf
      rcases hf with ⟨hstart, hrest⟩
      unfold pyStrip
      have h1 : ((c0 :: fn') ++ ':' :: t).dropWhile isPySpace =
          (c0 :: fn') ++ ':' :: t := by
        rw [List.cons_append]
        exact dropWhile_head_false c0 (fn' ++ ':' :: t) (not_space_of_fieldStart hstart)
      rw [h1]
      have h2 : ((c0 :: fn') ++ ':' :: t).reverse =
          t.reverse ++ ':' :: (c0 :: fn').reverse := by
        rw [List.reverse_append, List.reverse_cons, List.append_assoc]
        simp
      rw [h2]
      have h3 : (t.reverse ++ ':' :: (c0 :: fn').reverse).dropWhile isPySpace =
          ':' :: (c0 :: fn').reverse := by
        rcases takeWhile_all_append t.reverse ':' ((c0 :: fn').reverse)
          (by rw [List.all_reverse]; exact ht) (by decide) with ⟨_, hd⟩
        exact hd
      rw [h3]
      simp

/-! ## Grammar evaluation lemmas for the empty-field shape -/

theorem parseOp_cons {c : Char} (t : List Char) (h1 : c ≠ '+') (h2 : c ≠ '-') :
    parseOp (c :: t) = (none, c :: t) := by
  simp [parseOp, h1, h2]

theorem fieldStart_not_plus {c : Char} (h : isFieldStart c = true) : c ≠ '+' := by
  intro hc
  subst hc
  exact absurd h (by decide)

theorem fieldStart_not_minus {c : Char} (h : isFieldStart c = true) : c ≠ '-' := by
  intro hc
  subst hc
  exact absurd h (by decide)

theorem parseFieldName_colon (fn rest : List Char) (hf : isFieldNameL fn = true) :
    parseFieldName (fn ++ ':' :: rest) = some (fn, ':' :: rest) := by
  cases fn with
  | nil => simp [isFieldNameL] at hf
  | cons c0 fn' =>
      rw [isFieldNameL, Bool.and_eq_true] at hf
      rcases hf with ⟨hstart, hrest⟩
      rw [List.cons_append, parseFieldName]
      rw [if_pos hstart]
      rcases takeWhile_all_append fn' ':' rest hrest (by decide) with ⟨h1, h2⟩
      rw [h1, h2]

theorem parseEmptyField_colon_end (fn : List Char) (hf : isFieldNameL fn = true) :
    parseEmptyField (fn ++ [':']) = some (fn, []) := by
  rw [parseEmptyField]
  rw [show fn ++ [':'] = fn ++ ':' :: ([] : List Char) from rfl]
  rw [parseFieldName_colon fn [] hf]
  rfl

theorem parseClause_emptyField (k : Nat) (fn : List Char)
    (hf : isFieldNameL fn = true) :
    parseP (k + 1) PTag.pclause (fn ++ [':']) =
      some (some (QT.clauseN none (QT.emptyF fn)), []) := by
  cases fn with
  | nil => simp [isFieldNameL] at hf
  | cons c0 fn' =>
      have hstart : isFieldStart c0 = true := by
        rw [isFieldNameL, Bool.and_eq_true] at hf
        exact hf.1
      rw [parseP]
      simp only [List.cons_append,
        parseOp_cons (fn' ++ [':']) (fieldStart_not_plus hstart)
          (fieldStart_not_minus hstart)]
      rw [show c0 :: (fn' ++ [':']) = (c0 :: fn') ++ [':'] from rfl]
      rw [parseEmptyField_colon_end (c0 :: fn') hf]

theorem parseQstar_nil (k : Nat) :
    parseP (k + 1) PTag.pqstar [] = some (none, []) := by
  rw [parseP]
  rfl

theorem parseQuery_emptyField (k : Nat) (fn : List Char)
    (hf : isFieldNameL fn = true) :
    parseP (k + 2) PTag.pquery (fn ++ [':']) =
      some (some (QT.qlast (QT.clauseN none (QT.emptyF fn))), []) := by
  rw [parseP]
  simp only [parseClause_emptyField k fn hf, parseQstar_nil k, mkQ]

theorem luceneParse_emptyField (fn : List Char) (hf : isFieldNameL fn = true) :
    luceneParse (fn ++ [':']) =
      some (QT.qlast (QT.clauseN none (QT.emptyF fn))) := by
  unfold luceneParse
  have hfuel : fuelOf (fn ++ [':']) =
      (4 * (((fn ++ [':']).filter (fun c => !isPySpace c)).length) + 6) + 2 := by
    unfold fuelOf
    omega
  rw [hfuel, parseQuery_emptyField _ fn hf]

theorem rebuild_emptyField_clause (fo : Option (List (String × String)))
    (raw : List String) (fn : List Char) :
    rebuildQ fo raw (QT.qlast (QT.clauseN none (QT.emptyF fn))) =
      Except.error (RErr.emptyField (String.mk fn)) := by
  simp [rebuildQ, Bind.bind, Except.bind]

theorem runGrammar_empty_field (fn t : List Char)
    (fo : Option (List (String × String))) (ro : Option (List String))
    (hf : isFieldNameL fn = true) (ht : t.all isPySpace = true) :
    runGrammar (String.mk (fn ++ ':' :: t)) fo ro =
      Except.error (QueryError.emptyFieldQueryError (String.mk fn)) := by
  unfold runGrammar
  rw [show (String.mk (fn ++ ':' :: t)).toList = fn ++ ':' :: t from rfl]
  rw [pyStrip_field_colon fn t hf ht]
  rw [luceneParse_emptyField fn hf]
  simp only [rebuild_emptyField_clause fo (ro.getD []) fn]

/-! ## Claim C6: empty field clause always raises -/

/-- Claim C6: for every valid field name `fn` and every run of trailing
whitespace, the input `fn ++ ":" ++ whitespace` raises `EmptyFieldQueryError`
carrying the field name — from `parse_query` and from
`parse_with_field_replacements` with any mapping and raw allow-set alike
(the empty-field visitor raises before any mapping is consulted). -/
theorem c6_empty_field_always (fn t : List Char)
    (hf : isFieldNameL fn = true) (ht : t.all isPySpace = true) :
    parse_query (String.mk (fn ++ ':' :: t)) =
      Except.error (QueryError.emptyFieldQueryError (String.mk fn)) ∧
    ∀ (m : List (String × String)) (r : Option (List String)),
      parse_with_field_replacements (String.mk (fn ++ ':' :: t)) m r =
        Except.error (QueryError.emptyFieldQueryError (String.mk fn)) := by
  constructor
  · exact runGrammar_empty_field fn t none none hf ht
  · intro m r
    exact runGrammar_empty_field fn t (some m) r hf ht

/-- Witness: the C6 theorem at `"shelfmark:"` and `"shelfmark:    "`, with and
without a mapping. -/
theorem c6_witness :
    parse_query (String.mk (("shelfmark").toList ++ ':' :: ("    ").toList)) =
      Except.error (QueryError.emptyFieldQueryError (String.mk ("shelfmark").toList)) ∧
    parse_query (String.mk (("shelfmark").toList ++ ':' :: ([] : List Char))) =
      Except.error (QueryError.emptyFieldQueryError (String.mk ("shelfmark").toList)) ∧
    parse_with_field_replacements
        (String.mk (("shelfmark").toList ++ ':' :: ([] : List Char)))
        [("other", "x")] (some []) =
      Except.error (QueryError.emptyFieldQueryError (String.mk ("shelfmark").toList)) :=
  ⟨(c6_empty_field_always ("shelfmark").toList ("    ").toList (by decide) (by decide)).1,
   (c6_empty_field_always ("shelfmark").toList [] (by decide) (by decide)).1,
   (c6_empty_field_always ("shelfmark").toList [] (by decide) (by decide)).2
     [("other", "x")] (some [])⟩

/-! ## Claim C9: blank input is rejected -/

/-- Claim C9: the empty string and every all-whitespace string fail to parse
(the grammar requires at least one clause after stripping), raising
`QueryParseError`, and `validate_query` returns `false` on them. -/
theorem c9_blank_input_rejected (s : String) (h : s.toList.all isPySpace = true) :
    parse_query s = Except.error QueryError.queryParseError ∧
    validate_query s = false := by
  have hstrip : pyStrip s.toList = [] := pyStrip_of_all_space s.toList h
  constructor
  · unfold parse_query runGrammar
    rw [hstrip]
    rfl
  · unfold validate_query
    rw [hstrip]
    rfl

/-- Witness: C9 at the empty string and at three spaces. -/
theorem c9_witness :
    (parse_query "" = Except.error QueryError.queryParseError ∧
      validate_query "" = false) ∧
    (parse_query "   " = Except.error QueryError.queryParseError ∧
      validate_query "   " = false) :=
  ⟨c9_blank_input_rejected "" (by decide), c9_blank_input_rejected "   " (by decide)⟩

/-! ## Collapse algebra -/

theorem collapseAux_noWs : ∀ (c : List Char), noWs c = true →
    ∀ b, collapseAux b c = c := by
  intro c
  induction c with
  | nil => intro _ b; rfl
  | cons x t ih =>
      intro h b
      rw [noWs, List.all_cons, Bool.and_eq_true] at h
      have hx : isPySpace x = false := by
        have := h.1
        rwa [Bool.not_eq_true'] at this
      rw [collapseAux, hx]
      simp only [Bool.false_eq_true, if_false]
      rw [ih h.2 false]

theorem collapseAux_head_switch : ∀ (b : List Char), headNo b →
    collapseAux true b = collapseAux false b := by
  intro b hb
  cases b with
  | nil => rfl
  | cons x t =>
      have hx : isPySpace x = false := hb x rfl
      rw [collapseAux, collapseAux, hx]
      simp

theorem collapseAux_cons_ws {x : Char} (hx : isPySpace x = true) (s : Bool)
    (l : List Char) :
    collapseAux s (x :: l) = (if s then [] else [' ']) ++ collapseAux true l := by
  cases s <;> simp [collapseAux, hx]

theorem collapseAux_cons_nws {x : Char} (hx : isPySpace x = false) (s : Bool)
    (l : List Char) :
    collapseAux s (x :: l) = x :: collapseAux false l := by
  cases s <;> simp [collapseAux, hx]

theorem lastNo_cons_cons {x y : Char} {t : List Char} (h : lastNo (x :: y :: t)) :
    lastNo (y :: t) := by
  intro z hz
  apply h z
  rw [List.getLast?_cons_cons]
  exact hz

theorem collapseAux_append_lastNo : ∀ (a b : List Char), a ≠ [] → lastNo a →
    ∀ s, collapseAux s (a ++ b) = collapseAux s a ++ collapseAux false b := by
  intro a
  induction a with
  | nil => intro b h; exact absurd rfl h
  | cons x t ih =>
      intro b _ hlast s
      cases t with
      | nil =>
          have hx : isPySpace x = false := hlast x rfl
          rw [List.singleton_append, collapseAux_cons_nws hx,
            collapseAux_cons_nws hx]
          rfl
      | cons y t2 =>
          have hlast2 : lastNo (y :: t2) := lastNo_cons_cons hlast
          have ih2 := ih b (by simp) hlast2
          by_cases hx : isPySpace x = true
          · rw [List.cons_append, collapseAux_cons_ws hx,
              collapseAux_cons_ws hx, ih2 true, List.append_assoc]
          · rw [Bool.not_eq_true] at hx
            rw [List.cons_append, collapseAux_cons_nws hx,
              collapseAux_cons_nws hx, ih2 false]
            rfl

theorem collapse_ws_run : ∀ (w : List Char), w ≠ [] → w.all isPySpace = true →
    collapseAux false w = [' '] ∧ collapseAux true w = [] := by
  intro w
  induction w with
  | nil => intro h; exact absurd rfl h
  | cons x t ih =>
      intro _ hall
      rw [List.all_cons, Bool.and_eq_true] at hall
      rcases hall with ⟨hx, ht⟩
      cases t with
      | nil =>
          rw [collapseAux_cons_ws hx, collapseAux_cons_ws hx]
          constructor <;> rfl
      | cons y t2 =>
          rcases ih (by simp) ht with ⟨ih1, ih2⟩
          constructor
          · rw [collapseAux_cons_ws hx]
            simp [ih2]
          · rw [collapseAux_cons_ws hx]
            simp [ih2]

/-! ## Rebuilding with no mapping produces the rendered text -/

theorem rebuild_none_render {raw : List String} :
    ∀ t out, rebuildQ none raw t = Except.ok out → out = renderQ t := by
  intro t
  induction t with
  | qmore c r ihc ihr =>
      intro out h
      rw [rebuildQ] at h
      cases hc : rebuildQ none raw c with
      | error e => rw [hc] at h; simp [Bind.bind, Except.bind] at h
      | ok a =>
          rw [hc] at h
          cases hr : rebuildQ none raw r with
          | error e => rw [hr] at h; simp [Bind.bind, Except.bind] at h
          | ok b =>
              rw [hr] at h
              simp only [Bind.bind, Except.bind, Pure.pure, Except.pure,
                Except.ok.injEq] at h
              rw [renderQ, ← ihc a hc, ← ihr b hr, ← h]
  | qlast c ih => intro out h; rw [rebuildQ] at h; rw [renderQ]; exact ih out h
  | clauseN op b ih =>
      intro out h
      rw [rebuildQ] at h
      cases hb : rebuildQ none raw b with
      | error e => rw [hb] at h; simp [Bind.bind, Except.bind] at h
      | ok a =>
          rw [hb] at h
          simp only [Bind.bind, Except.bind, Pure.pure, Except.pure,
            Except.ok.injEq] at h
          rw [renderQ, ← ih a hb, ← h]
  | emptyF fn => intro out h; simp [rebuildQ] at h
  | fielded fn v ih =>
      intro out h
      rw [rebuildQ] at h
      cases hv : rebuildQ none raw v with
      | error e => rw [hv] at h; simp [Bind.bind, Except.bind] at h
      | ok a =>
          rw [hv] at h
          simp only [Bind.bind, Except.bind] at h
          rw [show noValidation none = true from rfl] at h
          simp only [if_true, Pure.pure, Except.pure, Except.ok.injEq] at h
          rw [renderQ, ← ih a hv, ← h]
  | group q ih =>
      intro out h
      rw [rebuildQ] at h
      cases hq : rebuildQ none raw q with
      | error e => rw [hq] at h; simp [Bind.bind, Except.bind] at h
      | ok a =>
          rw [hq] at h
          simp only [Bind.bind, Except.bind, Pure.pure, Except.pure,
            Except.ok.injEq] at h
          rw [renderQ, ← ih a hq, ← h]
  | rangeN r =>
      intro out h
      simp only [rebuildQ, Pure.pure, Except.pure, Except.ok.injEq] at h
      rw [renderQ, ← h]
  | termN t0 =>
      intro out h
      simp only [rebuildQ, Pure.pure, Except.pure, Except.ok.injEq] at h
      rw [renderQ, ← h]
  | phraseN p =>
      intro out h
      simp only [rebuildQ, Pure.pure, Except.pure, Except.ok.injEq] at h
      rw [renderQ, ← h]

theorem rebuild_none_ok_of_no_empty {raw : List String} :
    ∀ t, hasEmptyQ t = false → rebuildQ none raw t = Except.ok (renderQ t) := by
  intro t
  induction t with
  | qmore c r ihc ihr =>
      intro he
      rw [hasEmptyQ, Bool.or_eq_false_iff] at he
      rw [rebuildQ, ihc he.1, ihr he.2, renderQ]
      rfl
  | qlast c ih => intro he; rw [hasEmptyQ] at he; rw [rebuildQ, renderQ]; exact ih he
  | clauseN op b ih =>
      intro he
      rw [hasEmptyQ] at he
      rw [rebuildQ, ih he, renderQ]
      rfl
  | emptyF fn => intro he; rw [hasEmptyQ] at he; exact absurd he (by simp)
  | fielded fn v ih =>
      intro he
      rw [hasEmptyQ] at he
      rw [rebuildQ, ih he]
      rfl
  | group q ih =>
      intro he
      rw [hasEmptyQ] at he
      rw [rebuildQ, ih he, renderQ]
      rfl
  | rangeN r => intro _; rfl
  | termN t0 => intro _; rfl
  | phraseN p => intro _; rfl

/-! ## Atomic parser consumption lemmas -/

theorem dropWhile_head_not (p : Char → Bool) :
    ∀ (l : List Char) c r, l.dropWhile p = c :: r → p c = false := by
  intro l
  induction l with
  | nil => intro c r h; simp at h
  | cons x t ih =>
      intro c r h
      rw [List.dropWhile_cons] at h
      by_cases hx : p x = true
      · rw [if_pos hx] at h
        exact ih c r h
      · rw [if_neg hx] at h
        injection h with h1 h2
        rw [← h1]
        rwa [Bool.not_eq_true] at hx

theorem takeWhile_all (p : Char → Bool) :
    ∀ l : List Char, (l.takeWhile p).all p = true := by
  intro l
  induction l with
  | nil => rfl
  | cons x t ih =>
      rw [List.takeWhile_cons]
      by_cases hx : p x = true
      · rw [if_pos hx, List.all_cons, hx, ih]
        rfl
      · rw [if_neg hx]
        rfl

theorem not_space_of_digit {c : Char} (h : c.isDigit = true) : isPySpace c = false := by
  apply not_space_of_fieldChar
  rw [isFieldChar, Char.isAlphanum]
  simp [h]

theorem not_space_of_wordChar {c : Char} (h : isWordChar c = true) :
    isPySpace c = false := by
  rw [isWordChar] at h
  rcases (by simpa using h : (c.isAlphanum = true ∨ c = '_') ∨
      128 ≤ c.toNat ∧ (!isPySpace c) = true) with (ha | rfl) | ⟨_, hn⟩
  · exact not_space_of_fieldChar (by rw [isFieldChar, ha]; rfl)
  · decide
  · rwa [Bool.not_eq_true'] at hn

theorem not_space_of_literalChar {c : Char} (h : isLiteralChar c = true) :
    isPySpace c = false := by
  rw [isLiteralChar] at h
  rcases (by simpa using h :
      (((((((((isWordChar c = true ∨ c = '.') ∨ c = ',') ∨ c = '!') ∨ c = ':') ∨
        c = ';') ∨ c = '@') ∨ c = '^') ∨ c = '-') ∨ c = '/') ∨ c = '|') with
    (((((((((hw | rfl) | rfl) | rfl) | rfl) | rfl) | rfl) | rfl) | rfl) | rfl) | rfl
  · exact not_space_of_wordChar hw
  all_goals decide

theorem noWs_of_all_literal {lit : List Char} (h : lit.all isLiteralChar = true) :
    noWs lit = true := by
  rw [noWs, List.all_eq_true]
  intro x hx
  simp [not_space_of_literalChar (List.all_eq_true.mp h x hx)]

theorem noWs_of_all_digit {n : List Char} (h : n.all Char.isDigit = true) :
    noWs n = true := by
  rw [noWs, List.all_eq_true]
  intro x hx
  simp [not_space_of_digit (List.all_eq_true.mp h x hx)]

theorem headNo_of_noWs {c : List Char} (h : noWs c = true) : headNo c := by
  intro x hx
  cases c with
  | nil => simp at hx
  | cons y t =>
      rw [List.head?_cons] at hx
      injection hx with hx
      subst hx
      rw [noWs, List.all_cons, Bool.and_eq_true] at h
      have := h.1
      rwa [Bool.not_eq_true'] at this

theorem mem_of_getLast? {c : List Char} {x : Char} (h : c.getLast? = some x) :
    x ∈ c := by
  induction c with
  | nil => simp at h
  | cons y t ih =>
      cases t with
      | nil =>
          rw [List.getLast?_singleton] at h
          injection h with h
          simp [h]
      | cons z t2 =>
          rw [List.getLast?_cons_cons] at h
          exact List.mem_cons_of_mem y (ih h)

theorem lastNo_of_noWs {c : List Char} (h : noWs c = true) : lastNo c := by
  intro x hx
  rw [noWs, List.all_eq_true] at h
  have := h x (mem_of_getLast? hx)
  rwa [Bool.not_eq_true'] at this

theorem lastNo_append_right {a b : List Char} (hb : b ≠ []) (h : lastNo b) :
    lastNo (a ++ b) := by
  intro x hx
  rw [List.getLast?_append_of_ne_nil _ hb] at hx
  exact h x hx

theorem parseWs_spec {l r : List Char} (h : parseWs l = some r) :
    ∃ w, l = w ++ r ∧ w ≠ [] ∧ w.all isPySpace = true ∧ headNo r := by
  cases l with
  | nil => simp [parseWs] at h
  | cons c t =>
      rw [parseWs] at h
      by_cases hc : isPySpace c = true
      · rw [if_pos hc] at h
        injection h with h1
        refine ⟨c :: t.takeWhile isPySpace, ?_, by simp, ?_, ?_⟩
        · rw [← h1, List.cons_append, List.takeWhile_append_dropWhile]
        · rw [List.all_cons, hc, takeWhile_all]
          rfl
        · intro x hx
          rw [← h1] at hx
          cases hd : t.dropWhile isPySpace with
          | nil => rw [hd] at hx; simp at hx
          | cons y t2 =>
              rw [hd, List.head?_cons] at hx
              injection hx with hx
              subst hx
              exact dropWhile_head_not _ t y t2 hd
      · rw [if_neg hc] at h
        exact absurd h (by simp)

theorem parseFieldName_spec {l fn r : List Char}
    (h : parseFieldName l = some (fn, r)) :
    l = fn ++ r ∧ isFieldNameL fn = true := by
  cases l with
  | nil => simp [parseFieldName] at h
  | cons c t =>
      rw [parseFieldName] at h
      by_cases hc : isFieldStart c = true
      · rw [if_pos hc] at h
        injection h with h1
        injection h1 with ha hb
        constructor
        · rw [← ha, ← hb, List.cons_append, List.takeWhile_append_dropWhile]
        · rw [← ha, isFieldNameL, hc, takeWhile_all]
          rfl
      · rw [if_neg hc] at h
        exact absurd h (by simp)

theorem noWs_of_fieldName {fn : List Char} (h : isFieldNameL fn = true) :
    noWs fn = true := by
  cases fn with
  | nil => rfl
  | cons c t =>
      rw [isFieldNameL, Bool.and_eq_true] at h
      rw [noWs, List.all_cons, Bool.and_eq_true]
      constructor
      · rw [Bool.not_eq_true', not_space_of_fieldStart h.1]
      · rw [List.all_eq_true]
        intro x hx
        simp [not_space_of_fieldChar (List.all_eq_true.mp h.2 x hx)]

theorem parseLiteral_spec {l lit r : List Char}
    (h : parseLiteral l = some (lit, r)) :
    l = lit ++ r ∧ lit ≠ [] ∧ lit.all isLiteralChar = true := by
  rw [parseLiteral] at h
  split at h
  · exact absurd h (by simp)
  · rename_i hne
    injection h with h1
    injection h1 with ha hb
    refine ⟨by rw [← ha, ← hb, List.takeWhile_append_dropWhile], ?_, ?_⟩
    · intro hcon
      rw [← ha] at hcon
      rw [hcon] at hne
      exact hne rfl
    · rw [← ha]
      exact takeWhile_all _ _

theorem parseDigitOpt_spec {l r : List Char} {d : Option Char}
    (h : parseDigitOpt l = (d, r)) :
    l = (match d with | none => [] | some c => [c]) ++ r ∧
      (∀ c, d = some c → c.isDigit = true) := by
  cases l with
  | nil =>
      rw [parseDigitOpt] at h
      injection h with h1 h2
      subst h1; subst h2
      exact ⟨rfl, by intro c hc; simp at hc⟩
  | cons c t =>
      rw [parseDigitOpt] at h
      by_cases hc : c.isDigit = true
      · rw [if_pos hc] at h
        injection h with h1 h2
        subst h1; subst h2
        exact ⟨rfl, by intro c2 hc2; injection hc2 with hc2; rwa [← hc2]⟩
      · rw [if_neg hc] at h
        injection h with h1 h2
        subst h1; subst h2
        exact ⟨rfl, by intro c2 hc2; simp at hc2⟩

theorem parseNumber_spec {l n r : List Char} (h : parseNumber l = some (n, r)) :
    l = n ++ r ∧ n ≠ [] ∧ noWs n = true := by
  rw [parseNumber] at h
  split at h
  · exact absurd h (by simp)
  · rename_i hne
    have hnn : l.takeWhile Char.isDigit ≠ [] := fun hcon => hne (by rw [hcon]; rfl)
    have hd1 : noWs (l.takeWhile Char.isDigit) = true :=
      noWs_of_all_digit (takeWhile_all _ _)
    have hsplit : l = l.takeWhile Char.isDigit ++ l.dropWhile Char.isDigit :=
      (List.takeWhile_append_dropWhile Char.isDigit l).symm
    split at h
    · rename_i hdrop
      injection h with h1
      injection h1 with ha hb
      subst ha; subst hb
      refine ⟨?_, hnn, hd1⟩
      conv_lhs => rw [hsplit, hdrop]
    · rename_i c r2 hdrop
      split at h
      · rename_i hdot
        subst hdot
        split at h
        · injection h with h1
          injection h1 with ha hb
          subst ha; subst hb
          refine ⟨?_, hnn, hd1⟩
          conv_lhs => rw [hsplit, hdrop]
        · rename_i hne2
          injection h with h1
          injection h1 with ha hb
          subst ha; subst hb
          refine ⟨?_, by simp, ?_⟩
          · conv_lhs => rw [hsplit, hdrop]
            rw [List.append_assoc, List.cons_append,
              List.takeWhile_append_dropWhile]
          · rw [noWs, List.all_append, Bool.and_eq_true]
            refine ⟨hd1, ?_⟩
            rw [List.all_cons, Bool.and_eq_true]
            exact ⟨by decide, noWs_of_all_digit (takeWhile_all _ _)⟩
      · injection h with h1
        injection h1 with ha hb
        subst ha; subst hb
        refine ⟨?_, hnn, hd1⟩
        conv_lhs => rw [hsplit, hdrop]

theorem parseBoostOpt_spec {l r : List Char} {b : Option (List Char)}
    (h : parseBoostOpt l = (b, r)) :
    l = renderBoost b ++ r ∧ noWs (renderBoost b) = true := by
  cases l with
  | nil =>
      rw [parseBoostOpt] at h
      injection h with h1 h2
      subst h1; subst h2
      exact ⟨rfl, rfl⟩
  | cons c t =>
      simp only [parseBoostOpt.eq_def] at h
      split at h
      · rename_i hc
        subst hc
        cases hn : parseNumber t with
        | some nr =>
            rw [hn] at h
            cases nr with
            | mk n0 r0 =>
                injection h with h1 h2
                subst h1; subst h2
                rcases parseNumber_spec hn with ⟨he, hne, hnw⟩
                refine ⟨by rw [renderBoost, he, List.cons_append], ?_⟩
                rw [renderBoost, noWs, List.all_cons, Bool.and_eq_true]
                exact ⟨by decide, hnw⟩
        | none =>
            rw [hn] at h
            injection h with h1 h2
            subst h1; subst h2
            exact ⟨rfl, rfl⟩
      · injection h with h1 h2
        subst h1; subst h2
        exact ⟨rfl, rfl⟩

theorem parseTSuffixOpt_spec {l r : List Char} {sfx : Option TSuffix}
    (h : parseTSuffixOpt l = (sfx, r)) :
    l = renderTSuffix sfx ++ r ∧ noWs (renderTSuffix sfx) = true := by
  cases l with
  | nil =>
      rw [parseTSuffixOpt] at h
      injection h with h1 h2
      subst h1; subst h2
      exact ⟨rfl, rfl⟩
  | cons c t =>
      simp only [parseTSuffixOpt.eq_def] at h
      split at h
      · rename_i hc
        subst hc
        injection h with h1 h2
        subst h1; subst h2
        exact ⟨rfl, rfl⟩
      · split at h
        · rename_i hc
          subst hc
          injection h with h1 h2
          subst h1; subst h2
          exact ⟨rfl, rfl⟩
        · split at h
          · rename_i hc
            subst hc
            cases hd : parseDigitOpt t with
            | mk d0 r0 =>
                rw [hd] at h
                injection h with h1 h2
                subst h1; subst h2
                rcases parseDigitOpt_spec hd with ⟨he, hdig⟩
                cases d0 with
                | none => exact ⟨by rw [renderTSuffix, he]; rfl, rfl⟩
                | some dc =>
                    refine ⟨by rw [renderTSuffix, he]; rfl, ?_⟩
                    rw [renderTSuffix, noWs, List.all_cons, List.all_cons]
                    have hdc := not_space_of_digit (hdig dc rfl)
                    have ht2 : isPySpace '~' = false := by decide
                    simp [hdc, ht2]
          · injection h with h1 h2
            subst h1; subst h2
            exact ⟨rfl, rfl⟩

theorem parsePSuffixOpt_spec {l r : List Char} {sfx : Option PSuffix}
    (h : parsePSuffixOpt l = (sfx, r)) :
    l = renderPSuffix sfx ++ r ∧ noWs (renderPSuffix sfx) = true := by
  cases l with
  | nil =>
      rw [parsePSuffixOpt] at h
      injection h with h1 h2
      subst h1; subst h2
      exact ⟨rfl, rfl⟩
  | cons c t =>
      simp only [parsePSuffixOpt.eq_def] at h
      split at h
      · rename_i hc
        subst hc
        cases hn : parseNumber t with
        | some nr =>
            rw [hn] at h
            cases nr with
            | mk n0 r0 =>
                injection h with h1 h2
                subst h1; subst h2
                rcases parseNumber_spec hn with ⟨he, hne, hnw⟩
                refine ⟨by rw [renderPSuffix, he, List.cons_append], ?_⟩
                rw [renderPSuffix, noWs, List.all_cons, Bool.and_eq_true]
                exact ⟨by decide, hnw⟩
        | none =>
            rw [hn] at h
            injection h with h1 h2
            subst h1; subst h2
            exact ⟨rfl, rfl⟩
      · split at h
        · rename_i hc
          subst hc
          cases hd : parseDigitOpt t with
          | mk d0 r0 =>
              rw [hd] at h
              injection h with h1 h2
              subst h1; subst h2
              rcases parseDigitOpt_spec hd with ⟨he, hdig⟩
              cases d0 with
              | none => exact ⟨by rw [renderPSuffix, he]; rfl, rfl⟩
              | some dc =>
                  refine ⟨by rw [renderPSuffix, he]; rfl, ?_⟩
                  rw [renderPSuffix, noWs, List.all_cons, List.all_cons]
                  have hdc := not_space_of_digit (hdig dc rfl)
                  have ht2 : isPySpace '~' = false := by decide
                  simp [hdc, ht2]
        · injection h with h1 h2
          subst h1; subst h2
          exact ⟨rfl, rfl⟩

theorem parseTerm_spec {l r : List Char} {t : TermT}
    (h : parseTerm l = some (t, r)) :
    l = renderTerm t ++ r ∧ renderTerm t ≠ [] ∧ noWs (renderTerm t) = true := by
  rw [parseTerm] at h
  split at h
  · exact absurd h (by simp)
  · rename_i lit r1 hl
    split at h
    · rename_i sfx r2 hs
      split at h
      · rename_i bo r3 hb
        injection h with h1
        injection h1 with ha hbb
        subst hbb
        rcases parseLiteral_spec hl with ⟨he1, hne1, hall1⟩
        rcases parseTSuffixOpt_spec hs with ⟨he2, hnw2⟩
        rcases parseBoostOpt_spec hb with ⟨he3, hnw3⟩
        have hrt : renderTerm t = lit ++ (renderTSuffix sfx ++ renderBoost bo) := by
          rw [← ha, renderTerm, List.append_assoc]
        refine ⟨?_, ?_, ?_⟩
        · rw [hrt, he1, he2, he3]
          simp [List.append_assoc]
        · rw [hrt]
          simp [hne1]
        · rw [hrt, noWs, List.all_append, List.all_append]
          rw [noWs] at hnw2 hnw3
          have hl1 := noWs_of_all_literal hall1
          rw [noWs] at hl1
          simp [hl1, hnw2, hnw3]

theorem parseRVal_spec {l r : List Char} {rv : RValT}
    (h : parseRVal l = some (rv, r)) :
    l = renderRVal rv ++ r ∧ renderRVal rv ≠ [] ∧ noWs (renderRVal rv) = true := by
  cases l with
  | nil => simp [parseRVal] at h
  | cons c t =>
      simp only [parseRVal.eq_def] at h
      split at h
      · rename_i hc
        subst hc
        injection h with h1
        injection h1 with ha hb
        subst hb
        rw [← ha]
        exact ⟨rfl, by simp [renderRVal], rfl⟩
      · split at h
        · rename_i tm r0 ht2
          injection h with h1
          injection h1 with ha hb
          subst hb
          rcases parseTerm_spec ht2 with ⟨he, hne2, hnw⟩
          rw [← ha]
          exact ⟨he, hne2, hnw⟩
        · exact absurd h (by simp)

theorem collapse_all_ws_append : ∀ (w rest : List Char) (s : Bool), w ≠ [] →
    w.all isPySpace = true →
    collapseAux s (w ++ rest) =
      (if s then ([] : List Char) else [' ']) ++ collapseAux true rest := by
  intro w
  induction w with
  | nil => intro rest s h; exact absurd rfl h
  | cons x t ih =>
      intro rest s _ hall
      rw [List.all_cons, Bool.and_eq_true] at hall
      cases t with
      | nil =>
          rw [List.singleton_append, collapseAux_cons_ws hall.1]
      | cons y t2 =>
          rw [List.cons_append, collapseAux_cons_ws hall.1,
            ih rest true (by simp) hall.2]
          cases s <;> rfl

theorem collapse_ws_then {w rest : List Char} (hw : w ≠ [])
    (hall : w.all isPySpace = true) (hr : headNo rest) :
    collapseAux false (w ++ rest) = ' ' :: collapseAux false rest := by
  rw [collapse_all_ws_append w rest false hw hall, collapseAux_head_switch rest hr]
  rfl

theorem collapse_noWs_append {a : List Char} (b : List Char) (ha : noWs a = true)
    (hne : a ≠ []) :
    collapseAux false (a ++ b) = a ++ collapseAux false b := by
  rw [collapseAux_append_lastNo a b hne (lastNo_of_noWs ha), collapseAux_noWs a ha]

theorem collapse_append_of_opt {a : List Char} (b : List Char)
    (hx : a = [] ∨ (a ≠ [] ∧ lastNo a)) :
    collapseAux false (a ++ b) = collapseAux false a ++ collapseAux false b := by
  rcases hx with rfl | ⟨hne, hl⟩
  · rfl
  · rw [collapseAux_append_lastNo a b hne hl]

theorem headNo_append_left {a : List Char} (b : List Char) (hne : a ≠ [])
    (h : headNo a) : headNo (a ++ b) := by
  intro x hx
  cases a with
  | nil => exact absurd rfl hne
  | cons y t =>
      rw [List.cons_append, List.head?_cons] at hx
      injection hx with hx
      subst hx
      exact h y rfl

theorem lastNo_cons_of_ne {x : Char} {m : List Char} (hm : m ≠ [])
    (h : lastNo m) : lastNo (x :: m) := by
  intro z hz
  cases m with
  | nil => exact absurd rfl hm
  | cons y t =>
      rw [List.getLast?_cons_cons] at hz
      exact h z hz

theorem lastNo_singleton {x : Char} (hx : isPySpace x = false) : lastNo [x] := by
  intro z hz
  rw [List.getLast?_singleton] at hz
  injection hz with hz
  subst hz
  exact hx

theorem parseOp_spec {l r : List Char} {op : Option OpT}
    (h : parseOp l = (op, r)) :
    l = renderOp op ++ r ∧ noWs (renderOp op) = true := by
  cases l with
  | nil =>
      rw [parseOp] at h
      injection h with h1 h2
      subst h1; subst h2
      exact ⟨rfl, rfl⟩
  | cons c t =>
      simp only [parseOp.eq_def] at h
      split at h
      · rename_i hc
        subst hc
        injection h with h1 h2
        subst h1; subst h2
        exact ⟨rfl, rfl⟩
      · split at h
        · rename_i hc
          subst hc
          injection h with h1 h2
          subst h1; subst h2
          exact ⟨rfl, rfl⟩
        · injection h with h1 h2
          subst h1; subst h2
          exact ⟨rfl, rfl⟩

theorem parseEmptyField_spec {l fn r : List Char}
    (h : parseEmptyField l = some (fn, r)) :
    l = (fn ++ [':']) ++ r ∧ isFieldNameL fn = true ∧
      noWs (fn ++ [':']) = true ∧ (r = [] ∨ r.head? = some '\n') := by
  rw [parseEmptyField] at h
  split at h
  · exact absurd h (by simp)
  · rename_i fn0 r0 heq
    rcases parseFieldName_spec heq with ⟨hl, hf⟩
    have hnws : noWs (fn0 ++ [':']) = true := by
      rw [noWs, List.all_append, Bool.and_eq_true]
      constructor
      · have hx := noWs_of_fieldName hf
        rwa [noWs] at hx
      · decide
    split at h
    · exact absurd h (by simp)
    · rename_i c rest
      split at h
      · rename_i hc
        subst hc
        split at h
        · injection h with h1
          injection h1 with ha hb
          subst ha; subst hb
          exact ⟨by rw [hl]; simp, hf, hnws, Or.inl rfl⟩
        · rename_i c2 rest2
          split at h
          · rename_i hc2
            subst hc2
            injection h with h1
            injection h1 with ha hb
            subst ha; subst hb
            refine ⟨by rw [hl]; simp, hf, hnws, Or.inr (by rw [List.head?_cons])⟩
          · exact absurd h (by simp)
      · exact absurd h (by simp)

theorem parseRangeWith_spec {excl : Bool} {oc cc : Char} {l r : List Char}
    {rg : RangeT} (hoc : isPySpace oc = false) (hcc : isPySpace cc = false)
    (h : parseRangeWith excl oc cc l = some (rg, r)) :
    rg.excl = excl ∧ ∃ c, l = c ++ r ∧
      collapseAux false c =
        oc :: (renderRVal rg.lo ++ ' ' :: 'T' :: 'O' :: ' ' ::
          renderRVal rg.hi ++ [cc]) ∧
      c ≠ [] ∧ headNo c ∧ lastNo c := by
  rw [parseRangeWith.eq_def] at h
  split at h
  · exact absurd h (by simp)
  · rename_i c0 t
    split at h
    · rename_i hc0
      subst hc0
      split at h
      · exact absurd h (by simp)
      · rename_i lo r1 hlo
        split at h
        · exact absurd h (by simp)
        · rename_i r2 hws1
          split at h
          · exact absurd h (by simp)
          · exact absurd h (by simp)
          · rename_i c1 c2 r3
            split at h
            · rename_i hc1
              subst hc1
              split at h
              · rename_i hc2
                subst hc2
                split at h
                · exact absurd h (by simp)
                · rename_i r4 hws2
                  split at h
                  · exact absurd h (by simp)
                  · rename_i hi r5 hhi
                    split at h
                    · exact absurd h (by simp)
                    · rename_i c3 r6
                      split at h
                      · rename_i hc3
                        subst hc3
                        injection h with h1
                        injection h1 with ha hb
                        subst hb
                        rcases parseRVal_spec hlo with ⟨helo, hnelo, hnwlo⟩
                        rcases parseWs_spec hws1 with ⟨w1, hew1, hnew1, hallw1, hhr2⟩
                        rcases parseWs_spec hws2 with ⟨w2, hew2, hnew2, hallw2, hhr4⟩
                        rcases parseRVal_spec hhi with ⟨hehi, hnehi, hnwhi⟩
                        have hglo : renderRVal rg.lo = renderRVal lo := by rw [← ha]
                        have hghi : renderRVal rg.hi = renderRVal hi := by rw [← ha]
                        have hgex : rg.excl = excl := by rw [← ha]
                        refine ⟨hgex, c0 :: (renderRVal lo ++ (w1 ++ ('T' :: 'O' ::
                          (w2 ++ (renderRVal hi ++ [c3]))))), ?_, ?_, by simp, ?_, ?_⟩
                        · rw [List.cons_append, helo, hew1, hew2, hehi]
                          simp [List.append_assoc, List.cons_append]
                        · rw [collapseAux_cons_nws hoc]
                          rw [collapse_noWs_append _ hnwlo hnelo]
                          rw [collapse_ws_then hnew1 hallw1
                            (by intro x hx; rw [List.head?_cons] at hx;
                                injection hx with hx; subst hx; decide)]
                          rw [collapseAux_cons_nws (by decide),
                            collapseAux_cons_nws (by decide)]
                          rw [collapse_ws_then hnew2 hallw2
                            (headNo_append_left _ (by simp [hnehi])
                              (headNo_of_noWs hnwhi))]
                          rw [collapse_noWs_append _ hnwhi hnehi,
                            collapseAux_cons_nws hcc]
                          rw [hglo, hghi]
                          simp [collapseAux]
                        · intro x hx
                          rw [List.head?_cons] at hx
                          injection hx with hx
                          subst hx
                          exact hoc
                        · apply lastNo_cons_of_ne (by simp)
                          apply lastNo_append_right (by simp)
                          apply lastNo_append_right (by simp)
                          apply lastNo_cons_of_ne (by simp)
                          apply lastNo_cons_of_ne (by simp)
                          apply lastNo_append_right (by simp)
                          apply lastNo_append_right (by simp)
                          exact lastNo_singleton hcc
                      · exact absurd h (by simp)
              · exact absurd h (by simp)
            · exact absurd h (by simp)
    · exact absurd h (by simp)

theorem parseRange_spec {l r : List Char} {rg : RangeT}
    (h : parseRange l = some (rg, r)) :
    ∃ c, l = c ++ r ∧ collapseAux false c = renderRange rg ∧
      c ≠ [] ∧ headNo c ∧ lastNo c := by
  rw [parseRange] at h
  cases hin : parseRangeWith false '[' ']' l with
  | some res =>
      rw [hin] at h
      cases res with
      | mk rg0 r0 =>
          injection h with h1
          injection h1 with ha hb
          subst ha; subst hb
          rcases parseRangeWith_spec (by decide) (by decide) hin with
            ⟨hex, c, hl, hcol, hne, hh, hlast⟩
          refine ⟨c, hl, ?_, hne, hh, hlast⟩
          rw [hcol, renderRange, hex]
          rfl
  | none =>
      rw [hin] at h
      rcases parseRangeWith_spec (by decide) (by decide) h with
        ⟨hex, c, hl, hcol, hne, hh, hlast⟩
      refine ⟨c, hl, ?_, hne, hh, hlast⟩
      rw [hcol, renderRange, hex]
      rfl

theorem parsePhraseRest_spec : ∀ (fuel : Nat) (l : List Char)
    (ls : List (List Char)) (r : List Char), parsePhraseRest fuel l = (ls, r) →
    ∃ c, l = c ++ r ∧ collapseAux false c = renderPhraseRest ls ∧
      (c = [] ∨ (c ≠ [] ∧ lastNo c)) := by
  intro fuel
  induction fuel with
  | zero =>
      intro l ls r h
      rw [parsePhraseRest] at h
      injection h with h1 h2
      subst h1; subst h2
      exact ⟨[], rfl, rfl, Or.inl rfl⟩
  | succ fuel ih =>
      intro l ls r h
      rw [parsePhraseRest] at h
      split at h
      · injection h with h1 h2
        subst h1; subst h2
        exact ⟨[], rfl, rfl, Or.inl rfl⟩
      · rename_i r1 hws
        split at h
        · injection h with h1 h2
          subst h1; subst h2
          exact ⟨[], rfl, rfl, Or.inl rfl⟩
        · rename_i lit r2 hlit
          split at h
          · rename_i ls2 r3 hrec
            injection h with h1 h2
            subst h1; subst h2
            rcases parseWs_spec hws with ⟨w, hew, hnew, hallw, hhr1⟩
            rcases parseLiteral_spec hlit with ⟨helit, hnelit, halllit⟩
            rcases ih r2 ls2 r3 hrec with ⟨c2, hec2, hcolc2, hlc2⟩
            have hnwlit : noWs lit = true := noWs_of_all_literal halllit
            refine ⟨w ++ (lit ++ c2), ?_, ?_, ?_⟩
            · rw [hew, helit, hec2]
              simp [List.append_assoc]
            · rw [collapse_ws_then hnew hallw
                (headNo_append_left _ hnelit (headNo_of_noWs hnwlit))]
              rw [collapse_noWs_append c2 hnwlit hnelit, hcolc2]
              rfl
            · refine Or.inr ⟨by simp [hnew], ?_⟩
              rcases hlc2 with rfl | ⟨hne2, hl2⟩
              · rw [List.append_nil]
                exact lastNo_append_right hnelit (lastNo_of_noWs hnwlit)
              · apply lastNo_append_right (by simp [hne2])
                exact lastNo_append_right hne2 hl2

theorem parsePhrase_spec {fuel : Nat} {l r : List Char} {p : PhraseT}
    (h : parsePhrase fuel l = some (p, r)) :
    ∃ c, l = c ++ r ∧ collapseAux false c = renderPhrase p ∧
      c ≠ [] ∧ headNo c ∧ lastNo c := by
  rw [parsePhrase.eq_def] at h
  split at h
  · exact absurd h (by simp)
  · rename_i c0 t
    split at h
    · rename_i hc0
      subst hc0
      split at h
      · exact absurd h (by simp)
      · rename_i lit1 r1 hlit
        split at h
        · rename_i ls r2 hrest
          split at h
          · exact absurd h (by simp)
          · rename_i c2 r3
            split at h
            · rename_i hc2
              subst hc2
              split at h
              · rename_i sfx r4 hsfx
                injection h with h1
                injection h1 with ha hb
                subst hb
                rcases parseLiteral_spec hlit with ⟨helit, hnelit, halllit⟩
                rcases parsePhraseRest_spec fuel r1 ls _ hrest with
                  ⟨cl, hecl, hcolcl, hlcl⟩
                rcases parsePSuffixOpt_spec hsfx with ⟨hesfx, hnwsfx⟩
                have hnwlit : noWs lit1 = true := noWs_of_all_literal halllit
                have hrend : renderPhrase p =
                    '"' :: (lit1 ++ (renderPhraseRest ls ++
                      '"' :: renderPSuffix sfx)) := by
                  rw [← ha, renderPhrase]
                  simp [List.append_assoc]
                refine ⟨'"' :: (lit1 ++ (cl ++ ('"' :: renderPSuffix sfx))), ?_, ?_,
                  by simp, ?_, ?_⟩
                · rw [helit, hecl, hesfx]
                  simp [List.append_assoc]
                · rw [collapseAux_cons_nws (by decide)]
                  rw [collapse_noWs_append _ hnwlit hnelit]
                  rw [collapse_append_of_opt _ hlcl, hcolcl]
                  rw [collapseAux_cons_nws (by decide), collapseAux_noWs _ hnwsfx]
                  rw [hrend]
                · intro x hx
                  rw [List.head?_cons] at hx
                  injection hx with hx
                  subst hx
                  decide
                · apply lastNo_cons_of_ne (by simp)
                  apply lastNo_append_right (by simp)
                  apply lastNo_append_right (by simp)
                  cases hsf : renderPSuffix sfx with
                  | nil => exact lastNo_singleton (by decide)
                  | cons y t2 =>
                      apply lastNo_cons_of_ne (by simp)
                      rw [← hsf]
                      exact lastNo_of_noWs hnwsfx
            · exact absurd h (by simp)
    · exact absurd h (by simp)

theorem parseTermOrPhrase_spec {fuel : Nat} {l r : List Char} {node : QT}
    (h : parseTermOrPhrase fuel l = some (node, r)) :
    ∃ c, l = c ++ r ∧ collapseAux false c = renderQ node ∧
      c ≠ [] ∧ headNo c ∧ lastNo c := by
  rw [parseTermOrPhrase] at h
  split at h
  · rename_i t0 r0 ht
    injection h with h1
    injection h1 with ha hb
    subst ha; subst hb
    rcases parseTerm_spec ht with ⟨he, hne, hnw⟩
    exact ⟨renderTerm t0, he, by rw [renderQ, collapseAux_noWs _ hnw], hne,
      headNo_of_noWs hnw, lastNo_of_noWs hnw⟩
  · split at h
    · rename_i p0 r0 hp
      injection h with h1
      injection h1 with ha hb
      subst ha; subst hb
      rcases parsePhrase_spec hp with ⟨c, he, hcol, hne, hh, hl⟩
      exact ⟨c, he, by rw [renderQ, hcol], hne, hh, hl⟩
    · exact absurd h (by simp)

theorem fieldName_ne_nil {fn : List Char} (h : isFieldNameL fn = true) :
    fn ≠ [] := by
  cases fn with
  | nil => exact absurd h (by simp [isFieldNameL])
  | cons c t => simp

theorem nodeSpec_of_emptyField {l fn r : List Char}
    (h : parseEmptyField l = some (fn, r)) : NodeSpec l (.emptyF fn) r := by
  rcases parseEmptyField_spec h with ⟨hsp, hf, hnw, _⟩
  refine ⟨fn ++ [':'], hsp, ?_, by simp, headNo_of_noWs hnw, lastNo_of_noWs hnw⟩
  rw [collapseAux_noWs _ hnw, renderQ]

theorem nodeSpec_of_term {l r : List Char} {t : TermT}
    (h : parseTerm l = some (t, r)) : NodeSpec l (.termN t) r := by
  rcases parseTerm_spec h with ⟨he, hne, hnw⟩
  exact ⟨renderTerm t, he, by rw [collapseAux_noWs _ hnw, renderQ], hne,
    headNo_of_noWs hnw, lastNo_of_noWs hnw⟩

theorem nodeSpec_of_phrase {fuel : Nat} {l r : List Char} {p : PhraseT}
    (h : parsePhrase fuel l = some (p, r)) : NodeSpec l (.phraseN p) r := by
  rcases parsePhrase_spec h with ⟨c, he, hcol, hne, hh, hl⟩
  exact ⟨c, he, by rw [renderQ]; exact hcol, hne, hh, hl⟩

theorem nodeSpec_of_range {l r : List Char} {rg : RangeT}
    (h : parseRange l = some (rg, r)) : NodeSpec l (.rangeN rg) r := by
  rcases parseRange_spec h with ⟨c, he, hcol, hne, hh, hl⟩
  exact ⟨c, he, by rw [renderQ]; exact hcol, hne, hh, hl⟩

theorem nodeSpec_of_termOrPhrase {fuel : Nat} {l r : List Char} {node : QT}
    (h : parseTermOrPhrase fuel l = some (node, r)) : NodeSpec l node r :=
  parseTermOrPhrase_spec h

theorem nodeSpec_clause {l l1 r : List Char} {op : Option OpT} {b : QT}
    (hsp : l = renderOp op ++ l1) (hnw : noWs (renderOp op) = true)
    (hb : NodeSpec l1 b r) : NodeSpec l (.clauseN op b) r := by
  rcases hb with ⟨c, he, hcol, hne, hh, hl⟩
  refine ⟨renderOp op ++ c, ?_, ?_, by simp [hne], ?_, lastNo_append_right hne hl⟩
  · rw [hsp, he, List.append_assoc]
  · have hopt : renderOp op = [] ∨ (renderOp op ≠ [] ∧ lastNo (renderOp op)) := by
      cases hro : renderOp op with
      | nil => exact Or.inl rfl
      | cons x xs =>
          refine Or.inr ⟨by simp, ?_⟩
          rw [← hro]
          exact lastNo_of_noWs hnw
    rw [collapse_append_of_opt _ hopt, collapseAux_noWs _ hnw, hcol, renderQ]
  · cases hro : renderOp op with
    | nil =>
        intro z hz
        rw [List.nil_append] at hz
        exact hh z hz
    | cons x xs =>
        intro z hz
        rw [List.cons_append, List.head?_cons] at hz
        injection hz with hz
        subst hz
        have hx := headNo_of_noWs hnw
        rw [hro] at hx
        exact hx x rfl

theorem nodeSpec_fielded {l r2 r : List Char} {fn : List Char} {v : QT}
    (hsp : l = fn ++ ':' :: r2) (hf : isFieldNameL fn = true)
    (hv : NodeSpec r2 v r) : NodeSpec l (.fielded fn v) r := by
  rcases hv with ⟨c, he, hcol, hne, hh, hl⟩
  have hnwf := noWs_of_fieldName hf
  have hnef := fieldName_ne_nil hf
  refine ⟨fn ++ ':' :: c, ?_, ?_, by simp, headNo_append_left _ hnef
    (headNo_of_noWs hnwf), lastNo_append_right (by simp)
    (lastNo_cons_of_ne hne hl)⟩
  · rw [hsp, he]
    simp
  · rw [collapse_noWs_append _ hnwf hnef, collapseAux_cons_nws (by decide),
      hcol, renderQ]

theorem nodeSpec_group {t r2 : List Char} {q : QT}
    (hq : NodeSpec t q (')' :: r2)) : NodeSpec ('(' :: t) (.group q) r2 := by
  rcases hq with ⟨c, he, hcol, hne, hh, hl⟩
  refine ⟨'(' :: (c ++ [')']), ?_, ?_, by simp, ?_, ?_⟩
  · rw [he]
    simp
  · rw [collapseAux_cons_nws (by decide),
      collapse_append_of_opt _ (Or.inr ⟨hne, hl⟩), hcol,
      collapseAux_cons_nws (by decide), renderQ]
    rfl
  · intro z hz
    rw [List.head?_cons] at hz
    injection hz with hz
    subst hz
    decide
  · apply lastNo_cons_of_ne (by simp)
    exact lastNo_append_right (by simp) (lastNo_singleton (by decide))

theorem nodeSpec_chain {l r1 r2 : List Char} {cn : QT} {rest : Option QT}
    (hc : NodeSpec l cn r1) (hs : ConsumeSpec .pqstar r1 (rest, r2)) :
    NodeSpec l (mkQ cn rest) r2 := by
  rcases hc with ⟨c, he, hcol, hne, hh, hl⟩
  simp only [ConsumeSpec] at hs
  rcases hs with ⟨hrest, hr⟩ | ⟨n, hrest, c2, he2, hcol2, hne2, hl2⟩
  · subst hrest; subst hr
    exact ⟨c, he, by rw [mkQ, renderQ]; exact hcol, hne, hh, hl⟩
  · subst hrest
    refine ⟨c ++ c2, ?_, ?_, by simp [hne], headNo_append_left _ hne hh,
      lastNo_append_right hne2 hl2⟩
    · rw [he, he2, List.append_assoc]
    · rw [collapse_append_of_opt _ (Or.inr ⟨hne, hl⟩), hcol, hcol2, mkQ, renderQ]

theorem qstarSpec_step {l r1 r3 : List Char} {node : QT}
    (hws : parseWs l = some r1) (hn : NodeSpec r1 node r3) :
    ∃ c, l = c ++ r3 ∧ collapseAux false c = ' ' :: renderQ node ∧
      c ≠ [] ∧ lastNo c := by
  rcases parseWs_spec hws with ⟨w, hew, hnew, hallw, _⟩
  rcases hn with ⟨c, he, hcol, hne, hh, hl⟩
  refine ⟨w ++ c, ?_, ?_, by simp [hnew], lastNo_append_right hne hl⟩
  · rw [hew, he, List.append_assoc]
  · rw [collapse_ws_then hnew hallw hh, hcol]

theorem parseP_succ_pquery (fuel : Nat) (l : List Char) :
    parseP (fuel + 1) .pquery l =
      match parseP fuel .pclause l with
      | some (some c, r1) =>
          (match parseP fuel .pqstar r1 with
           | some (rest, r2) => some (some (mkQ c rest), r2)
           | none => none)
      | _ => none := by
  rw [parseP]

theorem parseP_succ_pqstar (fuel : Nat) (l : List Char) :
    parseP (fuel + 1) .pqstar l =
      match parseWs l with
      | some r1 =>
          (match parseP fuel .pclause r1 with
           | some (some c, r2) =>
               (match parseP fuel .pqstar r2 with
                | some (rest, r3) => some (some (mkQ c rest), r3)
                | none => none)
           | _ => some (none, l))
      | none => some (none, l) := by
  rw [parseP]

theorem parseP_succ_pclause (fuel : Nat) (l : List Char) :
    parseP (fuel + 1) .pclause l =
      (match parseOp l with
       | (op, l1) =>
           match parseEmptyField l1 with
           | some (fn, r) => some (some (.clauseN op (.emptyF fn)), r)
           | none =>
               match parseP fuel .pfielded l1 with
               | some (some b, r) => some (some (.clauseN op b), r)
               | _ =>
                   match parseTermOrPhrase fuel l1 with
                   | some (b, r) => some (some (.clauseN op b), r)
                   | none =>
                       match parseP fuel .pbool l1 with
                       | some (some b, r) => some (some (.clauseN op b), r)
                       | _ =>
                           match parseRange l1 with
                           | some (rg, r) =>
                               some (some (.clauseN op (.rangeN rg)), r)
                           | none => none) := by
  rw [parseP.eq_def]

theorem parseP_succ_pfielded (fuel : Nat) (l : List Char) :
    parseP (fuel + 1) .pfielded l =
      match parseFieldName l with
      | none => none
      | some (fn, r1) =>
          match r1 with
          | [] => none
          | c :: r2 =>
              if c = ':' then
                match parseTerm r2 with
                | some (t, r) => some (some (.fielded fn (.termN t)), r)
                | none =>
                    match parsePhrase fuel r2 with
                    | some (p, r) => some (some (.fielded fn (.phraseN p)), r)
                    | none =>
                        match parseRange r2 with
                        | some (rg, r) => some (some (.fielded fn (.rangeN rg)), r)
                        | none =>
                            match parseP fuel .pbool r2 with
                            | some (some b, r) => some (some (.fielded fn b), r)
                            | _ => none
              else none := by
  rw [parseP]

theorem parseP_succ_pbool (fuel : Nat) (l : List Char) :
    parseP (fuel + 1) .pbool l =
      match l with
      | [] => none
      | c :: t =>
          if c = '(' then
            match parseP fuel .pquery t with
            | some (some q, r1) =>
                (match r1 with
                 | [] => none
                 | c2 :: r2 => if c2 = ')' then some (some (.group q), r2) else none)
            | _ => none
          else none := by
  rw [parseP.eq_def]

theorem qstar_nil_spec {l r : List Char} {o : Option QT}
    (h : some (none, l) = some (o, r)) : ConsumeSpec .pqstar l (o, r) := by
  injection h with h1
  injection h1 with ho hr
  subst ho; subst hr
  simp [ConsumeSpec]

theorem clause_range_spec {l l1 r : List Char} {o : Option QT} {op : Option OpT}
    (hol : l = renderOp op ++ l1) (hnw : noWs (renderOp op) = true)
    (h : (match parseRange l1 with
          | some (rg, r) => some (some (QT.clauseN op (QT.rangeN rg)), r)
          | none => none) = some (o, r)) :
    ConsumeSpec .pclause l (o, r) := by
  split at h
  · rename_i rg r0 hrg
    injection h with h1
    injection h1 with ho hr
    subst ho; subst hr
    simp only [ConsumeSpec]
    exact ⟨.clauseN op (.rangeN rg), rfl,
      nodeSpec_clause hol hnw (nodeSpec_of_range hrg)⟩
  · exact absurd h (by simp)

theorem clause_rest_spec {fuel : Nat} {l l1 r : List Char} {o : Option QT}
    {op : Option OpT}
    (hol : l = renderOp op ++ l1) (hnw : noWs (renderOp op) = true)
    (ihb : ∀ o2 r2, parseP fuel .pbool l1 = some (o2, r2) →
      ConsumeSpec .pbool l1 (o2, r2))
    (h : (match parseTermOrPhrase fuel l1 with
          | some (b, r) => some (some (QT.clauseN op b), r)
          | none =>
              match parseP fuel .pbool l1 with
              | some (some b, r) => some (some (QT.clauseN op b), r)
              | _ =>
                  match parseRange l1 with
                  | some (rg, r) => some (some (QT.clauseN op (QT.rangeN rg)), r)
                  | none => none) = some (o, r)) :
    ConsumeSpec .pclause l (o, r) := by
  split at h
  · rename_i b r0 htp
    injection h with h1
    injection h1 with ho hr
    subst ho; subst hr
    simp only [ConsumeSpec]
    exact ⟨.clauseN op b, rfl,
      nodeSpec_clause hol hnw (nodeSpec_of_termOrPhrase htp)⟩
  · split at h
    · rename_i b r0 hbo
      injection h with h1
      injection h1 with ho hr
      subst ho; subst hr
      have hc := ihb _ _ hbo
      simp only [ConsumeSpec] at hc
      rcases hc with ⟨n, hn, hns⟩
      injection hn with hn
      subst hn
      simp only [ConsumeSpec]
      exact ⟨.clauseN op b, rfl, nodeSpec_clause hol hnw hns⟩
    all_goals exact clause_range_spec hol hnw h

theorem parseP_spec : ∀ (fuel : Nat) (tag : PTag) (l : List Char)
    (o : Option QT) (r : List Char), parseP fuel tag l = some (o, r) →
    ConsumeSpec tag l (o, r) := by
  intro fuel
  induction fuel with
  | zero =>
      intro tag l o r h
      rw [parseP] at h
      exact absurd h (by simp)
  | succ fuel ih =>
      intro tag l o r h
      cases tag with
      | pquery =>
          rw [parseP_succ_pquery] at h
          split at h
          · rename_i c1 r1 hcl
            split at h
            · rename_i rest r2 hst
              injection h with h1
              injection h1 with ho hr
              subst ho; subst hr
              have hc := ih .pclause l _ _ hcl
              simp only [ConsumeSpec] at hc
              rcases hc with ⟨n, hn, hns⟩
              injection hn with hn
              subst hn
              simp only [ConsumeSpec]
              exact ⟨mkQ c1 rest, rfl,
                nodeSpec_chain hns (ih .pqstar r1 _ _ hst)⟩
            · exact absurd h (by simp)
          all_goals exact absurd h (by simp)
      | pqstar =>
          rw [parseP_succ_pqstar] at h
          split at h
          · rename_i r1 hws
            split at h
            · rename_i c1 r2 hcl
              split at h
              · rename_i rest r3 hst
                injection h with h1
                injection h1 with ho hr
                subst ho; subst hr
                have hc := ih .pclause r1 _ _ hcl
                simp only [ConsumeSpec] at hc
                rcases hc with ⟨n, hn, hns⟩
                injection hn with hn
                subst hn
                simp only [ConsumeSpec]
                refine Or.inr ⟨mkQ c1 rest, rfl, ?_⟩
                exact qstarSpec_step hws
                  (nodeSpec_chain hns (ih .pqstar r2 _ _ hst))
              · exact absurd h (by simp)
            all_goals exact qstar_nil_spec h
          · exact qstar_nil_spec h
      | pclause =>
          rw [parseP_succ_pclause] at h
          split at h
          rename_i op l1 hop
          rcases parseOp_spec hop with ⟨hol, hnw⟩
          split at h
          · rename_i fn r0 hef
            injection h with h1
            injection h1 with ho hr
            subst ho; subst hr
            simp only [ConsumeSpec]
            exact ⟨.clauseN op (.emptyF fn), rfl,
              nodeSpec_clause hol hnw (nodeSpec_of_emptyField hef)⟩
          · split at h
            · rename_i b r0 hfd
              injection h with h1
              injection h1 with ho hr
              subst ho; subst hr
              have hc := ih .pfielded l1 _ _ hfd
              simp only [ConsumeSpec] at hc
              rcases hc with ⟨n, hn, hns⟩
              injection hn with hn
              subst hn
              simp only [ConsumeSpec]
              exact ⟨.clauseN op b, rfl, nodeSpec_clause hol hnw hns⟩
            all_goals exact clause_rest_spec hol hnw (fun o2 r2 => ih PTag.pbool l1 o2 r2) h
      | pfielded =>
          rw [parseP_succ_pfielded] at h
          split at h
          · exact absurd h (by simp)
          · rename_i fn r1 hfn
            split at h
            · exact absurd h (by simp)
            · rename_i c r2
              split at h
              · rename_i hc
                subst hc
                rcases parseFieldName_spec hfn with ⟨hsp, hf⟩
                split at h
                · rename_i t r0 ht
                  injection h with h1
                  injection h1 with ho hr
                  subst ho; subst hr
                  simp only [ConsumeSpec]
                  exact ⟨.fielded fn (.termN t), rfl,
                    nodeSpec_fielded hsp hf (nodeSpec_of_term ht)⟩
                · split at h
                  · rename_i p r0 hp
                    injection h with h1
                    injection h1 with ho hr
                    subst ho; subst hr
                    simp only [ConsumeSpec]
                    exact ⟨.fielded fn (.phraseN p), rfl,
                      nodeSpec_fielded hsp hf (nodeSpec_of_phrase hp)⟩
                  · split at h
                    · rename_i rg r0 hrg
                      injection h with h1
                      injection h1 with ho hr
                      subst ho; subst hr
                      simp only [ConsumeSpec]
                      exact ⟨.fielded fn (.rangeN rg), rfl,
                        nodeSpec_fielded hsp hf (nodeSpec_of_range hrg)⟩
                    · split at h
                      · rename_i b r0 hbo
                        injection h with h1
                        injection h1 with ho hr
                        subst ho; subst hr
                        have hc := ih .pbool r2 _ _ hbo
                        simp only [ConsumeSpec] at hc
                        rcases hc with ⟨n, hn, hns⟩
                        injection hn with hn
                        subst hn
                        simp only [ConsumeSpec]
                        exact ⟨.fielded fn b, rfl, nodeSpec_fielded hsp hf hns⟩
                      all_goals exact absurd h (by simp)
              · exact absurd h (by simp)
      | pbool =>
          rw [parseP_succ_pbool] at h
          split at h
          · exact absurd h (by simp)
          · rename_i c t
            split at h
            · rename_i hc
              subst hc
              split at h
              · rename_i q r1 hq
                split at h
                · exact absurd h (by simp)
                · rename_i c2 r2
                  split at h
                  · rename_i hc2
                    subst hc2
                    injection h with h1
                    injection h1 with ho hr
                    subst ho; subst hr
                    have hqs := ih .pquery t _ _ hq
                    simp only [ConsumeSpec] at hqs
                    rcases hqs with ⟨n, hn, hns⟩
                    injection hn with hn
                    subst hn
                    simp only [ConsumeSpec]
                    exact ⟨.group q, rfl, nodeSpec_group hns⟩
                  · exact absurd h (by simp)
              all_goals exact absurd h (by simp)
            · exact absurd h (by simp)

/-- Claim C3: without a field mapping, a successful `parse_query` returns the
input unchanged except that boundary whitespace is stripped and each internal
whitespace run collapses to a single space, with no implicit operator text
inserted between adjacent clauses; in particular the three round-trip examples
of the specification hold. -/
theorem c3_whitespace_normalization :
    (∀ (q s : String), parse_query q = Except.ok s → s = wsNormalize q) ∧
    parse_query "foo bar" = Except.ok "foo bar" ∧
    parse_query "\"Huckleberry Finn\"" = Except.ok "\"Huckleberry Finn\"" ∧
    parse_query "foo      bar" = Except.ok "foo bar" := by
  refine ⟨?_, rfl, rfl, rfl⟩
  intro q s h
  rw [parse_query, runGrammar] at h
  cases hlp : luceneParse (pyStrip q.toList) with
  | none =>
      rw [hlp] at h
      exact absurd h (by simp)
  | some t =>
      rw [hlp] at h
      have hpp : parseP (fuelOf (pyStrip q.toList)) .pquery (pyStrip q.toList) =
          some (some t, []) := by
        rw [luceneParse] at hlp
        split at hlp
        · rename_i t0 h0
          injection hlp with hlp
          subst hlp
          exact h0
        all_goals exact absurd hlp (by simp)
      have hcs := parseP_spec _ .pquery _ _ _ hpp
      simp only [ConsumeSpec, NodeSpec] at hcs
      rcases hcs with ⟨n, hn, c, hec, hcol, _, _, _⟩
      injection hn with hn
      subst hn
      rw [List.append_nil] at hec
      split at h
      · exact absurd h (by simp)
      · rename_i t2 hteq
        injection hteq with hteq
        subst hteq
        split at h
        · rename_i out hrb
          injection h with h1
          rw [← h1]
          have hout := rebuild_none_render _ _ hrb
          rw [hout, wsNormalize, collapseWs, hec, hcol]
        all_goals exact absurd h (by simp)

/-- Concrete instantiation of the universal normalisation statement of C3. -/
theorem c3_witness : ("a b" : String) = wsNormalize "a   b" :=
  c3_whitespace_normalization.1 "a   b" "a b" rfl

theorem collapse_filter : ∀ (x : List Char) (s : Bool),
    (collapseAux s x).filter (fun c => !isPySpace c) =
      x.filter (fun c => !isPySpace c) := by
  intro x
  induction x with
  | nil => intro s; rfl
  | cons a t ih =>
      intro s
      by_cases ha : isPySpace a = true
      · have hsp : (!isPySpace ' ') = false := by decide
        rw [collapseAux_cons_ws ha]
        cases s
        · simp [List.filter_append, List.filter_cons, ha, hsp, ih true]
        · simp [List.filter_append, List.filter_cons, ha, hsp, ih true]
      · rw [Bool.not_eq_true] at ha
        rw [collapseAux_cons_nws ha]
        simp [List.filter_cons, ha, ih false]

theorem fuelOf_collapse (l : List Char) : fuelOf (collapseAux false l) = fuelOf l := by
  rw [fuelOf, fuelOf, collapse_filter]

theorem collapse_ne_nil_of_nonws_mem : ∀ (x : List Char) (s : Bool) (ch : Char),
    ch ∈ x → isPySpace ch = false → collapseAux s x ≠ [] := by
  intro x
  induction x with
  | nil =>
      intro s ch h
      exact absurd h (by simp)
  | cons a t ih =>
      intro s ch hmem hch
      by_cases ha : isPySpace a = true
      · have hcht : ch ∈ t := by
          rcases List.mem_cons.mp hmem with he | h
          · rw [he] at hch
            rw [hch] at ha
            exact absurd ha (by simp)
          · exact h
        rw [collapseAux_cons_ws ha]
        intro hcon
        rcases List.append_eq_nil.mp hcon with ⟨_, h2⟩
        exact ih true ch hcht hch h2
      · rw [Bool.not_eq_true] at ha
        rw [collapseAux_cons_nws ha]
        simp

theorem headNo_collapse {x : List Char} (h : headNo x) :
    headNo (collapseAux false x) := by
  cases x with
  | nil =>
      intro z hz
      simp [collapseAux] at hz
  | cons a t =>
      have ha : isPySpace a = false := h a rfl
      rw [collapseAux_cons_nws ha]
      intro z hz
      rw [List.head?_cons] at hz
      injection hz with hz
      subst hz
      exact ha

theorem lastNo_collapse : ∀ (x : List Char), lastNo x → ∀ s,
    lastNo (collapseAux s x) := by
  intro x
  induction x with
  | nil =>
      intro h s z hz
      simp [collapseAux] at hz
  | cons a t ih =>
      intro h s
      cases t with
      | nil =>
          have ha : isPySpace a = false := h a (by rw [List.getLast?_singleton])
          rw [collapseAux_cons_nws ha]
          exact lastNo_singleton ha
      | cons b t2 =>
          have hlt : lastNo (b :: t2) := lastNo_cons_cons h
          by_cases ha : isPySpace a = true
          · rw [collapseAux_cons_ws ha]
            have hsome : ((b :: t2).getLast?).isSome := by
              rw [List.getLast?_isSome]
              simp
            rcases Option.isSome_iff_exists.mp hsome with ⟨z, hz⟩
            have hne : collapseAux true (b :: t2) ≠ [] :=
              collapse_ne_nil_of_nonws_mem _ true z (mem_of_getLast? hz) (hlt z hz)
            exact lastNo_append_right hne (ih hlt true)
          · rw [Bool.not_eq_true] at ha
            rw [collapseAux_cons_nws ha]
            cases hcc : collapseAux false (b :: t2) with
            | nil => exact lastNo_singleton ha
            | cons y ys =>
                apply lastNo_cons_of_ne (by simp)
                rw [← hcc]
                exact ih hlt false

theorem takeWhile_all_self {p : Char → Bool} : ∀ {a : List Char},
    a.all p = true → a.takeWhile p = a ∧ a.dropWhile p = [] := by
  intro a
  induction a with
  | nil => intro _; exact ⟨rfl, rfl⟩
  | cons x t ih =>
      intro h
      rw [List.all_cons, Bool.and_eq_true] at h
      rcases ih h.2 with ⟨h1, h2⟩
      rw [List.takeWhile_cons, List.dropWhile_cons, if_pos h.1, if_pos h.1, h1, h2]
      exact ⟨rfl, rfl⟩

theorem collapse_head_eq : ∀ {x : List Char} {c : Char} {t : List Char},
    collapseAux false x = c :: t →
    (∃ t0, x = c :: t0 ∧ isPySpace c = false) ∨
    (c = ' ' ∧ ∃ a t0, x = a :: t0 ∧ isPySpace a = true) := by
  intro x c t h
  cases x with
  | nil => simp [collapseAux] at h
  | cons a t0 =>
      by_cases ha : isPySpace a = true
      · rw [collapseAux_cons_ws ha] at h
        refine Or.inr ⟨?_, a, t0, rfl, ha⟩
        have h2 : ' ' :: collapseAux true t0 = c :: t := by simpa using h
        injection h2 with h1
        exact h1.symm
      · rw [Bool.not_eq_true] at ha
        rw [collapseAux_cons_nws ha] at h
        injection h with h1 h2
        exact Or.inl ⟨t0, by rw [h1], by rw [← h1]; exact ha⟩

theorem collapse_false_ne_nil {x : List Char} (h : x ≠ []) :
    collapseAux false x ≠ [] := by
  cases x with
  | nil => exact absurd rfl h
  | cons a t =>
      by_cases ha : isPySpace a = true
      · rw [collapseAux_cons_ws ha]
        simp
      · rw [Bool.not_eq_true] at ha
        rw [collapseAux_cons_nws ha]
        simp

theorem pyStrip_eq_self {l : List Char} (hh : headNo l) (hl : lastNo l) :
    pyStrip l = l := by
  unfold pyStrip
  have h1 : l.dropWhile isPySpace = l := by
    cases l with
    | nil => rfl
    | cons a t => exact dropWhile_head_false a t (hh a rfl)
  rw [h1]
  have h2 : l.reverse.dropWhile isPySpace = l.reverse := by
    cases hrev : l.reverse with
    | nil => rfl
    | cons a t =>
        have hga : l.getLast? = some a := by
          rw [← List.head?_reverse, hrev, List.head?_cons]
        exact dropWhile_head_false a t (hl a hga)
  rw [h2, List.reverse_reverse]

theorem rebuild_ok_no_empty {raw : List String} :
    ∀ (t : QT) (out : List Char),
    rebuildQ none raw t = Except.ok out → hasEmptyQ t = false := by
  intro t
  induction t with
  | qmore c r ihc ihr =>
      intro out h
      rw [rebuildQ] at h
      cases hc : rebuildQ none raw c with
      | error e => rw [hc] at h; simp [Bind.bind, Except.bind] at h
      | ok a =>
          rw [hc] at h
          cases hr : rebuildQ none raw r with
          | error e => rw [hr] at h; simp [Bind.bind, Except.bind] at h
          | ok b =>
              rw [hasEmptyQ, ihc a hc, ihr b hr]
              rfl
  | qlast c ih =>
      intro out h
      rw [rebuildQ] at h
      rw [hasEmptyQ]
      exact ih out h
  | clauseN op b ih =>
      intro out h
      rw [rebuildQ] at h
      cases hb : rebuildQ none raw b with
      | error e => rw [hb] at h; simp [Bind.bind, Except.bind] at h
      | ok a =>
          rw [hasEmptyQ]
          exact ih a hb
  | emptyF fn =>
      intro out h
      simp [rebuildQ] at h
  | fielded fn v ih =>
      intro out h
      rw [rebuildQ] at h
      cases hv : rebuildQ none raw v with
      | error e => rw [hv] at h; simp [Bind.bind, Except.bind] at h
      | ok a =>
          rw [hasEmptyQ]
          exact ih a hv
  | group q ih =>
      intro out h
      rw [rebuildQ] at h
      cases hq : rebuildQ none raw q with
      | error e => rw [hq] at h; simp [Bind.bind, Except.bind] at h
      | ok a =>
          rw [hasEmptyQ]
          exact ih a hq
  | rangeN r => intro out h; rfl
  | termN t0 => intro out h; rfl
  | phraseN p => intro out h; rfl

theorem collapse_noWsPrefix_append (a b : List Char) (ha : noWs a = true) :
    collapseAux false (a ++ b) = a ++ collapseAux false b := by
  cases a with
  | nil => rfl
  | cons c t => exact collapse_noWs_append b ha (by simp)

theorem collapse_head_fail (p : Char → Bool) {x : List Char}
    (hsp : p ' ' = false)
    (hx : ∀ c t, x = c :: t → p c = false) :
    ∀ c t, collapseAux false x = c :: t → p c = false := by
  intro c t h
  rcases collapse_head_eq h with ⟨t0, hx0, _⟩ | ⟨hc, _, _, _, _⟩
  · exact hx c t0 hx0
  · rw [hc]
    exact hsp

theorem takeDrop_append_headFail {p : Char → Bool} {a b : List Char}
    (ha : a.all p = true) (hb : ∀ c t, b = c :: t → p c = false) :
    (a ++ b).takeWhile p = a ∧ (a ++ b).dropWhile p = b := by
  cases b with
  | nil =>
      rw [List.append_nil]
      exact takeWhile_all_self ha
  | cons c t => exact takeWhile_all_append a c t ha (hb c t rfl)

theorem noWs_of_all_fieldChar {l : List Char} (h : l.all isFieldChar = true) :
    noWs l = true := by
  rw [noWs, List.all_eq_true]
  intro x hx
  simp [not_space_of_fieldChar (List.all_eq_true.mp h x hx)]

theorem headFail_of_takeWhile_isEmpty {p : Char → Bool} {x : List Char}
    (h : (x.takeWhile p).isEmpty = true) :
    ∀ c t, x = c :: t → p c = false := by
  intro c t hct
  subst hct
  rw [List.takeWhile_cons] at h
  by_cases hc : p c = true
  · rw [if_pos hc] at h
    simp at h
  · rwa [Bool.not_eq_true] at hc

theorem takeWhile_isEmpty_of_headFail {p : Char → Bool} {x : List Char}
    (h : ∀ c t, x = c :: t → p c = false) : (x.takeWhile p).isEmpty = true := by
  cases x with
  | nil => rfl
  | cons c t =>
      rw [List.takeWhile_cons, if_neg (by simp [h c t rfl])]
      rfl

theorem parseWs_collapse_some {x x1 : List Char} (h : parseWs x = some x1) :
    parseWs (collapseAux false x) = some (collapseAux false x1) := by
  rcases parseWs_spec h with ⟨w, hew, hnew, hallw, hh1⟩
  cases x1 with
  | nil =>
      rw [List.append_nil] at hew
      rw [hew, (collapse_ws_run w hnew hallw).1]
      rfl
  | cons b t =>
      have hb : isPySpace b = false := hh1 b rfl
      rw [hew, collapse_ws_then hnew hallw hh1, collapseAux_cons_nws hb,
        parseWs, if_pos (by decide), dropWhile_head_false _ _ hb]

theorem parseWs_collapse_none {x : List Char} (h : parseWs x = none) :
    parseWs (collapseAux false x) = none := by
  cases x with
  | nil => rfl
  | cons a t =>
      rw [parseWs] at h
      by_cases ha : isPySpace a = true
      · rw [if_pos ha] at h
        exact absurd h (by simp)
      · rw [Bool.not_eq_true] at ha
        rw [collapseAux_cons_nws ha, parseWs, if_neg (by simp [ha])]

theorem parseOp_collapse {x xr : List Char} {op : Option OpT}
    (h : parseOp x = (op, xr)) :
    parseOp (collapseAux false x) = (op, collapseAux false xr) := by
  cases x with
  | nil =>
      rw [parseOp] at h
      injection h with h1 h2
      subst h1; subst h2
      rfl
  | cons a t =>
      simp only [parseOp.eq_def] at h
      split at h
      · rename_i ha
        subst ha
        injection h with h1 h2
        subst h1; subst h2
        rw [collapseAux_cons_nws (by decide), parseOp, if_pos rfl]
      · rename_i ha
        split at h
        · rename_i ha2
          subst ha2
          injection h with h1 h2
          subst h1; subst h2
          rw [collapseAux_cons_nws (by decide), parseOp, if_neg (by decide),
            if_pos rfl]
        · rename_i ha2
          injection h with h1 h2
          subst h1; subst h2
          cases hcc : collapseAux false (a :: t) with
          | nil => exact absurd hcc (collapse_false_ne_nil (by simp))
          | cons c2 t2 =>
              have hne1 : ¬(c2 = '+') ∧ ¬(c2 = '-') := by
                rcases collapse_head_eq hcc with ⟨t0, hx0, _⟩ | ⟨hc, _, _, _, _⟩
                · injection hx0 with he1 _
                  rw [← he1]
                  exact ⟨ha, ha2⟩
                · rw [hc]
                  exact ⟨by decide, by decide⟩
              rw [parseOp, if_neg hne1.1, if_neg hne1.2]

theorem parseFieldName_collapse_some {x fn xr : List Char}
    (h : parseFieldName x = some (fn, xr)) :
    parseFieldName (collapseAux false x) = some (fn, collapseAux false xr) := by
  cases x with
  | nil => exact absurd h (by simp [parseFieldName])
  | cons a t =>
      rw [parseFieldName] at h
      by_cases ha : isFieldStart a = true
      · rw [if_pos ha] at h
        injection h with h1
        injection h1 with hfn hr
        have hanws : isPySpace a = false := not_space_of_fieldStart ha
        have hsplit : t.takeWhile isFieldChar ++ t.dropWhile isFieldChar = t :=
          List.takeWhile_append_dropWhile _ _
        have htw : (t.takeWhile isFieldChar).all isFieldChar = true :=
          takeWhile_all _ t
        have hhead : ∀ c r, t.dropWhile isFieldChar = c :: r →
            isFieldChar c = false := fun c r hcr => dropWhile_head_not _ t c r hcr
        have hcfail := collapse_head_fail isFieldChar (by decide) hhead
        have hct : collapseAux false t =
            t.takeWhile isFieldChar ++ collapseAux false (t.dropWhile isFieldChar) := by
          conv_lhs => rw [← hsplit]
          exact collapse_noWsPrefix_append _ _ (noWs_of_all_fieldChar htw)
        rcases takeDrop_append_headFail htw hcfail with ⟨h1, h2⟩
        rw [collapseAux_cons_nws hanws, parseFieldName, if_pos ha, hct, h1, h2,
          ← hfn, ← hr]
      · exact absurd h (by rw [if_neg ha]; simp)

theorem parseFieldName_collapse_none {x : List Char}
    (h : parseFieldName x = none) :
    parseFieldName (collapseAux false x) = none := by
  cases x with
  | nil => rfl
  | cons a t =>
      rw [parseFieldName] at h
      by_cases ha : isFieldStart a = true
      · rw [if_pos ha] at h
        exact absurd h (by simp)
      · cases hcc : collapseAux false (a :: t) with
        | nil => rfl
        | cons c2 t2 =>
            have hc2 : ¬(isFieldStart c2 = true) := by
              rcases collapse_head_eq hcc with ⟨t0, hx0, _⟩ | ⟨hc, _, _, _, _⟩
              · injection hx0 with he1 _
                rw [← he1]
                exact ha
              · rw [hc]
                decide
            rw [parseFieldName, if_neg hc2]

theorem parseLiteral_collapse_some {x lit xr : List Char}
    (h : parseLiteral x = some (lit, xr)) :
    parseLiteral (collapseAux false x) = some (lit, collapseAux false xr) := by
  rcases parseLiteral_spec h with ⟨hsp, hne, hall⟩
  have hxr : xr = x.dropWhile isLiteralChar := by
    rw [parseLiteral] at h
    split at h
    · exact absurd h (by simp)
    · injection h with h1
      injection h1 with _ h2
      exact h2.symm
  have hhead : ∀ c t, xr = c :: t → isLiteralChar c = false := by
    intro c t hct
    rw [hxr] at hct
    exact dropWhile_head_not _ x c t hct
  have hfail := collapse_head_fail isLiteralChar (by decide) hhead
  rw [hsp, collapse_noWsPrefix_append _ _ (noWs_of_all_literal hall),
    parseLiteral]
  rcases takeDrop_append_headFail hall hfail with ⟨h1, h2⟩
  rw [h1, h2, if_neg (by simp [hne])]

theorem parseLiteral_collapse_none {x : List Char} (h : parseLiteral x = none) :
    parseLiteral (collapseAux false x) = none := by
  rw [parseLiteral] at h
  split at h
  · rename_i hemp
    have hhead := headFail_of_takeWhile_isEmpty hemp
    cases hcx : collapseAux false x with
    | nil => rfl
    | cons c2 t2 =>
        have hc2 := collapse_head_fail isLiteralChar (by decide) hhead c2 t2 hcx
        have htw : (c2 :: t2).takeWhile isLiteralChar = [] := by
          rw [List.takeWhile_cons, if_neg (by simp [hc2])]
        rw [parseLiteral, htw]
        rfl
  · exact absurd h (by simp)

theorem parseDigitOpt_collapse {x xr : List Char} {d : Option Char}
    (h : parseDigitOpt x = (d, xr)) :
    parseDigitOpt (collapseAux false x) = (d, collapseAux false xr) := by
  cases x with
  | nil =>
      rw [parseDigitOpt] at h
      injection h with h1 h2
      subst h1; subst h2
      rfl
  | cons a t =>
      rw [parseDigitOpt] at h
      by_cases ha : a.isDigit = true
      · rw [if_pos ha] at h
        injection h with h1 h2
        subst h1; subst h2
        rw [collapseAux_cons_nws (not_space_of_digit ha), parseDigitOpt,
          if_pos ha]
      · rw [if_neg ha] at h
        injection h with h1 h2
        subst h1; subst h2
        cases hcc : collapseAux false (a :: t) with
        | nil => exact absurd hcc (collapse_false_ne_nil (by simp))
        | cons c2 t2 =>
            have hc2 : ¬(c2.isDigit = true) := by
              rcases collapse_head_eq hcc with ⟨t0, hx0, _⟩ | ⟨hc, _, _, _, _⟩
              · injection hx0 with he1 _
                rw [← he1]
                exact ha
              · rw [hc]
                decide
            rw [parseDigitOpt, if_neg hc2]

theorem parseNumber_collapse_nodot {x n xr r2 : List Char} {c : Char}
    (hemp : ¬((x.takeWhile Char.isDigit).isEmpty = true))
    (hd_all : (x.takeWhile Char.isDigit).all Char.isDigit = true)
    (hcx : collapseAux false x = x.takeWhile Char.isDigit ++
      collapseAux false (x.dropWhile Char.isDigit))
    (hdr : x.dropWhile Char.isDigit = c :: r2)
    (hcnd : Char.isDigit c = false) (hcdot : ¬(c = '.'))
    (h : some ((x.takeWhile Char.isDigit, c :: r2) : List Char × List Char) =
      some (n, xr)) :
    parseNumber (collapseAux false x) = some (n, collapseAux false xr) := by
  injection h with h1
  injection h1 with hn hxr
  cases hy : collapseAux false (c :: r2) with
  | nil => exact absurd hy (collapse_false_ne_nil (by simp))
  | cons c2 t2 =>
      have hc2 : Char.isDigit c2 = false ∧ ¬(c2 = '.') := by
        rcases collapse_head_eq hy with ⟨t0, hx0, _⟩ | ⟨hc, _, _, _, _⟩
        · injection hx0 with he1 _
          rw [← he1]
          exact ⟨hcnd, hcdot⟩
        · rw [hc]
          exact ⟨by decide, by decide⟩
      have hb : ∀ cc tt, (c2 :: t2) = cc :: tt → Char.isDigit cc = false := by
        intro cc tt hct
        injection hct with he1 _
        rw [← he1]
        exact hc2.1
      rcases takeDrop_append_headFail hd_all hb with ⟨ht1, ht2⟩
      rw [hcx, hdr, hy, parseNumber, ht1, ht2, if_neg hemp, ← hn, ← hxr, hy]
      split
      · rename_i heq2
        exact absurd heq2 (by simp)
      · rename_i cc rr heq2
        injection heq2 with he1 he2
        rw [← he1, ← he2, if_neg hc2.2]

theorem parseNumber_collapse_some {x n xr : List Char}
    (h : parseNumber x = some (n, xr)) :
    parseNumber (collapseAux false x) = some (n, collapseAux false xr) := by
  rw [parseNumber] at h
  split at h
  · exact absurd h (by simp)
  · rename_i hemp
    have hd_all : (x.takeWhile Char.isDigit).all Char.isDigit = true :=
      takeWhile_all _ x
    have hd_noWs : noWs (x.takeWhile Char.isDigit) = true :=
      noWs_of_all_digit hd_all
    have hd_head : ∀ c r, x.dropWhile Char.isDigit = c :: r →
        Char.isDigit c = false := fun c r hcr => dropWhile_head_not _ x c r hcr
    have hsplitx : x.takeWhile Char.isDigit ++ x.dropWhile Char.isDigit = x :=
      List.takeWhile_append_dropWhile _ _
    have hcx : collapseAux false x = x.takeWhile Char.isDigit ++
        collapseAux false (x.dropWhile Char.isDigit) := by
      conv_lhs => rw [← hsplitx]
      exact collapse_noWsPrefix_append _ _ hd_noWs
    split at h
    · rename_i hdr
      injection h with h1
      injection h1 with hn hxr
      rcases takeWhile_all_self hd_all with ⟨htd1, htd2⟩
      rw [hcx, hdr, collapseAux, List.append_nil, parseNumber, htd1, htd2,
        if_neg hemp, ← hn, ← hxr]
      rfl
    · rename_i c r2 hdr
      have hcnd : Char.isDigit c = false := hd_head c r2 hdr
      by_cases hcdot : c = '.'
      · subst hcdot
        rw [if_pos rfl] at h
        have hcdr : collapseAux false (x.dropWhile Char.isDigit) =
            '.' :: collapseAux false r2 := by
          rw [hdr, collapseAux_cons_nws (by decide)]
        have hb : ∀ cc tt, ('.' :: collapseAux false r2) = cc :: tt →
            Char.isDigit cc = false := by
          intro cc tt hct
          injection hct with h1 _
          rw [← h1]
          decide
        rcases takeDrop_append_headFail hd_all hb with ⟨ht1, ht2⟩
        split at h
        · rename_i hemp2
          injection h with h1
          injection h1 with hn hxr
          have hr2head := headFail_of_takeWhile_isEmpty hemp2
          have hr2fail := collapse_head_fail Char.isDigit (by decide) hr2head
          have hemp3 : ((collapseAux false r2).takeWhile Char.isDigit).isEmpty
              = true := takeWhile_isEmpty_of_headFail hr2fail
          have hxr2 : collapseAux false xr = '.' :: collapseAux false r2 := by
            rw [← hxr, collapseAux_cons_nws (by decide)]
          rw [hcx, hcdr, parseNumber, ht1, ht2, if_neg hemp, hxr2, ← hn]
          split
          · rename_i heq2
            exact absurd heq2 (by simp)
          · rename_i cc rr heq2
            injection heq2 with he1 he2
            rw [← he1, if_pos rfl, ← he2, if_pos hemp3]
        · rename_i hemp2
          injection h with h1
          injection h1 with hn hxr
          have hr2_all : (r2.takeWhile Char.isDigit).all Char.isDigit = true :=
            takeWhile_all _ r2
          have hr2_noWs : noWs (r2.takeWhile Char.isDigit) = true :=
            noWs_of_all_digit hr2_all
          have hr2_head : ∀ cc rr, r2.dropWhile Char.isDigit = cc :: rr →
              Char.isDigit cc = false :=
            fun cc rr hcr => dropWhile_head_not _ r2 cc rr hcr
          have hr2fail := collapse_head_fail Char.isDigit (by decide) hr2_head
          have hsplit2 : r2.takeWhile Char.isDigit ++ r2.dropWhile Char.isDigit
              = r2 := List.takeWhile_append_dropWhile _ _
          have hcr2 : collapseAux false r2 = r2.takeWhile Char.isDigit ++
              collapseAux false (r2.dropWhile Char.isDigit) := by
            conv_lhs => rw [← hsplit2]
            exact collapse_noWsPrefix_append _ _ hr2_noWs
          rcases takeDrop_append_headFail hr2_all hr2fail with ⟨hu1, hu2⟩
          rw [hcx, hcdr, parseNumber, ht1, ht2, if_neg hemp, ← hxr, ← hn]
          split
          · rename_i heq2
            exact absurd heq2 (by simp)
          · rename_i cc rr heq2
            injection heq2 with he1 he2
            rw [← he1, if_pos rfl, ← he2, hcr2, hu1, hu2, if_neg hemp2]
      · rw [if_neg hcdot] at h
        exact parseNumber_collapse_nodot hemp hd_all hcx hdr hcnd hcdot h

theorem parseNumber_collapse_none {x : List Char} (h : parseNumber x = none) :
    parseNumber (collapseAux false x) = none := by
  rw [parseNumber] at h
  split at h
  · rename_i hemp
    have hhead := headFail_of_takeWhile_isEmpty hemp
    have hfail := collapse_head_fail Char.isDigit (by decide) hhead
    have hemp2 : ((collapseAux false x).takeWhile Char.isDigit).isEmpty = true :=
      takeWhile_isEmpty_of_headFail hfail
    rw [parseNumber, if_pos hemp2]
  · split at h
    · exact absurd h (by simp)
    · rename_i c r2 hdr
      split at h
      · split at h
        · exact absurd h (by simp)
        · exact absurd h (by simp)
      · exact absurd h (by simp)

theorem parseBoostOpt_collapse {x xr : List Char} {b : Option (List Char)}
    (h : parseBoostOpt x = (b, xr)) :
    parseBoostOpt (collapseAux false x) = (b, collapseAux false xr) := by
  cases x with
  | nil =>
      rw [parseBoostOpt] at h
      injection h with h1 h2
      subst h1; subst h2
      rfl
  | cons c t =>
      rw [parseBoostOpt] at h
      by_cases hc : c = '^'
      · subst hc
        rw [if_pos rfl] at h
        rw [collapseAux_cons_nws (by decide), parseBoostOpt, if_pos rfl]
        cases hn : parseNumber t with
        | some pr =>
            cases pr with
            | mk nn rr =>
                rw [hn] at h
                injection h with h1 h2
                subst h1; subst h2
                rw [parseNumber_collapse_some hn]
        | none =>
            rw [hn] at h
            injection h with h1 h2
            subst h1; subst h2
            rw [parseNumber_collapse_none hn, collapseAux_cons_nws (by decide)]
      · rw [if_neg hc] at h
        injection h with h1 h2
        subst h1; subst h2
        cases hy : collapseAux false (c :: t) with
        | nil => exact absurd hy (collapse_false_ne_nil (by simp))
        | cons c2 t2 =>
            have hc2 : ¬(c2 = '^') := by
              rcases collapse_head_eq hy with ⟨t0, hx0, _⟩ | ⟨hcc, _, _, _, _⟩
              · injection hx0 with he1 _
                rw [← he1]
                exact hc
              · rw [hcc]
                decide
            rw [parseBoostOpt, if_neg hc2]

theorem parseTSuffixOpt_collapse {x xr : List Char} {sfx : Option TSuffix}
    (h : parseTSuffixOpt x = (sfx, xr)) :
    parseTSuffixOpt (collapseAux false x) = (sfx, collapseAux false xr) := by
  cases x with
  | nil =>
      rw [parseTSuffixOpt] at h
      injection h with h1 h2
      subst h1; subst h2
      rfl
  | cons c t =>
      rw [parseTSuffixOpt] at h
      by_cases hc1 : c = '*'
      · subst hc1
        rw [if_pos rfl] at h
        injection h with h1 h2
        subst h1; subst h2
        rw [collapseAux_cons_nws (by decide), parseTSuffixOpt, if_pos rfl]
      · rw [if_neg hc1] at h
        by_cases hc2 : c = '?'
        · subst hc2
          rw [if_pos rfl] at h
          injection h with h1 h2
          subst h1; subst h2
          rw [collapseAux_cons_nws (by decide), parseTSuffixOpt,
            if_neg (by decide), if_pos rfl]
        · rw [if_neg hc2] at h
          by_cases hc3 : c = '~'
          · subst hc3
            rw [if_pos rfl] at h
            cases hd : parseDigitOpt t with
            | mk d rr =>
                rw [hd] at h
                injection h with h1 h2
                subst h1; subst h2
                rw [collapseAux_cons_nws (by decide), parseTSuffixOpt,
                  if_neg (by decide), if_neg (by decide), if_pos rfl,
                  parseDigitOpt_collapse hd]
          · rw [if_neg hc3] at h
            injection h with h1 h2
            subst h1; subst h2
            cases hy : collapseAux false (c :: t) with
            | nil => exact absurd hy (collapse_false_ne_nil (by simp))
            | cons c2 t2 =>
                have hcc : ¬(c2 = '*') ∧ ¬(c2 = '?') ∧ ¬(c2 = '~') := by
                  rcases collapse_head_eq hy with ⟨t0, hx0, _⟩ | ⟨hsp, _, _, _, _⟩
                  · injection hx0 with he1 _
                    rw [← he1]
                    exact ⟨hc1, hc2, hc3⟩
                  · rw [hsp]
                    exact ⟨by decide, by decide, by decide⟩
                rw [parseTSuffixOpt, if_neg hcc.1, if_neg hcc.2.1, if_neg hcc.2.2]

theorem parsePSuffixOpt_collapse {x xr : List Char} {sfx : Option PSuffix}
    (h : parsePSuffixOpt x = (sfx, xr)) :
    parsePSuffixOpt (collapseAux false x) = (sfx, collapseAux false xr) := by
  cases x with
  | nil =>
      rw [parsePSuffixOpt] at h
      injection h with h1 h2
      subst h1; subst h2
      rfl
  | cons c t =>
      rw [parsePSuffixOpt] at h
      by_cases hc1 : c = '^'
      · subst hc1
        rw [if_pos rfl] at h
        rw [collapseAux_cons_nws (by decide), parsePSuffixOpt, if_pos rfl]
        cases hn : parseNumber t with
        | some pr =>
            cases pr with
            | mk nn rr =>
                rw [hn] at h
                injection h with h1 h2
                subst h1; subst h2
                rw [parseNumber_collapse_some hn]
        | none =>
            rw [hn] at h
            injection h with h1 h2
            subst h1; subst h2
            rw [parseNumber_collapse_none hn, collapseAux_cons_nws (by decide)]
      · rw [if_neg hc1] at h
        by_cases hc2 : c = '~'
        · subst hc2
          rw [if_pos rfl] at h
          cases hd : parseDigitOpt t with
          | mk d rr =>
              rw [hd] at h
              injection h with h1 h2
              subst h1; subst h2
              rw [collapseAux_cons_nws (by decide), parsePSuffixOpt,
                if_neg (by decide), if_pos rfl, parseDigitOpt_collapse hd]
        · rw [if_neg hc2] at h
          injection h with h1 h2
          subst h1; subst h2
          cases hy : collapseAux false (c :: t) with
          | nil => exact absurd hy (collapse_false_ne_nil (by simp))
          | cons c2 t2 =>
              have hcc : ¬(c2 = '^') ∧ ¬(c2 = '~') := by
                rcases collapse_head_eq hy with ⟨t0, hx0, _⟩ | ⟨hsp, _, _, _, _⟩
                · injection hx0 with he1 _
                  rw [← he1]
                  exact ⟨hc1, hc2⟩
                · rw [hsp]
                  exact ⟨by decide, by decide⟩
              rw [parsePSuffixOpt, if_neg hcc.1, if_neg hcc.2]

theorem parseTerm_collapse_some {x xr : List Char} {t : TermT}
    (h : parseTerm x = some (t, xr)) :
    parseTerm (collapseAux false x) = some (t, collapseAux false xr) := by
  rw [parseTerm] at h
  split at h
  · exact absurd h (by simp)
  · rename_i lit r1 hlit
    split at h
    rename_i sfx r2 hsfx
    split at h
    rename_i b r3 hboost
    injection h with h1
    injection h1 with ht hr
    rw [← ht, ← hr]
    simp only [parseTerm, parseLiteral_collapse_some hlit,
      parseTSuffixOpt_collapse hsfx, parseBoostOpt_collapse hboost]

theorem parseTerm_collapse_none {x : List Char} (h : parseTerm x = none) :
    parseTerm (collapseAux false x) = none := by
  rw [parseTerm] at h
  split at h
  · rename_i hlit
    rw [parseTerm, parseLiteral_collapse_none hlit]
  · rename_i lit r1 hlit
    split at h
    rename_i sfx r2 hsfx
    split at h
    rename_i b r3 hboost
    exact absurd h (by simp)

theorem parseRVal_collapse_some {x xr : List Char} {rv : RValT}
    (h : parseRVal x = some (rv, xr)) :
    parseRVal (collapseAux false x) = some (rv, collapseAux false xr) := by
  cases x with
  | nil => exact absurd h (by simp [parseRVal])
  | cons c t =>
      simp only [parseRVal.eq_def] at h
      split at h
      · rename_i hc
        subst hc
        injection h with h1
        injection h1 with ha hb
        subst ha; subst hb
        rw [collapseAux_cons_nws (by decide), parseRVal, if_pos rfl]
      · rename_i hc
        split at h
        · rename_i tm r0 ht2
          injection h with h1
          injection h1 with ha hb
          subst ha; subst hb
          have hterm := parseTerm_collapse_some ht2
          cases hy : collapseAux false (c :: t) with
          | nil => exact absurd hy (collapse_false_ne_nil (by simp))
          | cons c2 t2 =>
              have hc2 : ¬(c2 = '*') := by
                rcases collapse_head_eq hy with ⟨t0, hx0, _⟩ | ⟨hsp, _, _, _, _⟩
                · injection hx0 with he1 _
                  rw [← he1]
                  exact hc
                · rw [hsp]
                  decide
              rw [hy] at hterm
              simp only [parseRVal.eq_def, if_neg hc2, hterm]
        · exact absurd h (by simp)

theorem parseRVal_collapse_none {x : List Char} (h : parseRVal x = none) :
    parseRVal (collapseAux false x) = none := by
  cases x with
  | nil => rfl
  | cons c t =>
      simp only [parseRVal.eq_def] at h
      split at h
      · exact absurd h (by simp)
      · rename_i hc
        split at h
        · exact absurd h (by simp)
        · rename_i ht2
          have hterm := parseTerm_collapse_none ht2
          cases hy : collapseAux false (c :: t) with
          | nil => rfl
          | cons c2 t2 =>
              have hc2 : ¬(c2 = '*') := by
                rcases collapse_head_eq hy with ⟨t0, hx0, _⟩ | ⟨hsp, _, _, _, _⟩
                · injection hx0 with he1 _
                  rw [← he1]
                  exact hc
                · rw [hsp]
                  decide
              rw [hy] at hterm
              simp only [parseRVal.eq_def, if_neg hc2, hterm]

theorem collapse_singleton (a : Char) : ∃ b, collapseAux false [a] = [b] := by
  by_cases ha : isPySpace a = true
  · refine ⟨' ', ?_⟩
    rw [collapseAux_cons_ws ha]
    rfl
  · rw [Bool.not_eq_true] at ha
    refine ⟨a, ?_⟩
    rw [collapseAux_cons_nws ha]
    rfl

theorem parseRangeWith_eval {excl : Bool} {oc cc : Char}
    {y r1 r2 r3 r4 r5 r6 : List Char} {lo hi : RValT}
    (h1 : parseRVal y = some (lo, r1)) (h2 : parseWs r1 = some r2)
    (h3 : r2 = 'T' :: 'O' :: r3) (h4 : parseWs r3 = some r4)
    (h5 : parseRVal r4 = some (hi, r5)) (h6 : r5 = cc :: r6) :
    parseRangeWith excl oc cc (oc :: y) = some (⟨excl, lo, hi⟩, r6) := by
  subst h3
  subst h6
  simp [parseRangeWith.eq_def, h1, h2, h4, h5]

theorem parseRangeWith_collapse_some {excl : Bool} {oc cc : Char} {x xr : List Char}
    {rg : RangeT}
    (hoc : isPySpace oc = false) (hcc : isPySpace cc = false)
    (h : parseRangeWith excl oc cc x = some (rg, xr)) :
    parseRangeWith excl oc cc (collapseAux false x) =
      some (rg, collapseAux false xr) := by
  rw [parseRangeWith.eq_def] at h
  split at h
  · exact absurd h (by simp)
  · rename_i c t
    split at h
    · rename_i hc
      subst hc
      split at h
      · exact absurd h (by simp)
      · rename_i lo r1 hrv1
        split at h
        · exact absurd h (by simp)
        · rename_i r2 hws1
          split at h
          · exact absurd h (by simp)
          · exact absurd h (by simp)
          · rename_i c1 c2 r3
            split at h
            · rename_i hc1
              subst hc1
              split at h
              · rename_i hc2
                subst hc2
                split at h
                · exact absurd h (by simp)
                · rename_i r4 hws2
                  split at h
                  · exact absurd h (by simp)
                  · rename_i hi r5 hrv2
                    split at h
                    · exact absurd h (by simp)
                    · rename_i c3 r6
                      split at h
                      · rename_i hc3
                        subst hc3
                        injection h with h1
                        injection h1 with ha hb
                        rw [collapseAux_cons_nws hoc, ← ha, ← hb]
                        refine parseRangeWith_eval
                          (parseRVal_collapse_some hrv1)
                          (parseWs_collapse_some hws1) ?_
                          (parseWs_collapse_some hws2)
                          (parseRVal_collapse_some hrv2) ?_
                        · rw [collapseAux_cons_nws (by decide),
                            collapseAux_cons_nws (by decide)]
                        · rw [collapseAux_cons_nws hcc]
                      · exact absurd h (by simp)
              · exact absurd h (by simp)
            · exact absurd h (by simp)
    · exact absurd h (by simp)

theorem ws_ne_of_nonws {a b : Char} (ha : isPySpace a = true)
    (hb : isPySpace b = false) : ¬(a = b) := by
  intro he
  rw [he, hb] at ha
  exact absurd ha (by simp)

theorem collapse_head_ne {x : List Char} {c2 : Char} {t2 : List Char}
    {ch : Char} (hch : isPySpace ch = false)
    (hx : ∀ a t, x = a :: t → ¬(a = ch))
    (hy : collapseAux false x = c2 :: t2) : ¬(c2 = ch) := by
  rcases collapse_head_eq hy with ⟨t0, hx0, _⟩ | ⟨hsp, _, _, _, _⟩
  · exact hx c2 t0 hx0
  · rw [hsp]
    exact ws_ne_of_nonws (by decide) hch

theorem parseRangeWith_collapse_none {excl : Bool} {oc cc : Char} {x : List Char}
    (hoc : isPySpace oc = false) (hcc : isPySpace cc = false)
    (h : parseRangeWith excl oc cc x = none) :
    parseRangeWith excl oc cc (collapseAux false x) = none := by
  rw [parseRangeWith.eq_def] at h
  split at h
  · rfl
  · rename_i c t
    split at h
    · rename_i hc
      subst hc
      rw [collapseAux_cons_nws hoc]
      split at h
      · rename_i hrv1
        simp [parseRangeWith.eq_def, parseRVal_collapse_none hrv1]
      · rename_i lo r1 hrv1
        have hrvc := parseRVal_collapse_some hrv1
        split at h
        · rename_i hws1
          simp [parseRangeWith.eq_def, hrvc, parseWs_collapse_none hws1]
        · rename_i r2 hws1
          have hwsc := parseWs_collapse_some hws1
          split at h
          · simp [parseRangeWith.eq_def, hrvc, hwsc, collapseAux]
          · rename_i a b0
            rcases collapse_singleton b0 with ⟨b, hb⟩
            rw [hb] at hwsc
            simp [parseRangeWith.eq_def, hrvc, hwsc]
          · rename_i c1 c2 r3
            split at h
            · rename_i hc1
              subst hc1
              split at h
              · rename_i hc2
                subst hc2
                have hcolTO : collapseAux false ('T' :: 'O' :: r3) =
                    'T' :: 'O' :: collapseAux false r3 := by
                  rw [collapseAux_cons_nws (by decide),
                    collapseAux_cons_nws (by decide)]
                rw [hcolTO] at hwsc
                split at h
                · rename_i hws2
                  simp [parseRangeWith.eq_def, hrvc, hwsc,
                    parseWs_collapse_none hws2]
                · rename_i r4 hws2
                  have hws2c := parseWs_collapse_some hws2
                  split at h
                  · rename_i hrv2
                    simp [parseRangeWith.eq_def, hrvc, hwsc, hws2c,
                      parseRVal_collapse_none hrv2]
                  · rename_i hi r5 hrv2
                    have hrv2c := parseRVal_collapse_some hrv2
                    split at h
                    · simp [parseRangeWith.eq_def, hrvc, hwsc, hws2c, hrv2c,
                        collapseAux]
                    · rename_i c3 r6
                      split at h
                      · rename_i hc3
                        subst hc3
                        exact absurd h (by simp)
                      · rename_i hc3
                        cases hy5 : collapseAux false (c3 :: r6) with
                        | nil =>
                            exact absurd hy5 (collapse_false_ne_nil (by simp))
                        | cons b5 bs5 =>
                            have hb5 : ¬(b5 = cc) := collapse_head_ne hcc
                              (by
                                intro a0 t0 ht
                                injection ht with he _
                                rw [← he]
                                exact hc3) hy5
                            rw [hy5] at hrv2c
                            simp [parseRangeWith.eq_def, hrvc, hwsc, hws2c,
                              hrv2c, hb5]
              · rename_i hc2
                have hcolT : collapseAux false ('T' :: c2 :: r3) =
                    'T' :: collapseAux false (c2 :: r3) :=
                  collapseAux_cons_nws (by decide) _ _
                rw [hcolT] at hwsc
                cases hin : collapseAux false (c2 :: r3) with
                | nil => exact absurd hin (collapse_false_ne_nil (by simp))
                | cons b2 bs =>
                    have hb2 : ¬(b2 = 'O') := collapse_head_ne (by decide)
                      (by
                        intro a0 t0 ht
                        injection ht with he _
                        rw [← he]
                        exact hc2) hin
                    rw [hin] at hwsc
                    simp [parseRangeWith.eq_def, hrvc, hwsc, hb2]
            · rename_i hc1
              cases hy2 : collapseAux false (c1 :: c2 :: r3) with
              | nil => exact absurd hy2 (collapse_false_ne_nil (by simp))
              | cons b1 rest =>
                  have hb1 : ¬(b1 = 'T') := collapse_head_ne (by decide)
                    (by
                      intro a0 t0 ht
                      injection ht with he _
                      rw [← he]
                      exact hc1) hy2
                  rw [hy2] at hwsc
                  cases rest with
                  | nil => simp [parseRangeWith.eq_def, hrvc, hwsc]
                  | cons b2 bs =>
                      simp [parseRangeWith.eq_def, hrvc, hwsc, hb1]
    · rename_i hc
      cases hy : collapseAux false (c :: t) with
      | nil => rfl
      | cons c2 t2 =>
          have hc2 : ¬(c2 = oc) := collapse_head_ne hoc
            (by
              intro a0 t0 ht
              injection ht with he _
              rw [← he]
              exact hc) hy
          simp [parseRangeWith.eq_def, hc2]

theorem parseRange_collapse_some {x xr : List Char} {rg : RangeT}
    (h : parseRange x = some (rg, xr)) :
    parseRange (collapseAux false x) = some (rg, collapseAux false xr) := by
  rw [parseRange] at h
  split at h
  · rename_i res hin
    cases res with
    | mk rg0 r0 =>
        injection h with h1
        injection h1 with ha hb
        subst ha; subst hb
        rw [parseRange,
          parseRangeWith_collapse_some (by decide) (by decide) hin]
  · rename_i hin
    rw [parseRange,
      parseRangeWith_collapse_none (by decide) (by decide) hin,
      parseRangeWith_collapse_some (by decide) (by decide) h]

theorem parseRange_collapse_none {x : List Char} (h : parseRange x = none) :
    parseRange (collapseAux false x) = none := by
  rw [parseRange] at h
  split at h
  · rename_i res hin
    exact absurd h (by simp)
  · rename_i hin
    rw [parseRange,
      parseRangeWith_collapse_none (by decide) (by decide) hin,
      parseRangeWith_collapse_none (by decide) (by decide) h]

theorem parseEmptyField_collapse_none {x : List Char}
    (h : parseEmptyField x = none) :
    parseEmptyField (collapseAux false x) = none := by
  rw [parseEmptyField] at h
  split at h
  · rename_i hfn
    rw [parseEmptyField, parseFieldName_collapse_none hfn]
  · rename_i fn r hfn
    have hfc := parseFieldName_collapse_some hfn
    split at h
    · simp [parseEmptyField, hfc, collapseAux]
    · rename_i c rest
      split at h
      · rename_i hc
        subst hc
        have hcolr : collapseAux false (':' :: rest) =
            ':' :: collapseAux false rest := collapseAux_cons_nws (by decide) _ _
        rw [hcolr] at hfc
        split at h
        · exact absurd h (by simp)
        · rename_i c2 t4
          split at h
          · exact absurd h (by simp)
          · rename_i hc2
            cases hy : collapseAux false (c2 :: t4) with
            | nil => exact absurd hy (collapse_false_ne_nil (by simp))
            | cons b2 bs =>
                have hb2 : ¬(b2 = '\n') := by
                  rcases collapse_head_eq hy with ⟨t0, hx0, _⟩ | ⟨hsp, _, _, _, _⟩
                  · injection hx0 with he1 _
                    rw [← he1]
                    exact hc2
                  · rw [hsp]
                    decide
                rw [hy] at hfc
                simp [parseEmptyField, hfc, hb2]
      · rename_i hc
        cases hy : collapseAux false (c :: rest) with
        | nil => exact absurd hy (collapse_false_ne_nil (by simp))
        | cons b2 bs =>
            have hb2 : ¬(b2 = ':') := collapse_head_ne (by decide)
              (by
                intro a0 t0 ht
                injection ht with he _
                rw [← he]
                exact hc) hy
            rw [hy] at hfc
            simp [parseEmptyField, hfc, hb2]

theorem parsePhraseRest_collapse : ∀ (fuel : Nat) (x : List Char)
    (ls : List (List Char)) (xr : List Char),
    parsePhraseRest fuel x = (ls, xr) →
    parsePhraseRest fuel (collapseAux false x) = (ls, collapseAux false xr) := by
  intro fuel
  induction fuel with
  | zero =>
      intro x ls xr h
      rw [parsePhraseRest] at h
      injection h with h1 h2
      subst h1; subst h2
      rw [parsePhraseRest]
  | succ fuel ih =>
      intro x ls xr h
      rw [parsePhraseRest] at h
      split at h
      · rename_i hws
        injection h with h1 h2
        subst h1; subst h2
        simp only [parsePhraseRest, parseWs_collapse_none hws]
      · rename_i r1 hws
        split at h
        · rename_i hlit
          injection h with h1 h2
          subst h1; subst h2
          simp only [parsePhraseRest, parseWs_collapse_some hws,
            parseLiteral_collapse_none hlit]
        · rename_i lit r2 hlit
          split at h
          rename_i ls2 r3 hrec
          injection h with h1 h2
          subst h1; subst h2
          simp only [parsePhraseRest, parseWs_collapse_some hws,
            parseLiteral_collapse_some hlit, ih r2 ls2 r3 hrec]

theorem parsePhrase_collapse_some {fuel : Nat} {x xr : List Char} {p : PhraseT}
    (h : parsePhrase fuel x = some (p, xr)) :
    parsePhrase fuel (collapseAux false x) = some (p, collapseAux false xr) := by
  rw [parsePhrase.eq_def] at h
  split at h
  · exact absurd h (by simp)
  · rename_i c t
    split at h
    · rename_i hc
      subst hc
      split at h
      · exact absurd h (by simp)
      · rename_i lit r1 hlit
        split at h
        rename_i ls r2 hrest
        split at h
        · exact absurd h (by simp)
        · rename_i c2 r3
          split at h
          · rename_i hc2
            subst hc2
            split at h
            rename_i sfx r4 hsfx
            injection h with h1
            injection h1 with ha hb
            have hrestc := parsePhraseRest_collapse fuel r1 ls _ hrest
            have hcq : collapseAux false ('"' :: r3) =
                '"' :: collapseAux false r3 := collapseAux_cons_nws (by decide) _ _
            rw [hcq] at hrestc
            rw [collapseAux_cons_nws (by decide), ← ha, ← hb]
            simp [parsePhrase.eq_def, parseLiteral_collapse_some hlit, hrestc,
              parsePSuffixOpt_collapse hsfx]
          · exact absurd h (by simp)
    · exact absurd h (by simp)

theorem parsePhrase_collapse_none {fuel : Nat} {x : List Char}
    (h : parsePhrase fuel x = none) :
    parsePhrase fuel (collapseAux false x) = none := by
  rw [parsePhrase.eq_def] at h
  split at h
  · rfl
  · rename_i c t
    split at h
    · rename_i hc
      subst hc
      rw [collapseAux_cons_nws (by decide)]
      split at h
      · rename_i hlit
        simp [parsePhrase.eq_def, parseLiteral_collapse_none hlit]
      · rename_i lit r1 hlit
        split at h
        rename_i ls r2 hrest
        have hrestc := parsePhraseRest_collapse fuel r1 ls _ hrest
        split at h
        · simp [parsePhrase.eq_def, parseLiteral_collapse_some hlit,
            hrestc, collapseAux]
        · rename_i c2 r3
          split at h
          · exact absurd h (by simp)
          · rename_i hc2
            cases hy : collapseAux false (c2 :: r3) with
            | nil => exact absurd hy (collapse_false_ne_nil (by simp))
            | cons b2 bs =>
                have hb2 : ¬(b2 = '"') := collapse_head_ne (by decide)
                  (by
                    intro a0 t0 ht
                    injection ht with he _
                    rw [← he]
                    exact hc2) hy
                rw [hy] at hrestc
                simp [parsePhrase.eq_def, parseLiteral_collapse_some hlit,
                  hrestc, hb2]
    · rename_i hc
      cases hy : collapseAux false (c :: t) with
      | nil => rfl
      | cons b2 bs =>
          have hb2 : ¬(b2 = '"') := collapse_head_ne (by decide)
            (by
              intro a0 t0 ht
              injection ht with he _
              rw [← he]
              exact hc) hy
          simp [parsePhrase.eq_def, hb2]

theorem parseTermOrPhrase_collapse_some {fuel : Nat} {x xr : List Char}
    {node : QT} (h : parseTermOrPhrase fuel x = some (node, xr)) :
    parseTermOrPhrase fuel (collapseAux false x) =
      some (node, collapseAux false xr) := by
  rw [parseTermOrPhrase] at h
  split at h
  · rename_i t0 r0 ht
    injection h with h1
    injection h1 with ha hb
    rw [← ha, ← hb]
    simp only [parseTermOrPhrase, parseTerm_collapse_some ht]
  · rename_i ht
    split at h
    · rename_i p0 r0 hp
      injection h with h1
      injection h1 with ha hb
      rw [← ha, ← hb]
      simp only [parseTermOrPhrase, parseTerm_collapse_none ht,
        parsePhrase_collapse_some hp]
    · exact absurd h (by simp)

theorem parseTermOrPhrase_collapse_none {fuel : Nat} {x : List Char}
    (h : parseTermOrPhrase fuel x = none) :
    parseTermOrPhrase fuel (collapseAux false x) = none := by
  rw [parseTermOrPhrase] at h
  split at h
  · exact absurd h (by simp)
  · rename_i ht
    split at h
    · exact absurd h (by simp)
    · rename_i hp
      simp only [parseTermOrPhrase, parseTerm_collapse_none ht,
        parsePhrase_collapse_none hp]

theorem OColl_refl (o : Option QT) : OColl o o := by
  constructor
  · intro h
    exact h
  · intro n hn
    exact ⟨n, hn, fun _ => rfl⟩

theorem mkQ_empty_split {c1 : QT} {rest : Option QT}
    (h : hasEmptyQ (mkQ c1 rest) = false) :
    hasEmptyQ c1 = false ∧ ∀ n, rest = some n → hasEmptyQ n = false := by
  cases rest with
  | none =>
      refine ⟨h, ?_⟩
      intro n hn
      exact absurd hn (by simp)
  | some n2 =>
      rw [mkQ, hasEmptyQ] at h
      rcases Bool.or_eq_false_iff.mp h with ⟨h1, h2⟩
      refine ⟨h1, ?_⟩
      intro n hn
      injection hn with hn
      rw [← hn]
      exact h2

theorem mkQ_OColl {c1 c1' : QT} {rest rest' : Option QT}
    (hc : hasEmptyQ c1 = false → c1' = c1)
    (ho : OColl rest rest') :
    OColl (some (mkQ c1 rest)) (some (mkQ c1' rest')) := by
  constructor
  · intro h
    exact absurd h (by simp)
  · intro n hn
    injection hn with hn
    refine ⟨mkQ c1' rest', rfl, ?_⟩
    intro hfree
    rw [← hn] at hfree
    rcases mkQ_empty_split hfree with ⟨h1, h2⟩
    rw [← hn]
    cases rest with
    | none => rw [ho.1 rfl, hc h1]
    | some m =>
        rcases ho.2 m rfl with ⟨m2, hm2, heq⟩
        rw [hm2, hc h1, heq (h2 m rfl)]

theorem literal_of_fieldChar {c : Char} (h : isFieldChar c = true) :
    isLiteralChar c = true := by
  rw [isFieldChar, Bool.or_eq_true] at h
  rw [isLiteralChar, isWordChar]
  rcases h with h | h
  · simp [h]
  · simp [h]

theorem literal_of_fieldStart {c : Char} (h : isFieldStart c = true) :
    isLiteralChar c = true := by
  rw [isFieldStart, Bool.or_eq_true] at h
  rw [isLiteralChar, isWordChar]
  rcases h with h | h
  · simp [Char.isAlphanum, h]
  · simp [h]

theorem fieldColon_all_literal {fn : List Char} (hf : isFieldNameL fn = true) :
    (fn ++ [':']).all isLiteralChar = true := by
  cases fn with
  | nil => exact absurd hf (by simp [isFieldNameL])
  | cons c0 fr =>
      rw [isFieldNameL, Bool.and_eq_true] at hf
      rw [List.cons_append, List.all_cons, Bool.and_eq_true]
      refine ⟨literal_of_fieldStart hf.1, ?_⟩
      rw [List.all_append, Bool.and_eq_true]
      refine ⟨?_, by decide⟩
      rw [List.all_eq_true]
      intro x hx
      exact literal_of_fieldChar (List.all_eq_true.mp hf.2 x hx)

theorem parseFieldName_exact {fn rest : List Char} (hf : isFieldNameL fn = true)
    (hrest : ∀ c t, rest = c :: t → isFieldChar c = false) :
    parseFieldName (fn ++ rest) = some (fn, rest) := by
  cases fn with
  | nil => exact absurd hf (by simp [isFieldNameL])
  | cons c0 fr =>
      rw [isFieldNameL, Bool.and_eq_true] at hf
      rw [List.cons_append, parseFieldName, if_pos hf.1]
      rcases takeDrop_append_headFail hf.2 hrest with ⟨h1, h2⟩
      rw [h1, h2]

theorem pbool_head_not_paren : ∀ (fuel : Nat) {c : Char} {w : List Char},
    ¬(c = '(') → parseP fuel .pbool (c :: w) = none := by
  intro fuel c w hc
  cases fuel with
  | zero => rw [parseP]
  | succ k =>
      rw [parseP_succ_pbool]
      simp [hc]

theorem parseTerm_space (w : List Char) : parseTerm (' ' :: w) = none := by
  have htw : (' ' :: w).takeWhile isLiteralChar = [] := by
    rw [List.takeWhile_cons, if_neg (by decide)]
  have hlit : parseLiteral (' ' :: w) = none := by
    rw [parseLiteral, htw]
    rfl
  simp [parseTerm, hlit]

theorem parsePhrase_space (fuel : Nat) (w : List Char) :
    parsePhrase fuel (' ' :: w) = none := by
  rw [parsePhrase.eq_def]
  simp

theorem parseRangeWith_head {excl : Bool} {oc cc c : Char} {w : List Char}
    (h : ¬(c = oc)) : parseRangeWith excl oc cc (c :: w) = none := by
  rw [parseRangeWith.eq_def]
  simp [h]

theorem parseRange_space (w : List Char) : parseRange (' ' :: w) = none := by
  rw [parseRange, parseRangeWith_head (by decide), parseRangeWith_head (by decide)]

theorem emptyField_colon_space_none (w : List Char) {fn : List Char}
    (hf : isFieldNameL fn = true) :
    parseEmptyField (fn ++ ':' :: ' ' :: w) = none := by
  have hfn : parseFieldName (fn ++ ':' :: ' ' :: w) =
      some (fn, ':' :: ' ' :: w) := by
    apply parseFieldName_exact hf
    intro c t hct
    injection hct with he _
    rw [← he]
    decide
  rw [parseEmptyField, hfn]
  simp

theorem pfielded_colon_space_none : ∀ (fuel : Nat) (w : List Char)
    {fn : List Char}, isFieldNameL fn = true →
    parseP fuel .pfielded (fn ++ ':' :: ' ' :: w) = none := by
  intro fuel w fn hf
  cases fuel with
  | zero => rw [parseP]
  | succ k =>
      have hfn : parseFieldName (fn ++ ':' :: ' ' :: w) =
          some (fn, ':' :: ' ' :: w) := by
        apply parseFieldName_exact hf
        intro c t hct
        injection hct with he _
        rw [← he]
        decide
      have hpb : parseP k PTag.pbool (' ' :: w) = none :=
        pbool_head_not_paren k (by decide)
      rw [parseP_succ_pfielded, hfn]
      simp [parseTerm_space, parsePhrase_space, parseRange_space, hpb]

theorem term_fieldColon_space {fn : List Char} (w : List Char)
    (hf : isFieldNameL fn = true) :
    parseTerm (fn ++ ':' :: ' ' :: w) =
      some (⟨fn ++ [':'], none, none⟩, ' ' :: w) := by
  have hall := fieldColon_all_literal hf
  have hlit : parseLiteral (fn ++ ':' :: ' ' :: w) =
      some (fn ++ [':'], ' ' :: w) := by
    have hb : ∀ c t, (' ' :: w : List Char) = c :: t →
        isLiteralChar c = false := by
      intro c t hct
      injection hct with he _
      rw [← he]
      decide
    rcases takeDrop_append_headFail hall hb with ⟨h1, h2⟩
    rw [show fn ++ ':' :: ' ' :: w = (fn ++ [':']) ++ ' ' :: w from by simp,
      parseLiteral, h1, h2, if_neg (by simp)]
  have hsfx : parseTSuffixOpt (' ' :: w) = (none, ' ' :: w) := by
    rw [parseTSuffixOpt, if_neg (by decide), if_neg (by decide),
      if_neg (by decide)]
  have hbo : parseBoostOpt (' ' :: w) = (none, ' ' :: w) := by
    rw [parseBoostOpt, if_neg (by decide)]
  simp [parseTerm, hlit, hsfx, hbo]

theorem termOrPhrase_fieldColon_space {fn : List Char} (fuel : Nat)
    (w : List Char) (hf : isFieldNameL fn = true) :
    parseTermOrPhrase fuel (fn ++ ':' :: ' ' :: w) =
      some (.termN ⟨fn ++ [':'], none, none⟩, ' ' :: w) := by
  rw [parseTermOrPhrase, term_fieldColon_space w hf]

theorem clauseN_OColl {op : Option OpT} {b b' : QT}
    (hbeq : hasEmptyQ b = false → b' = b) :
    OColl (some (QT.clauseN op b)) (some (QT.clauseN op b')) := by
  constructor
  · intro hx
    exact absurd hx (by simp)
  · intro n hn
    injection hn with hn
    refine ⟨QT.clauseN op b', rfl, ?_⟩
    intro hfree
    rw [← hn] at hfree
    rw [← hn, hbeq hfree]

theorem fielded_OColl {fn : List Char} {v v' : QT}
    (hveq : hasEmptyQ v = false → v' = v) :
    OColl (some (QT.fielded fn v)) (some (QT.fielded fn v')) := by
  constructor
  · intro hx
    exact absurd hx (by simp)
  · intro n hn
    injection hn with hn
    refine ⟨QT.fielded fn v', rfl, ?_⟩
    intro hfree
    rw [← hn] at hfree
    rw [← hn, hveq hfree]

theorem group_OColl {q q' : QT} (hqeq : hasEmptyQ q = false → q' = q) :
    OColl (some (QT.group q)) (some (QT.group q')) := by
  constructor
  · intro hx
    exact absurd hx (by simp)
  · intro n hn
    injection hn with hn
    refine ⟨QT.group q', rfl, ?_⟩
    intro hfree
    rw [← hn] at hfree
    rw [← hn, hqeq hfree]

theorem pclause_collapse_emptyField {fuel : Nat} {l l1 r0 fn : List Char}
    {op : Option OpT}
    (hop : parseOp l = (op, l1))
    (hef : parseEmptyField l1 = some (fn, r0)) :
    ∃ o2, parseP (fuel + 1) .pclause (collapseAux false l) =
        some (o2, collapseAux false r0) ∧
      OColl (some (QT.clauseN op (QT.emptyF fn))) o2 := by
  have hopc := parseOp_collapse hop
  rcases parseEmptyField_spec hef with ⟨hsp, hf, hnw, hcases⟩
  rcases hcases with hr0 | hr0
  · subst hr0
    have hcl1 : collapseAux false l1 = fn ++ [':'] := by
      rw [hsp, List.append_nil, collapseAux_noWs _ hnw]
    have hefc : parseEmptyField (collapseAux false l1) = some (fn, []) := by
      have hfn : parseFieldName (fn ++ [':']) = some (fn, [':']) := by
        apply parseFieldName_exact hf
        intro c t hct
        injection hct with he _
        rw [← he]
        decide
      rw [hcl1, parseEmptyField, hfn]
      rfl
    refine ⟨some (QT.clauseN op (QT.emptyF fn)), ?_, OColl_refl _⟩
    simp only [parseP_succ_pclause, hopc, hefc, collapseAux]
  · cases r0 with
    | nil => simp at hr0
    | cons c2 rr =>
        rw [List.head?_cons] at hr0
        injection hr0 with hc2
        subst hc2
        have hcr0 : collapseAux false ('\n' :: rr) =
            ' ' :: collapseAux true rr := by
          rw [collapseAux_cons_ws (by decide)]
          rfl
        have hcl1 : collapseAux false l1 =
            fn ++ ':' :: ' ' :: collapseAux true rr := by
          rw [hsp, collapse_noWsPrefix_append _ _ hnw, hcr0]
          simp
        have he1 := emptyField_colon_space_none (collapseAux true rr) hf
        have he2 := pfielded_colon_space_none fuel (collapseAux true rr) hf
        have he3 := termOrPhrase_fieldColon_space fuel (collapseAux true rr) hf
        refine ⟨some (QT.clauseN op
          (QT.termN ⟨fn ++ [':'], none, none⟩)), ?_, ?_⟩
        · rw [hcr0]
          simp only [parseP_succ_pclause, hopc, hcl1, he1, he2, he3]
        · constructor
          · intro hx
            exact absurd hx (by simp)
          · intro n hn
            injection hn with hn
            refine ⟨_, rfl, ?_⟩
            intro hfree
            rw [← hn, hasEmptyQ, hasEmptyQ] at hfree
            exact absurd hfree (by simp)

theorem pclause_tail_collapse {fuel : Nat} {l l1 r : List Char} {o : Option QT}
    {op : Option OpT} {fd : Option (Option QT × List Char)}
    (ihS : ∀ (tag : PTag) (x : List Char) (o1 : Option QT) (r1 : List Char),
      parseP fuel tag x = some (o1, r1) →
      ∃ o2, parseP fuel tag (collapseAux false x) =
          some (o2, collapseAux false r1) ∧ OColl o1 o2)
    (ihF : ∀ (tag : PTag) (x : List Char), parseP fuel tag x = none →
      parseP fuel tag (collapseAux false x) = none)
    (hopc : parseOp (collapseAux false l) = (op, collapseAux false l1))
    (hefc : parseEmptyField (collapseAux false l1) = none)
    (hfdc : parseP fuel .pfielded (collapseAux false l1) = fd)
    (hfd_wild : fd = none ∨ ∃ rb, fd = some (none, rb))
    (h : (match parseTermOrPhrase fuel l1 with
          | some (b, r) => some (some (QT.clauseN op b), r)
          | none =>
              match parseP fuel PTag.pbool l1 with
              | some (some b, r) => some (some (QT.clauseN op b), r)
              | _ =>
                  match parseRange l1 with
                  | some (rg, r) => some (some (QT.clauseN op (QT.rangeN rg)), r)
                  | none => none) = some (o, r)) :
    ∃ o2, parseP (fuel + 1) .pclause (collapseAux false l) =
        some (o2, collapseAux false r) ∧ OColl o o2 := by
  have hred : parseP (fuel + 1) .pclause (collapseAux false l) =
      (match parseTermOrPhrase fuel (collapseAux false l1) with
       | some (b, r) => some (some (QT.clauseN op b), r)
       | none =>
           match parseP fuel PTag.pbool (collapseAux false l1) with
           | some (some b, r) => some (some (QT.clauseN op b), r)
           | _ =>
               match parseRange (collapseAux false l1) with
               | some (rg, r) => some (some (QT.clauseN op (QT.rangeN rg)), r)
               | none => none) := by
    rcases hfd_wild with hfd0 | ⟨rb, hfd0⟩
    · subst hfd0
      simp only [parseP_succ_pclause, hopc, hefc, hfdc]
    · subst hfd0
      simp only [parseP_succ_pclause, hopc, hefc, hfdc]
  cases htp : parseTermOrPhrase fuel l1 with
  | some pr =>
      cases pr with
      | mk b r0 =>
          rw [htp] at h
          injection h with h1
          injection h1 with ho hr
          subst ho; subst hr
          refine ⟨some (QT.clauseN op b), ?_, OColl_refl _⟩
          simp only [hred, parseTermOrPhrase_collapse_some htp]
  | none =>
      rw [htp] at h
      have htpc := parseTermOrPhrase_collapse_none htp
      cases hbo : parseP fuel PTag.pbool l1 with
      | some pr =>
          cases pr with
          | mk ob rb2 =>
              cases ob with
              | some b =>
                  rw [hbo] at h
                  injection h with h1
                  injection h1 with ho hr
                  subst ho; subst hr
                  rcases ihS .pbool l1 (some b) rb2 hbo with ⟨ob', hbo', hocl⟩
                  rcases hocl.2 b rfl with ⟨b', hb', hbeq⟩
                  subst hb'
                  refine ⟨some (QT.clauseN op b'), ?_, clauseN_OColl hbeq⟩
                  simp only [hred, htpc, hbo']
              | none =>
                  rw [hbo] at h
                  rcases ihS .pbool l1 none rb2 hbo with ⟨ob', hbo', hocl⟩
                  rw [hocl.1 rfl] at hbo'
                  cases hrg : parseRange l1 with
                  | some rp =>
                      cases rp with
                      | mk rg r0 =>
                          rw [hrg] at h
                          injection h with h1
                          injection h1 with ho hr
                          subst ho; subst hr
                          refine ⟨some (QT.clauseN op (QT.rangeN rg)), ?_,
                            OColl_refl _⟩
                          simp only [hred, htpc, hbo',
                            parseRange_collapse_some hrg]
                  | none =>
                      rw [hrg] at h
                      exact absurd h (by simp)
      | none =>
          rw [hbo] at h
          have hboc := ihF .pbool l1 hbo
          cases hrg : parseRange l1 with
          | some rp =>
              cases rp with
              | mk rg r0 =>
                  rw [hrg] at h
                  injection h with h1
                  injection h1 with ho hr
                  subst ho; subst hr
                  refine ⟨some (QT.clauseN op (QT.rangeN rg)), ?_, OColl_refl _⟩
                  simp only [hred, htpc, hboc, parseRange_collapse_some hrg]
          | none =>
              rw [hrg] at h
              exact absurd h (by simp)

theorem pclause_tail_collapse_none {fuel : Nat} {l l1 : List Char}
    {op : Option OpT} {fd : Option (Option QT × List Char)}
    (ihS : ∀ (tag : PTag) (x : List Char) (o1 : Option QT) (r1 : List Char),
      parseP fuel tag x = some (o1, r1) →
      ∃ o2, parseP fuel tag (collapseAux false x) =
          some (o2, collapseAux false r1) ∧ OColl o1 o2)
    (ihF : ∀ (tag : PTag) (x : List Char), parseP fuel tag x = none →
      parseP fuel tag (collapseAux false x) = none)
    (hopc : parseOp (collapseAux false l) = (op, collapseAux false l1))
    (hefc : parseEmptyField (collapseAux false l1) = none)
    (hfdc : parseP fuel .pfielded (collapseAux false l1) = fd)
    (hfd_wild : fd = none ∨ ∃ rb, fd = some (none, rb))
    (h : (match parseTermOrPhrase fuel l1 with
          | some (b, r) => some (some (QT.clauseN op b), r)
          | none =>
              match parseP fuel PTag.pbool l1 with
              | some (some b, r) => some (some (QT.clauseN op b), r)
              | _ =>
                  match parseRange l1 with
                  | some (rg, r) => some (some (QT.clauseN op (QT.rangeN rg)), r)
                  | none => none) = none) :
    parseP (fuel + 1) .pclause (collapseAux false l) = none := by
  have hred : parseP (fuel + 1) .pclause (collapseAux false l) =
      (match parseTermOrPhrase fuel (collapseAux false l1) with
       | some (b, r) => some (some (QT.clauseN op b), r)
       | none =>
           match parseP fuel PTag.pbool (collapseAux false l1) with
           | some (some b, r) => some (some (QT.clauseN op b), r)
           | _ =>
               match parseRange (collapseAux false l1) with
               | some (rg, r) => some (some (QT.clauseN op (QT.rangeN rg)), r)
               | none => none) := by
    rcases hfd_wild with hfd0 | ⟨rb, hfd0⟩
    · subst hfd0
      simp only [parseP_succ_pclause, hopc, hefc, hfdc]
    · subst hfd0
      simp only [parseP_succ_pclause, hopc, hefc, hfdc]
  cases htp : parseTermOrPhrase fuel l1 with
  | some pr =>
      cases pr with
      | mk b r0 =>
          rw [htp] at h
          exact absurd h (by simp)
  | none =>
      rw [htp] at h
      have htpc := parseTermOrPhrase_collapse_none htp
      cases hbo : parseP fuel PTag.pbool l1 with
      | some pr =>
          cases pr with
          | mk ob rb2 =>
              cases ob with
              | some b =>
                  rw [hbo] at h
                  exact absurd h (by simp)
              | none =>
                  rw [hbo] at h
                  rcases ihS .pbool l1 none rb2 hbo with ⟨ob', hbo', hocl⟩
                  rw [hocl.1 rfl] at hbo'
                  cases hrg : parseRange l1 with
                  | some rp =>
                      cases rp with
                      | mk rg r0 =>
                          rw [hrg] at h
                          exact absurd h (by simp)
                  | none =>
                      simp only [hred, htpc, hbo',
                        parseRange_collapse_none hrg]
      | none =>
          rw [hbo] at h
          have hboc := ihF .pbool l1 hbo
          cases hrg : parseRange l1 with
          | some rp =>
              cases rp with
              | mk rg r0 =>
                  rw [hrg] at h
                  exact absurd h (by simp)
          | none =>
              simp only [hred, htpc, hboc, parseRange_collapse_none hrg]

theorem parseP_collapse : ∀ (fuel : Nat),
    (∀ (tag : PTag) (l : List Char) (o : Option QT) (r : List Char),
      parseP fuel tag l = some (o, r) →
      ∃ o2, parseP fuel tag (collapseAux false l) =
          some (o2, collapseAux false r) ∧ OColl o o2) ∧
    (∀ (tag : PTag) (l : List Char), parseP fuel tag l = none →
      parseP fuel tag (collapseAux false l) = none) := by
  intro fuel
  induction fuel with
  | zero =>
      constructor
      · intro tag l o r h
        rw [parseP] at h
        exact absurd h (by simp)
      · intro tag l _
        rw [parseP]
  | succ fuel ih =>
      rcases ih with ⟨ihS, ihF⟩
      constructor
      · intro tag l o r h
        cases tag with
        | pquery =>
            rw [parseP_succ_pquery] at h
            split at h
            · rename_i c1 r1 hcl
              split at h
              · rename_i rest r2 hst
                injection h with h1
                injection h1 with ho hr
                subst ho; subst hr
                rcases ihS .pclause l (some c1) r1 hcl with ⟨o1', hcl', hocl⟩
                rcases hocl.2 c1 rfl with ⟨c1', hc1', hc1eq⟩
                subst hc1'
                rcases ihS .pqstar r1 rest r2 hst with ⟨rest', hst', horst⟩
                refine ⟨some (mkQ c1' rest'), ?_, mkQ_OColl hc1eq horst⟩
                simp only [parseP_succ_pquery, hcl', hst']
              · exact absurd h (by simp)
            all_goals exact absurd h (by simp)
        | pqstar =>
            rw [parseP_succ_pqstar] at h
            split at h
            · rename_i r1 hws
              split at h
              · rename_i c1 r2 hcl
                split at h
                · rename_i rest r3 hst
                  injection h with h1
                  injection h1 with ho hr
                  subst ho; subst hr
                  rcases ihS .pclause r1 (some c1) r2 hcl with ⟨o1', hcl', hocl⟩
                  rcases hocl.2 c1 rfl with ⟨c1', hc1', hc1eq⟩
                  subst hc1'
                  rcases ihS .pqstar r2 rest r3 hst with ⟨rest', hst', horst⟩
                  refine ⟨some (mkQ c1' rest'), ?_, mkQ_OColl hc1eq horst⟩
                  simp only [parseP_succ_pqstar, parseWs_collapse_some hws,
                    hcl', hst']
                · exact absurd h (by simp)
              · rename_i hnot
                injection h with h1
                injection h1 with ho hr
                subst ho; subst hr
                refine ⟨none, ?_, OColl_refl _⟩
                cases hcl : parseP fuel .pclause r1 with
                | none =>
                    simp only [parseP_succ_pqstar, parseWs_collapse_some hws,
                      ihF .pclause r1 hcl]
                | some pr =>
                    cases pr with
                    | mk o1 rc =>
                        cases o1 with
                        | some c1 => exact absurd hcl (hnot c1 rc)
                        | none =>
                            rcases ihS .pclause r1 none rc hcl with
                              ⟨o1', hcl', hocl⟩
                            rw [hocl.1 rfl] at hcl'
                            simp only [parseP_succ_pqstar,
                              parseWs_collapse_some hws, hcl']
            · rename_i hws
              injection h with h1
              injection h1 with ho hr
              subst ho; subst hr
              refine ⟨none, ?_, OColl_refl _⟩
              simp only [parseP_succ_pqstar, parseWs_collapse_none hws]
        | pclause =>
            rw [parseP_succ_pclause] at h
            split at h
            rename_i op l1 hop
            have hopc := parseOp_collapse hop
            split at h
            · rename_i fn r0 hef
              injection h with h1
              injection h1 with ho hr
              subst ho; subst hr
              exact pclause_collapse_emptyField hop hef
            · rename_i hef
              have hefc := parseEmptyField_collapse_none hef
              cases hfd : parseP fuel .pfielded l1 with
              | some pr =>
                  cases pr with
                  | mk ob rb =>
                      cases ob with
                      | some b =>
                          rw [hfd] at h
                          injection h with h1
                          injection h1 with ho hr
                          subst ho; subst hr
                          rcases ihS .pfielded l1 (some b) rb hfd with
                            ⟨ob', hfd', hocl⟩
                          rcases hocl.2 b rfl with ⟨b', hb', hbeq⟩
                          subst hb'
                          refine ⟨some (QT.clauseN op b'), ?_, clauseN_OColl hbeq⟩
                          simp only [parseP_succ_pclause, hopc, hefc, hfd']
                      | none =>
                          rw [hfd] at h
                          rcases ihS .pfielded l1 none rb hfd with
                            ⟨ob', hfd', hocl⟩
                          rw [hocl.1 rfl] at hfd'
                          exact pclause_tail_collapse ihS ihF hopc hefc hfd'
                            (Or.inr ⟨collapseAux false rb, rfl⟩) h
              | none =>
                  rw [hfd] at h
                  exact pclause_tail_collapse ihS ihF hopc hefc
                    (ihF .pfielded l1 hfd) (Or.inl rfl) h
        | pfielded =>
            rw [parseP_succ_pfielded] at h
            split at h
            · exact absurd h (by simp)
            · rename_i fn r1 hfn
              split at h
              · exact absurd h (by simp)
              · rename_i c r2
                split at h
                · rename_i hc
                  subst hc
                  have hfnc := parseFieldName_collapse_some hfn
                  have hcr1 : collapseAux false (':' :: r2) =
                      ':' :: collapseAux false r2 :=
                    collapseAux_cons_nws (by decide) _ _
                  rw [hcr1] at hfnc
                  split at h
                  · rename_i t0 r0 ht
                    injection h with h1
                    injection h1 with ho hr
                    subst ho; subst hr
                    refine ⟨some (QT.fielded fn (QT.termN t0)), ?_, OColl_refl _⟩
                    simp [parseP_succ_pfielded, hfnc, parseTerm_collapse_some ht]
                  · rename_i ht
                    split at h
                    · rename_i p0 r0 hp
                      injection h with h1
                      injection h1 with ho hr
                      subst ho; subst hr
                      refine ⟨some (QT.fielded fn (QT.phraseN p0)), ?_,
                        OColl_refl _⟩
                      simp [parseP_succ_pfielded, hfnc,
                        parseTerm_collapse_none ht, parsePhrase_collapse_some hp]
                    · rename_i hp
                      split at h
                      · rename_i rg r0 hrg
                        injection h with h1
                        injection h1 with ho hr
                        subst ho; subst hr
                        refine ⟨some (QT.fielded fn (QT.rangeN rg)), ?_,
                          OColl_refl _⟩
                        simp [parseP_succ_pfielded, hfnc,
                          parseTerm_collapse_none ht,
                          parsePhrase_collapse_none hp,
                          parseRange_collapse_some hrg]
                      · rename_i hrg
                        split at h
                        · rename_i b r0 hbo
                          injection h with h1
                          injection h1 with ho hr
                          subst ho; subst hr
                          rcases ihS .pbool r2 (some b) r0 hbo with
                            ⟨ob', hbo', hocl⟩
                          rcases hocl.2 b rfl with ⟨b', hb', hbeq⟩
                          subst hb'
                          refine ⟨some (QT.fielded fn b'), ?_, fielded_OColl hbeq⟩
                          simp [parseP_succ_pfielded, hfnc,
                            parseTerm_collapse_none ht,
                            parsePhrase_collapse_none hp,
                            parseRange_collapse_none hrg, hbo']
                        all_goals exact absurd h (by simp)
                · exact absurd h (by simp)
        | pbool =>
            rw [parseP_succ_pbool] at h
            split at h
            · exact absurd h (by simp)
            · rename_i c t
              split at h
              · rename_i hc
                subst hc
                split at h
                · rename_i q r1 hq
                  split at h
                  · exact absurd h (by simp)
                  · rename_i c2 r2
                    split at h
                    · rename_i hc2
                      subst hc2
                      injection h with h1
                      injection h1 with ho hr
                      subst ho; subst hr
                      rcases ihS .pquery t (some q) (')' :: r2) hq with
                        ⟨oq', hq', hocl⟩
                      rcases hocl.2 q rfl with ⟨q', hq2, hqeq⟩
                      subst hq2
                      have hcr1 : collapseAux false (')' :: r2) =
                          ')' :: collapseAux false r2 :=
                        collapseAux_cons_nws (by decide) _ _
                      rw [hcr1] at hq'
                      refine ⟨some (QT.group q'), ?_, group_OColl hqeq⟩
                      rw [collapseAux_cons_nws (by decide)]
                      simp [parseP_succ_pbool, hq']
                    · exact absurd h (by simp)
                all_goals exact absurd h (by simp)
              · exact absurd h (by simp)
      · intro tag l h
        cases tag with
        | pquery =>
            rw [parseP_succ_pquery] at h
            split at h
            · rename_i c1 r1 hcl
              split at h
              · exact absurd h (by simp)
              · rename_i hst
                rcases ihS .pclause l (some c1) r1 hcl with ⟨o1', hcl', hocl⟩
                rcases hocl.2 c1 rfl with ⟨c1', hc1', _⟩
                subst hc1'
                simp only [parseP_succ_pquery, hcl', ihF .pqstar r1 hst]
            · rename_i hnot
              cases hcl : parseP fuel .pclause l with
              | none => simp only [parseP_succ_pquery, ihF .pclause l hcl]
              | some pr =>
                  cases pr with
                  | mk o1 r1 =>
                      cases o1 with
                      | some c1 => exact absurd hcl (hnot c1 r1)
                      | none =>
                          rcases ihS .pclause l none r1 hcl with ⟨o1', hcl', hocl⟩
                          rw [hocl.1 rfl] at hcl'
                          simp only [parseP_succ_pquery, hcl']
        | pqstar =>
            rw [parseP_succ_pqstar] at h
            split at h
            · rename_i r1 hws
              split at h
              · rename_i c1 r2 hcl
                split at h
                · exact absurd h (by simp)
                · rename_i hst
                  rcases ihS .pclause r1 (some c1) r2 hcl with ⟨o1', hcl', hocl⟩
                  rcases hocl.2 c1 rfl with ⟨c1', hc1', _⟩
                  subst hc1'
                  simp only [parseP_succ_pqstar, parseWs_collapse_some hws,
                    hcl', ihF .pqstar r2 hst]
              · exact absurd h (by simp)
            · exact absurd h (by simp)
        | pclause =>
            rw [parseP_succ_pclause] at h
            split at h
            rename_i op l1 hop
            have hopc := parseOp_collapse hop
            split at h
            · exact absurd h (by simp)
            · rename_i hef
              have hefc := parseEmptyField_collapse_none hef
              cases hfd : parseP fuel .pfielded l1 with
              | some pr =>
                  cases pr with
                  | mk ob rb =>
                      cases ob with
                      | some b =>
                          rw [hfd] at h
                          exact absurd h (by simp)
                      | none =>
                          rw [hfd] at h
                          rcases ihS .pfielded l1 none rb hfd with
                            ⟨ob', hfd', hocl⟩
                          rw [hocl.1 rfl] at hfd'
                          exact pclause_tail_collapse_none ihS ihF hopc hefc hfd'
                            (Or.inr ⟨collapseAux false rb, rfl⟩) h
              | none =>
                  rw [hfd] at h
                  exact pclause_tail_collapse_none ihS ihF hopc hefc
                    (ihF .pfielded l1 hfd) (Or.inl rfl) h
        | pfielded =>
            rw [parseP_succ_pfielded] at h
            split at h
            · rename_i hfn
              simp only [parseP_succ_pfielded, parseFieldName_collapse_none hfn]
            · rename_i fn r1 hfn
              have hfnc := parseFieldName_collapse_some hfn
              split at h
              · simp only [parseP_succ_pfielded, hfnc, collapseAux]
              · rename_i c r2
                split at h
                · rename_i hc
                  subst hc
                  have hcr1 : collapseAux false (':' :: r2) =
                      ':' :: collapseAux false r2 :=
                    collapseAux_cons_nws (by decide) _ _
                  rw [hcr1] at hfnc
                  split at h
                  · exact absurd h (by simp)
                  · rename_i ht
                    split at h
                    · exact absurd h (by simp)
                    · rename_i hp
                      split at h
                      · exact absurd h (by simp)
                      · rename_i hrg
                        split at h
                        · exact absurd h (by simp)
                        · rename_i hnot
                          cases hbo : parseP fuel .pbool r2 with
                          | none =>
                              simp [parseP_succ_pfielded, hfnc,
                                parseTerm_collapse_none ht,
                                parsePhrase_collapse_none hp,
                                parseRange_collapse_none hrg,
                                ihF .pbool r2 hbo]
                          | some pr =>
                              cases pr with
                              | mk ob rb =>
                                  cases ob with
                                  | some b => exact absurd hbo (hnot b rb)
                                  | none =>
                                      rcases ihS .pbool r2 none rb hbo with
                                        ⟨ob', hbo', hocl⟩
                                      rw [hocl.1 rfl] at hbo'
                                      simp [parseP_succ_pfielded, hfnc,
                                        parseTerm_collapse_none ht,
                                        parsePhrase_collapse_none hp,
                                        parseRange_collapse_none hrg, hbo']
                · rename_i hc
                  cases hy : collapseAux false (c :: r2) with
                  | nil => exact absurd hy (collapse_false_ne_nil (by simp))
                  | cons b2 bs =>
                      have hb2 : ¬(b2 = ':') := collapse_head_ne (by decide)
                        (by
                          intro a0 t0 hct
                          injection hct with he _
                          rw [← he]
                          exact hc) hy
                      rw [hy] at hfnc
                      simp [parseP_succ_pfielded, hfnc, hb2]
        | pbool =>
            rw [parseP_succ_pbool] at h
            split at h
            · simp [parseP_succ_pbool, collapseAux]
            · rename_i c t
              split at h
              · rename_i hc
                subst hc
                rw [collapseAux_cons_nws (by decide)]
                split at h
                · rename_i q r1 hq
                  rcases ihS .pquery t (some q) r1 hq with ⟨oq', hq', hocl⟩
                  rcases hocl.2 q rfl with ⟨q', hq2, _⟩
                  subst hq2
                  split at h
                  · simp [parseP_succ_pbool, hq', collapseAux]
                  · rename_i c2 r2
                    split at h
                    · exact absurd h (by simp)
                    · rename_i hc2
                      cases hy : collapseAux false (c2 :: r2) with
                      | nil => exact absurd hy (collapse_false_ne_nil (by simp))
                      | cons b2 bs =>
                          have hb2 : ¬(b2 = ')') := collapse_head_ne (by decide)
                            (by
                              intro a0 t0 hct
                              injection hct with he _
                              rw [← he]
                              exact hc2) hy
                          rw [hy] at hq'
                          simp [parseP_succ_pbool, hq', hb2]
                · rename_i hnot
                  cases hq : parseP fuel .pquery t with
                  | none => simp [parseP_succ_pbool, ihF .pquery t hq]
                  | some pr =>
                      cases pr with
                      | mk oq r1 =>
                          cases oq with
                          | some q => exact absurd hq (hnot q r1)
                          | none =>
                              rcases ihS .pquery t none r1 hq with
                                ⟨oq', hq', hocl⟩
                              rw [hocl.1 rfl] at hq'
                              simp [parseP_succ_pbool, hq']
              · rename_i hc
                cases hy : collapseAux false (c :: t) with
                | nil => exact absurd hy (collapse_false_ne_nil (by simp))
                | cons b2 bs =>
                    have hb2 : ¬(b2 = '(') := collapse_head_ne (by decide)
                      (by
                        intro a0 t0 hct
                        injection hct with he _
                        rw [← he]
                        exact hc) hy
                    simp [parseP_succ_pbool, hb2]

/-- Claim C8: `parse_query` is idempotent on its own output: whenever
`parse_query q` succeeds (no field mapping is involved), running `parse_query`
on the result returns that result unchanged. -/
theorem c8_idempotent :
    ∀ (q s : String), parse_query q = Except.ok s →
      parse_query s = Except.ok s := by
  intro q s h
  rw [parse_query, runGrammar] at h
  cases hlp : luceneParse (pyStrip q.toList) with
  | none =>
      rw [hlp] at h
      exact absurd h (by simp)
  | some t =>
      rw [hlp] at h
      have hpp : parseP (fuelOf (pyStrip q.toList)) .pquery (pyStrip q.toList) =
          some (some t, []) := by
        rw [luceneParse] at hlp
        split at hlp
        · rename_i t0 h0
          injection hlp with hlp
          subst hlp
          exact h0
        all_goals exact absurd hlp (by simp)
      have hcs := parseP_spec _ .pquery _ _ _ hpp
      simp only [ConsumeSpec, NodeSpec] at hcs
      rcases hcs with ⟨n, hn, c, hec, hcol, hcne, hchead, hclast⟩
      injection hn with hn
      subst hn
      rw [List.append_nil] at hec
      split at h
      · exact absurd h (by simp)
      · rename_i t2 hteq
        injection hteq with hteq
        subst hteq
        split at h
        · rename_i out hrb
          injection h with h1
          have hte : hasEmptyQ t = false := rebuild_ok_no_empty t out hrb
          have hout := rebuild_none_render _ _ hrb
          have hslist : s.toList = renderQ t := by
            rw [← h1, hout]
            rfl
          have hrQ : renderQ t = collapseAux false (pyStrip q.toList) := by
            rw [hec, hcol]
          have hhead2 : headNo (renderQ t) := by
            rw [hrQ, hec]
            exact headNo_collapse hchead
          have hlast2 : lastNo (renderQ t) := by
            rw [hrQ, hec]
            exact lastNo_collapse c hclast false
          have hstrip : pyStrip s.toList = renderQ t := by
            rw [hslist]
            exact pyStrip_eq_self hhead2 hlast2
          rcases (parseP_collapse (fuelOf (pyStrip q.toList))).1 .pquery _ _ _
            hpp with ⟨o2, hpp2, hocl⟩
          rcases hocl.2 t rfl with ⟨t2b, ho2, heqt⟩
          rw [ho2, heqt hte] at hpp2
          have hfuel : fuelOf (renderQ t) = fuelOf (pyStrip q.toList) := by
            rw [hrQ, fuelOf_collapse]
          have hpp3 : parseP (fuelOf (renderQ t)) .pquery (renderQ t) =
              some (some t, []) := by
            rw [hfuel, hrQ]
            exact hpp2
          have hlp2 : luceneParse (pyStrip s.toList) = some t := by
            rw [hstrip, luceneParse, hpp3]
          rw [parse_query, runGrammar, hlp2]
          simp only [rebuild_none_ok_of_no_empty t hte]
          rw [← h1, hout]
        all_goals exact absurd h (by simp)

/-- Concrete idempotence instance obtained from the C8 theorem. -/
theorem c8_witness : parse_query "foo bar" = Except.ok "foo bar" :=
  c8_idempotent "foo  bar" "foo bar" rfl

end SmallAsc
